import Mathlib

/-!
# Blockchain statistics plugin: bucketed aggregation

A shallow embedding of `plugins/blockchain_statistics/plugin.cpp`: the bucket
store, `on_block`, `pre_operation`, `post_operation` and the per-operation
visitor `operation_process`, followed by theorems about them.

Conventions of the embedding.
* Times (`fc::time_point_sec`) and `uint32_t` quantities are natural numbers;
  the places where 32-bit range matters (the checked retention cutoff, the
  block size accumulator) carry the bound explicitly.
* Anything the C++ leaves undefined (dereferencing `end()`, dividing by zero)
  and any exception that leaves the function is a `fault`; functions that can
  hit one return `Except fault _`.
* An iterator of the `by_bucket` index is the identity of the bucket it points
  to, `none` standing for `end()`.
-/

namespace blockchain_statistics

/-- Largest value of a `uint32_t`. -/
def UINT32_MAX : Nat := 4294967295

/-- Ways in which a call can fail to return normally. -/
inductive fault where
  /-- A lookup by identity or name found nothing and threw. -/
  | out_of_range
  /-- An insertion would have broken a unique index and threw. -/
  | uniqueness_violated
  /-- The past-the-end iterator of an index was dereferenced (undefined). -/
  | end_dereferenced
  /-- An integer division had divisor zero (undefined). -/
  | division_by_zero
  /-- A left shift of the `int` constant `1` by 32 bits or more (undefined). -/
  | shift_out_of_range
  deriving DecidableEq, Repr

/-- Modelled from the spec: the declaration of `bucket_object` lives in the plugin header,
which is not among the sources. The record has the identity, the pair
(`seconds`, `open`) the store is indexed by, and exactly the counters that
`plugin.cpp` reads or writes. `open_` is the field `open`. Counters changed
with `++` or by a `uint32_t` are naturals, `share_type` amounts are integers;
the spec gives no widths for them, so they are unbounded here. -/
structure bucket_object where
  id : Nat := 0
  open_ : Nat := 0
  seconds : Nat := 0
  blocks : Nat := 0
  bandwidth : Nat := 0
  operations : Nat := 0
  transactions : Nat := 0
  transfers : Nat := 0
  steem_transferred : Int := 0
  sbd_transferred : Int := 0
  sbd_paid_as_interest : Int := 0
  paid_accounts_created : Nat := 0
  mined_accounts_created : Nat := 0
  root_comments : Nat := 0
  root_comment_edits : Nat := 0
  root_comments_deleted : Nat := 0
  replies : Nat := 0
  reply_edits : Nat := 0
  replies_deleted : Nat := 0
  new_root_votes : Nat := 0
  changed_root_votes : Nat := 0
  new_reply_votes : Nat := 0
  changed_reply_votes : Nat := 0
  payouts : Nat := 0
  sbd_paid_to_authors : Int := 0
  vests_paid_to_authors : Int := 0
  vests_paid_to_curators : Int := 0
  liquidity_rewards_paid : Int := 0
  transfers_to_vesting : Nat := 0
  steem_vested : Int := 0
  new_vesting_withdrawal_requests : Nat := 0
  modified_vesting_withdrawal_requests : Nat := 0
  vesting_withdraw_rate_delta : Int := 0
  vesting_withdrawals_processed : Nat := 0
  finished_vesting_withdrawals : Nat := 0
  vests_withdrawn : Int := 0
  vests_transferred : Int := 0
  sbd_conversion_requests_created : Nat := 0
  sbd_to_be_converted : Int := 0
  sbd_conversion_requests_filled : Nat := 0
  steem_converted : Int := 0
  limit_orders_created : Nat := 0
  limit_orders_filled : Nat := 0
  limit_orders_cancelled : Nat := 0
  total_pow : Nat := 0
  estimated_hashpower : Nat := 0
  deriving DecidableEq, Repr

/-- Modelled from the spec: the asset kinds are declared in the protocol library, not among
the sources; the plugin only asks whether a symbol is `STEEM_SYMBOL`. -/
inductive asset_symbol where
  | STEEM_SYMBOL
  | SBD_SYMBOL
  | VESTS_SYMBOL
  deriving DecidableEq, Repr

/-- Modelled from the spec: `asset` is declared in the protocol library; an amount of one
asset kind. -/
structure asset where
  amount : Int
  symbol : asset_symbol
  deriving DecidableEq, Repr

/-- Modelled from the spec: `account_object` is declared in the chain library; the account state
the plugin reads (creation time, current vesting-withdrawal rate). -/
structure account_object where
  id : Nat
  name : String
  created : Nat
  vesting_withdraw_rate : Int
  deriving DecidableEq, Repr

/-- Modelled from the spec: `comment_object` is declared in the chain library; the content
metadata the plugin reads (creation time, parent presence). -/
structure comment_object where
  id : Nat
  author : String
  permlink : String
  created : Nat
  parent_author : String
  deriving DecidableEq, Repr

/-- Modelled from the spec: `comment_vote_object` is declared in the chain library; the
vote-change history of a (content, voter) pair. -/
structure comment_vote_object where
  comment : Nat
  voter : Nat
  num_changes : Int
  deriving DecidableEq, Repr

/-- Modelled from the spec: `database` is declared in the chain library. Here it is what the
plugin sees of it: the head block time, the bucket index with the next
identity it will hand out, and the chain objects the operation rules look up. -/
structure database where
  head_block_time : Nat := 0
  buckets : List bucket_object := []
  next_id : Nat := 0
  accounts : List account_object := []
  comments : List comment_object := []
  comment_votes : List comment_vote_object := []
  num_pow_witnesses : Nat := 0
  hardfork_0_1 : Bool := true
  deriving DecidableEq, Repr

/-- Order of the `by_bucket` index: by `seconds`, then by `open`. -/
def by_bucket_le (a b : bucket_object) : Prop :=
  a.seconds < b.seconds ∨ (a.seconds = b.seconds ∧ a.open_ ≤ b.open_)

instance by_bucket_le_decidable : DecidableRel by_bucket_le := fun a b => by
  unfold by_bucket_le
  exact inferInstance

/-- The buckets in the order the `by_bucket` index iterates them. -/
def by_bucket (l : List bucket_object) : List bucket_object :=
  l.insertionSort by_bucket_le

/-- Whether the key of `b` is below the key `(seconds, open)`. -/
def key_lt (seconds open_ : Nat) (b : bucket_object) : Bool :=
  decide (b.seconds < seconds) || (decide (b.seconds = seconds) && decide (b.open_ < open_))

namespace database

/-- Modelled from the spec: the object database and the declaration of `bucket_index` are not among
the sources. `create` gives the new record the next identity, runs the
initialiser, and refuses (throws) when the identity or the pair
(`seconds`, `open`) is already present: buckets are identified uniquely and
indexed by (resolution, open-time) and by identity. -/
def create (db : database) (init : bucket_object → bucket_object) :
    Except fault (database × bucket_object) :=
  let bo := init { id := db.next_id }
  if db.buckets.any (fun x => decide (x.id = bo.id) ||
      (decide (x.seconds = bo.seconds) && decide (x.open_ = bo.open_))) then
    .error .uniqueness_violated
  else
    .ok ({ db with buckets := db.buckets ++ [bo], next_id := db.next_id + 1 }, bo)

/-- Modelled from the spec: store lookup by identity (`db.get`), which throws when absent. -/
def get (db : database) (id : Nat) : Except fault bucket_object :=
  match db.buckets.find? (fun x => decide (x.id = id)) with
  | some x => .ok x
  | none => .error .out_of_range

/-- Modelled from the spec: store mutate-by-identity (`db.modify`). -/
def modify (db : database) (id : Nat) (m : bucket_object → bucket_object) : database :=
  { db with buckets := db.buckets.map (fun x => if x.id = id then m x else x) }

/-- Modelled from the spec: store removal of one record (`db.remove`). -/
def remove (db : database) (id : Nat) : database :=
  { db with buckets := db.buckets.filter (fun x => decide (x.id ≠ id)) }

/-- Modelled from the spec: `bucket_idx.find(make_tuple(seconds, open))` on the (resolution,
open-time) index: the identity of the bucket with that pair, `none` for
`end()`. -/
def find (db : database) (seconds open_ : Nat) : Option Nat :=
  ((by_bucket db.buckets).find?
    (fun x => decide (x.seconds = seconds) && decide (x.open_ = open_))).map (fun x => x.id)

/-- Modelled from the spec: `bucket_idx.lower_bound(make_tuple(seconds, open))`: the index from
the first bucket whose pair is not below `(seconds, open)` to its end. -/
def lower_bound (db : database) (seconds open_ : Nat) : List bucket_object :=
  (by_bucket db.buckets).dropWhile (key_lt seconds open_)

/-- Modelled from the spec: lookup `get_account(name)`, which throws when the account is absent
("treats absence as a fatal internal error"). -/
def get_account (db : database) (name : String) : Except fault account_object :=
  match db.accounts.find? (fun a => decide (a.name = name)) with
  | some a => .ok a
  | none => .error .out_of_range

/-- Modelled from the spec: lookup `get_comment(author, permlink)`, which throws when absent. -/
def get_comment (db : database) (author permlink : String) : Except fault comment_object :=
  match db.comments.find?
      (fun c => decide (c.author = author) && decide (c.permlink = permlink)) with
  | some c => .ok c
  | none => .error .out_of_range

end database

/-- Insertion into a `flat_set` of identities: ascending, no duplicates. -/
def flat_set_insert (x : Nat) : List Nat → List Nat
  | [] => [x]
  | y :: ys =>
    if x < y then x :: y :: ys
    else if x = y then y :: ys
    else y :: flat_set_insert x ys

/-- The plugin's own state: `database_`, `_tracked_buckets`, `_current_buckets`
and `_maximum_history_per_bucket_size`. -/
structure plugin_impl where
  database_ : database := {}
  _tracked_buckets : List Nat := [60, 3600, 21600, 86400, 604800, 2592000]
  _current_buckets : List Nat := []
  _maximum_history_per_bucket_size : Nat := 100
  deriving DecidableEq, Repr

/-- Modelled from the spec: `signed_block` is declared in the protocol library. A block as
`on_block` reads it: its number, its timestamp, and the packed size
(`fc::raw::pack_size`) of each of its transactions. -/
structure signed_block where
  block_num : Nat
  timestamp : Nat
  transactions : List Nat
  deriving DecidableEq, Repr

/-- The `num_trx` of `on_block`: the transaction count as a `uint32_t`. -/
def num_trx (b : signed_block) : Nat := b.transactions.length % (UINT32_MAX + 1)

/-- The `trx_size` of `on_block`: packed sizes summed in a `uint32_t`. -/
def trx_size (b : signed_block) : Nat :=
  b.transactions.foldl (fun acc sz => (acc + sz) % (UINT32_MAX + 1)) 0

/-- Modelled from the spec: the checked arithmetic `safe<uint32_t>` is library code. Its product
is `none` when it throws `overflow_exception`: both factors positive and the
first above `UINT32_MAX / second`. -/
def safe_mul (a b : Nat) : Option Nat :=
  if 0 < a ∧ 0 < b ∧ UINT32_MAX / b < a then none else some (a * b)

/-- Modelled from the spec: the checked `safe<uint32_t>` difference, `none` when it throws
`underflow_exception` (the result would be negative). -/
def safe_sub (a b : Nat) : Option Nat :=
  if 0 < b ∧ a < b then none else some (a - b)

/-- The retention cutoff `safe(head) - safe(bucket) * safe(max_history)`; `none`
when either checked operation throws. -/
def cutoff (head bucket max_history : Nat) : Option Nat :=
  (safe_mul bucket max_history).bind (fun p => safe_sub head p)

/-- The `while` loop of the retention scan. The first argument list is the
index from `itr` on; an empty one means `itr == end()`, where reading
`itr->seconds` is undefined. Returns the store and the final `itr`. -/
def evict_while (bucket cut : Nat) :
    List bucket_object → database → Except fault (database × Option Nat)
  | [], _ => .error .end_dereferenced
  | x :: rest, db =>
    if x.seconds = bucket ∧ x.open_ < cut then
      evict_while bucket cut rest (db.remove x.id)
    else
      .ok (db, some x.id)

/-- The retention step of `on_block` (the `if (_maximum_history_per_bucket_size > 0)`
block): with a representable cutoff, scan from `lower_bound(bucket, 0)`;
otherwise the exception is swallowed and both store and `itr` stay as they were. -/
def evict (db : database) (bucket max_history : Nat) (itr : Option Nat) :
    Except fault (database × Option Nat) :=
  if 0 < max_history then
    match cutoff db.head_block_time bucket max_history with
    | some cut => evict_while bucket cut (db.lower_bound bucket 0) db
    | none => .ok (db, itr)
  else
    .ok (db, itr)

/-- The dereference `*itr`; undefined at `end()`. -/
def deref (itr : Option Nat) : Except fault Nat :=
  match itr with
  | some id => .ok id
  | none => .error .end_dereferenced

/-- One round of the `for (auto bucket : _tracked_buckets)` loop of `on_block`,
on the store and the active set. -/
def on_block_bucket (max_history n_trx sz : Nat) (st : database × List Nat) (bucket : Nat) :
    Except fault (database × List Nat) :=
  if bucket = 0 then .error .division_by_zero
  else
    let open_ := (st.1.head_block_time / bucket) * bucket
    match st.1.find bucket open_ with
    | none =>
      match st.1.create (fun bo => { bo with open_ := open_, seconds := bucket, blocks := 1 }) with
      | .error e => .error e
      | .ok (db1, bo) =>
        match evict db1 bucket max_history none with
        | .error e => .error e
        | .ok (db2, itr) =>
          match deref itr with
          | .error e => .error e
          | .ok id =>
            .ok (db2.modify id (fun bo => { bo with
                    transactions := bo.transactions + n_trx,
                    bandwidth := bo.bandwidth + sz }),
                 flat_set_insert bo.id st.2)
    | some id =>
      let db1 := st.1.modify id (fun bo => { bo with blocks := bo.blocks + 1 })
      .ok (db1.modify id (fun bo => { bo with
              transactions := bo.transactions + n_trx,
              bandwidth := bo.bandwidth + sz }),
           flat_set_insert id st.2)

/-- The whole `for` loop of `on_block` over the tracked resolutions. -/
def on_block_loop (max_history n_trx sz : Nat) :
    List Nat → database × List Nat → Except fault (database × List Nat)
  | [], st => .ok st
  | bucket :: rest, st =>
    match on_block_bucket max_history n_trx sz st bucket with
    | .error e => .error e
    | .ok st1 => on_block_loop max_history n_trx sz rest st1

/-- The first statement of `on_block`: create the all-time bucket at block 1,
otherwise count the block in the bucket with identity 0. -/
def on_block_all_time (db : database) (b : signed_block) : Except fault database :=
  if b.block_num = 1 then
    match db.create (fun bo => { bo with open_ := b.timestamp, seconds := 0, blocks := 1 }) with
    | .error e => .error e
    | .ok (db1, _) => .ok db1
  else
    match db.get 0 with
    | .error e => .error e
    | .ok bo => .ok (db.modify bo.id (fun bo => { bo with blocks := bo.blocks + 1 }))

/-- The function `plugin_impl::on_block`. -/
def on_block (p : plugin_impl) (b : signed_block) : Except fault plugin_impl :=
  match on_block_all_time p.database_ b with
  | .error e => .error e
  | .ok db0 =>
    match on_block_loop p._maximum_history_per_bucket_size (num_trx b) (trx_size b)
        p._tracked_buckets (db0, flat_set_insert 0 []) with
    | .error e => .error e
    | .ok (db1, current) => .ok { p with database_ := db1, _current_buckets := current }

/-- Modelled from the spec: the operation variant is declared in the protocol library. These are
the kinds the plugin distinguishes, each with the fields the plugin reads;
`other_operation` stands for every kind that has no handler of its own, tagged
by its position in the variant. -/
inductive operation where
  | transfer_operation (amount : asset)
  | interest_operation (interest : asset)
  | account_create_operation
  | pow_operation (worker_account : String)
  | comment_operation (author permlink : String)
  | vote_operation (voter author permlink : String)
  | author_reward_operation (sbd_payout vesting_payout : asset)
  | curation_reward_operation (reward : asset)
  | liquidity_reward_operation (payout : asset)
  | transfer_to_vesting_operation (amount : asset)
  | fill_vesting_withdraw_operation (from_account : String) (withdrawn deposited : asset)
  | limit_order_create_operation
  | fill_order_operation
  | limit_order_cancel_operation
  | convert_operation (amount : asset)
  | fill_convert_request_operation (amount_out : asset)
  | delete_comment_operation (author permlink : String)
  | withdraw_vesting_operation (account : String) (vesting_shares : asset)
  | other_operation (which : Nat)
  deriving DecidableEq, Repr

/-- Modelled from the spec: `operation_notification` is declared in the chain library; an
operation event as handed to the pre- and post-pass. -/
structure operation_notification where
  op : operation
  deriving DecidableEq, Repr

/-- Modelled from the spec: lookup in the vote index by (content, voter); `none` for `end()`. -/
def find_comment_vote (db : database) (comment voter : Nat) : Option comment_vote_object :=
  db.comment_votes.find? (fun v => decide (v.comment = comment) && decide (v.voter = voter))

/-- The visitor `operation_process`: what the handler for `op` makes of the
bucket `b`, reading the chain objects of `db`. The unnamed kinds fall to the
generic handler, which changes nothing. In the proof-of-work handler the
shift `1 << bits` is done in `int`: below 31 bits it is `2 ^ bits`, at 31
bits it is the least `int`, which the conversion to 128 bits turns into
`2 ^ 128 - 2 ^ 31`, and from 32 bits on it is undefined. -/
def operation_process (db : database) (op : operation) (b : bucket_object) :
    Except fault bucket_object :=
  match op with
  | .transfer_operation amount =>
    let b1 := { b with transfers := b.transfers + 1 }
    if amount.symbol = asset_symbol.STEEM_SYMBOL then
      .ok { b1 with steem_transferred := b1.steem_transferred + amount.amount }
    else
      .ok { b1 with sbd_transferred := b1.sbd_transferred + amount.amount }
  | .interest_operation interest =>
    .ok { b with sbd_paid_as_interest := b.sbd_paid_as_interest + interest.amount }
  | .account_create_operation =>
    .ok { b with paid_accounts_created := b.paid_accounts_created + 1 }
  | .pow_operation worker_account =>
    match db.get_account worker_account with
    | .error e => .error e
    | .ok worker =>
      let b1 := if worker.created = db.head_block_time then
          { b with mined_accounts_created := b.mined_accounts_created + 1 } else b
      let b2 := { b1 with total_pow := b1.total_pow + 1 }
      let bits := db.num_pow_witnesses / 4 + 4
      if 32 ≤ bits then .error .shift_out_of_range
      else
        let estimated_hashes := if bits = 31 then 2 ^ 128 - 2 ^ 31 else 2 ^ bits
        let delta_t := if b2.seconds = 0 then
            (db.head_block_time + (UINT32_MAX + 1) - b2.open_ % (UINT32_MAX + 1)) % (UINT32_MAX + 1)
          else b2.seconds
        if delta_t = 0 then .error .division_by_zero
        else
          .ok { b2 with estimated_hashpower :=
                  ((b2.estimated_hashpower * delta_t + estimated_hashes) % 2 ^ 128) / delta_t }
  | .comment_operation author permlink =>
    match db.get_comment author permlink with
    | .error e => .error e
    | .ok comment =>
      if comment.created = db.head_block_time then
        if comment.parent_author.length ≠ 0 then .ok { b with replies := b.replies + 1 }
        else .ok { b with root_comments := b.root_comments + 1 }
      else
        if comment.parent_author.length ≠ 0 then .ok { b with reply_edits := b.reply_edits + 1 }
        else .ok { b with root_comment_edits := b.root_comment_edits + 1 }
  | .vote_operation voter author permlink =>
    match db.get_comment author permlink with
    | .error e => .error e
    | .ok comment =>
      match db.get_account voter with
      | .error e => .error e
      | .ok voter_account =>
        match find_comment_vote db comment.id voter_account.id with
        | none => .error .end_dereferenced
        | some itr =>
          if itr.num_changes ≠ 0 then
            if comment.parent_author.length ≠ 0 then
              .ok { b with new_reply_votes := b.new_reply_votes + 1 }
            else .ok { b with new_root_votes := b.new_root_votes + 1 }
          else
            if comment.parent_author.length ≠ 0 then
              .ok { b with changed_reply_votes := b.changed_reply_votes + 1 }
            else .ok { b with changed_root_votes := b.changed_root_votes + 1 }
  | .author_reward_operation sbd_payout vesting_payout =>
    .ok { b with
      payouts := b.payouts + 1,
      sbd_paid_to_authors := b.sbd_paid_to_authors + sbd_payout.amount,
      vests_paid_to_authors := b.vests_paid_to_authors + vesting_payout.amount }
  | .curation_reward_operation reward =>
    .ok { b with vests_paid_to_curators := b.vests_paid_to_curators + reward.amount }
  | .liquidity_reward_operation payout =>
    .ok { b with liquidity_rewards_paid := b.liquidity_rewards_paid + payout.amount }
  | .transfer_to_vesting_operation amount =>
    .ok { b with
      transfers_to_vesting := b.transfers_to_vesting + 1,
      steem_vested := b.steem_vested + amount.amount }
  | .fill_vesting_withdraw_operation from_account withdrawn deposited =>
    match db.get_account from_account with
    | .error e => .error e
    | .ok account =>
      let b1 := { b with vesting_withdrawals_processed := b.vesting_withdrawals_processed + 1 }
      let b2 := if deposited.symbol = asset_symbol.STEEM_SYMBOL then
          { b1 with vests_withdrawn := b1.vests_withdrawn + withdrawn.amount }
        else
          { b1 with vests_transferred := b1.vests_transferred + withdrawn.amount }
      if account.vesting_withdraw_rate = 0 then
        .ok { b2 with finished_vesting_withdrawals := b2.finished_vesting_withdrawals + 1 }
      else .ok b2
  | .limit_order_create_operation =>
    .ok { b with limit_orders_created := b.limit_orders_created + 1 }
  | .fill_order_operation =>
    .ok { b with limit_orders_filled := b.limit_orders_filled + 2 }
  | .limit_order_cancel_operation =>
    .ok { b with limit_orders_cancelled := b.limit_orders_cancelled + 1 }
  | .convert_operation amount =>
    .ok { b with
      sbd_conversion_requests_created := b.sbd_conversion_requests_created + 1,
      sbd_to_be_converted := b.sbd_to_be_converted + amount.amount }
  | .fill_convert_request_operation amount_out =>
    .ok { b with
      sbd_conversion_requests_filled := b.sbd_conversion_requests_filled + 1,
      steem_converted := b.steem_converted + amount_out.amount }
  | .delete_comment_operation _ _ => .ok b
  | .withdraw_vesting_operation _ _ => .ok b
  | .other_operation _ => .ok b

/-- The body of the `for` loop of `post_operation` for one active bucket:
fetch it (throws when absent), count the operation unless it is virtual,
then let the visitor update it. -/
def post_operation_bucket (is_virtual : Bool) (op : operation) (db : database)
    (bucket_id : Nat) : Except fault database :=
  match db.get bucket_id with
  | .error e => .error e
  | .ok bucket =>
    let db1 := if is_virtual then db
      else db.modify bucket.id (fun b => { b with operations := b.operations + 1 })
    match db1.get bucket.id with
    | .error e => .error e
    | .ok b1 =>
      match operation_process db1 op b1 with
      | .error e => .error e
      | .ok b2 => .ok (db1.modify bucket.id (fun _ => b2))

/-- The `for` loop of `post_operation` over the active set. -/
def post_operation_loop (is_virtual : Bool) (op : operation) :
    List Nat → database → Except fault database
  | [], db => .ok db
  | bucket_id :: rest, db =>
    match post_operation_bucket is_virtual op db bucket_id with
    | .error e => .error e
    | .ok db1 => post_operation_loop is_virtual op rest db1

/-- The function `plugin_impl::post_operation`. The classification
`is_virtual_operation` belongs to the protocol library and is a parameter. -/
def post_operation (is_virtual_operation : operation → Bool) (p : plugin_impl)
    (o : operation_notification) : Except fault plugin_impl :=
  match post_operation_loop (is_virtual_operation o.op) o.op p._current_buckets p.database_ with
  | .error e => .error e
  | .ok db => .ok { p with database_ := db }

/-- The withdrawal rate `pre_operation` computes for a requested amount: the
amount over the number of intervals (C++ division, towards zero), at least 1
for a positive amount, times 10000 before hardfork 0.1. -/
def new_vesting_withdrawal_rate (intervals : Int) (has_hardfork_0_1 : Bool) (amount : Int) : Int :=
  let r0 := Int.tdiv amount intervals
  let r1 := if 0 < amount ∧ r0 = 0 then 1 else r0
  if has_hardfork_0_1 then r1 else r1 * 10000

/-- The body of the `for` loop of `pre_operation` for one active bucket. The
constant `STEEMIT_VESTING_WITHDRAW_INTERVALS` belongs to the protocol
configuration and is the parameter `intervals`. -/
def pre_operation_bucket (intervals : Int) (op : operation) (db : database)
    (bucket_id : Nat) : Except fault database :=
  match op with
  | .delete_comment_operation author permlink =>
    match db.get_comment author permlink with
    | .error e => .error e
    | .ok comment =>
      match db.get bucket_id with
      | .error e => .error e
      | .ok bucket =>
        .ok (db.modify bucket.id (fun b =>
          if comment.parent_author.length ≠ 0 then
            { b with replies_deleted := b.replies_deleted + 1 }
          else
            { b with root_comments_deleted := b.root_comments_deleted + 1 }))
  | .withdraw_vesting_operation account_name vesting_shares =>
    match db.get_account account_name with
    | .error e => .error e
    | .ok account =>
      match db.get bucket_id with
      | .error e => .error e
      | .ok bucket =>
        if intervals = 0 then .error .division_by_zero
        else
          let rate := new_vesting_withdrawal_rate intervals db.hardfork_0_1 vesting_shares.amount
          .ok (db.modify bucket.id (fun b =>
            let b1 := if 0 < account.vesting_withdraw_rate then
                { b with modified_vesting_withdrawal_requests :=
                    b.modified_vesting_withdrawal_requests + 1 }
              else
                { b with new_vesting_withdrawal_requests :=
                    b.new_vesting_withdrawal_requests + 1 }
            { b1 with vesting_withdraw_rate_delta :=
                b1.vesting_withdraw_rate_delta + (rate - account.vesting_withdraw_rate) }))
  | _ => .ok db

/-- The `for` loop of `pre_operation` over the active set. -/
def pre_operation_loop (intervals : Int) (op : operation) :
    List Nat → database → Except fault database
  | [], db => .ok db
  | bucket_id :: rest, db =>
    match pre_operation_bucket intervals op db bucket_id with
    | .error e => .error e
    | .ok db1 => pre_operation_loop intervals op rest db1

/-- The function `plugin_impl::pre_operation`. -/
def pre_operation (intervals : Int) (p : plugin_impl) (o : operation_notification) :
    Except fault plugin_impl :=
  match pre_operation_loop intervals o.op p._current_buckets p.database_ with
  | .error e => .error e
  | .ok db => .ok { p with database_ := db }

/-- Modelled from the spec: the ledger event source is not among the sources. It applies a
block: the head block time becomes the block's timestamp, then the
`applied_block` signal runs `on_block`, once per block. -/
def apply_block (p : plugin_impl) (b : signed_block) : Except fault plugin_impl :=
  on_block { p with database_ := { p.database_ with head_block_time := b.timestamp } } b

/-- Modelled from the spec: the event source applies the blocks one after the other, in order;
a fault stops the run. -/
def apply_blocks : plugin_impl → List signed_block → Except fault plugin_impl
  | p, [] => .ok p
  | p, b :: rest =>
    match apply_block p b with
    | .error e => .error e
    | .ok p1 => apply_blocks p1 rest

/-- Every identity occurs at most once among the buckets of the store. -/
def unique_ids (db : database) : Prop := (db.buckets.map (fun x => x.id)).Nodup

instance unique_ids_decidable (db : database) : Decidable (unique_ids db) := by
  unfold unique_ids
  exact inferInstance

/-- Two buckets have the same (resolution, open) pair. -/
def same_pair (a b : bucket_object) : Prop := a.seconds = b.seconds ∧ a.open_ = b.open_

instance same_pair_decidable : DecidableRel same_pair := fun a b => by
  unfold same_pair
  exact inferInstance

/-- The store holds at most one bucket per (resolution, open) pair: no two of
its buckets have the same pair. -/
def unique_pairs (db : database) : Prop := db.buckets.Pairwise (fun a b => ¬ same_pair a b)

instance unique_pairs_decidable (db : database) : Decidable (unique_pairs db) := by
  unfold unique_pairs
  exact inferInstance

/-- The test of the retention scan: the bucket is of resolution `r` and opened
before the cutoff. -/
def expired (r cut : Nat) (x : bucket_object) : Bool :=
  decide (x.seconds = r) && decide (x.open_ < cut)

/-- The buckets of resolution `r`, in store order. -/
def slice (db : database) (r : Nat) : List bucket_object :=
  db.buckets.filter (fun x => decide (x.seconds = r))

instance by_bucket_le_total : IsTotal bucket_object by_bucket_le :=
  ⟨fun a b => by unfold by_bucket_le; omega⟩

instance by_bucket_le_trans : IsTrans bucket_object by_bucket_le :=
  ⟨fun a b c h1 h2 => by unfold by_bucket_le at *; omega⟩

/-- The update of the end of a round: the block's transaction count and size. -/
def add_block_stats (n s : Nat) (z : bucket_object) : bucket_object :=
  { z with transactions := z.transactions + n, bandwidth := z.bandwidth + s }

/-- The update of a bucket found for the block: one more block. -/
def count_block (z : bucket_object) : bucket_object :=
  { z with blocks := z.blocks + 1 }

/-- The record `on_block` creates: given identity, open time and resolution,
one block. -/
def new_bucket (id open_ seconds : Nat) : bucket_object :=
  { id := id, open_ := open_, seconds := seconds, blocks := 1 }

/-- A function that rewrites the bucket of one identity and keeps the three
identifying fields. -/
def keeps_key (f : bucket_object → bucket_object) : Prop :=
  ∀ z, (f z).id = z.id ∧ (f z).seconds = z.seconds ∧ (f z).open_ = z.open_

/-- A store after two blocks: the all-time bucket opened at 100 and the
one-minute bucket opened at 120, head block time 130. -/
def example_plugin : plugin_impl :=
  { database_ :=
      { head_block_time := 130,
        buckets := [new_bucket 0 100 0, new_bucket 1 120 60],
        next_id := 2 },
    _tracked_buckets := [60],
    _current_buckets := [0, 1],
    _maximum_history_per_bucket_size := 2 }

/-- A block at time 130 with three transactions of 1000 bytes in all. -/
def example_block : signed_block :=
  { block_num := 3, timestamp := 130, transactions := [250, 250, 500] }

/-- The state `on_block` leaves for `example_plugin` and `example_block`. -/
def example_plugin_after : plugin_impl :=
  { database_ :=
      { head_block_time := 130,
        buckets := [{ new_bucket 0 100 0 with blocks := 2 },
                    { new_bucket 1 120 60 with blocks := 2, transactions := 3, bandwidth := 1000 }],
        next_id := 2 },
    _tracked_buckets := [60],
    _current_buckets := [0, 1],
    _maximum_history_per_bucket_size := 2 }

/-- A store with three one-minute buckets and the all-time bucket, at the
moment a block at time 190 arrives; two buckets are retained. -/
def example_plugin_evict : plugin_impl :=
  { database_ :=
      { head_block_time := 190,
        buckets := [new_bucket 0 5 0, new_bucket 1 0 60, new_bucket 2 60 60, new_bucket 3 120 60],
        next_id := 4 },
    _tracked_buckets := [60],
    _current_buckets := [0, 3],
    _maximum_history_per_bucket_size := 2 }

/-- A block at time 190 with two transactions of 300 bytes in all. -/
def example_block_evict : signed_block :=
  { block_num := 5, timestamp := 190, transactions := [100, 200] }

/-- The state `on_block` leaves for `example_plugin_evict` and
`example_block_evict`: the buckets opened at 0 and 60 are gone, the bucket
opened at 180 is new, and the block's transactions are counted in the bucket
opened at 120. -/
def example_plugin_evict_after : plugin_impl :=
  { database_ :=
      { head_block_time := 190,
        buckets := [{ new_bucket 0 5 0 with blocks := 2 },
                    { new_bucket 3 120 60 with transactions := 2, bandwidth := 300 },
                    new_bucket 4 180 60],
        next_id := 5 },
    _tracked_buckets := [60],
    _current_buckets := [0, 4],
    _maximum_history_per_bucket_size := 2 }

/-- The bucket with identity 0 is in place for the block: block 1 meets a store
that has handed out no identity yet, any other block a store whose bucket 0
(if any) is the all-time bucket. -/
def all_time_ready (db : database) (b : signed_block) : Prop :=
  if b.block_num = 1 then db.next_id = 0 else ∀ x ∈ db.buckets, x.id = 0 → x.seconds = 0

instance all_time_ready_decidable (db : database) (b : signed_block) :
    Decidable (all_time_ready db b) := by
  unfold all_time_ready
  exact inferInstance

/-- What one round of the loop of `on_block` for resolution `r` at head block
time `t` makes of the buckets of resolution `r`, `L` before and `L'` after:
either the bucket of the block was there and is updated, or it is created, the
expired buckets are dropped and the block is counted in the earliest bucket
that is left. -/
def round_spec (m n s r t : Nat) (L L' : List bucket_object) : Prop :=
  (∃ x ∈ L, x.open_ = t / r * r ∧
    L' = L.map (fun z => if z.id = x.id then add_block_stats n s (count_block z) else z)) ∨
  ((∀ x ∈ L, x.open_ ≠ t / r * r) ∧ 0 < m ∧
    ∃ cut, cutoff t r m = some cut ∧
    ∃ nid, (∀ x ∈ L, x.id ≠ nid) ∧
    expired r cut (new_bucket nid (t / r * r) r) = false ∧
    ∃ y ∈ L ++ [new_bucket nid (t / r * r) r],
      expired r cut y = false ∧
      (∀ z ∈ L ++ [new_bucket nid (t / r * r) r], expired r cut z = false → y.open_ ≤ z.open_) ∧
      L' = ((L ++ [new_bucket nid (t / r * r) r]).filter (fun z => !expired r cut z)).map
            (fun z => if z.id = y.id then add_block_stats n s z else z))

/-- The `transactions` the bucket with identity `id` has in the store, 0 when
the store has no such bucket. -/
def prior_transactions (db : database) (id : Nat) : Nat :=
  match db.get id with
  | .ok x => x.transactions
  | .error _ => 0

/-- The `bandwidth` the bucket with identity `id` has in the store, 0 when the
store has no such bucket. -/
def prior_bandwidth (db : database) (id : Nat) : Nat :=
  match db.get id with
  | .ok x => x.bandwidth
  | .error _ => 0

/-- The spec's reading of step 4 of `onBlock`: every bucket of the resulting
active set has the block's transaction count and size added to what it had
before the call (nothing, for a bucket created by the call). -/
def block_stats_added (p p' : plugin_impl) (b : signed_block) : Prop :=
  ∀ y ∈ p'.database_.buckets, y.id ∈ p'._current_buckets →
    y.transactions = prior_transactions p.database_ y.id + num_trx b ∧
    y.bandwidth = prior_bandwidth p.database_ y.id + trx_size b

instance block_stats_added_decidable (p p' : plugin_impl) (b : signed_block) :
    Decidable (block_stats_added p p' b) := by
  unfold block_stats_added
  exact inferInstance

/-- The blocks of the list are numbered `k`, `k + 1`, ... in order. -/
def numbered_from : Nat → List signed_block → Prop
  | _, [] => True
  | k, b :: rest => b.block_num = k ∧ numbered_from (k + 1) rest

instance numbered_from_decidable : ∀ (k : Nat) (bs : List signed_block),
    Decidable (numbered_from k bs)
  | _, [] => isTrue trivial
  | k, b :: rest =>
    have := numbered_from_decidable (k + 1) rest
    by unfold numbered_from; exact inferInstance

/-- A plugin on a fresh store, tracking one-minute buckets and retaining two. -/
def retention_fresh : plugin_impl :=
  { _tracked_buckets := [60], _maximum_history_per_bucket_size := 2 }

/-- Four blocks, numbered from 1, at times 0, 60, 120 and 180. -/
def retention_chain : List signed_block :=
  [{ block_num := 1, timestamp := 0, transactions := [] },
   { block_num := 2, timestamp := 60, transactions := [] },
   { block_num := 3, timestamp := 120, transactions := [] },
   { block_num := 4, timestamp := 180, transactions := [] }]

/-- A plugin on a fresh store, tracking one-minute buckets, with the retained
history set to 0 (eviction disabled). -/
def no_history_plugin : plugin_impl :=
  { _tracked_buckets := [60], _maximum_history_per_bucket_size := 0 }

/-- The first block of a chain, at time 1500000000, without transactions. -/
def first_block : signed_block :=
  { block_num := 1, timestamp := 1500000000, transactions := [] }

/-- The first update of `post_operation`: one more operation, unless the
operation is virtual. -/
def count_operation (is_virtual : Bool) (z : bucket_object) : bucket_object :=
  if is_virtual then z else { z with operations := z.operations + 1 }

/-- A state between two operations of the block at time 130: the all-time
bucket and the one-minute bucket are active, an hourly bucket is not. -/
def example_plugin_ops : plugin_impl :=
  { database_ :=
      { head_block_time := 130,
        buckets := [new_bucket 0 100 0, new_bucket 1 120 60, new_bucket 2 0 3600],
        next_id := 3 },
    _tracked_buckets := [60],
    _current_buckets := [0, 1],
    _maximum_history_per_bucket_size := 2 }

/-- Every identity in the store is below the next identity the store hands
out. -/
def ids_below (db : database) : Prop := ∀ x ∈ db.buckets, x.id < db.next_id

instance ids_below_decidable (db : database) : Decidable (ids_below db) := by
  unfold ids_below
  exact inferInstance

/-- The condition under which the round of `on_block` for resolution `r`
returns on the store `db`: `r` is not zero, and either the bucket of the block
is in the store or the retention cutoff can be computed (`m > 0`, `r * m`
within 32 bits and not above the head block time). -/
def round_returns (db : database) (m r : Nat) : Prop :=
  r ≠ 0 ∧
  ((∃ x ∈ db.buckets, x.seconds = r ∧ x.open_ = db.head_block_time / r * r) ∨
    (0 < m ∧ r * m ≤ UINT32_MAX ∧ r * m ≤ db.head_block_time))

instance round_returns_decidable (db : database) (m r : Nat) :
    Decidable (round_returns db m r) := by
  unfold round_returns
  exact inferInstance

/-- When `on_block` meets the store `db` with the block `b`, its first
statement returns: block 1 finds no bucket of resolution 0 opened at its
timestamp, any other block finds the bucket with identity 0. -/
def all_time_returns (db : database) (b : signed_block) : Prop :=
  if b.block_num = 1 then ∀ x ∈ db.buckets, ¬ (x.seconds = 0 ∧ x.open_ = b.timestamp)
  else ∃ x ∈ db.buckets, x.id = 0

instance all_time_returns_decidable (db : database) (b : signed_block) :
    Decidable (all_time_returns db b) := by
  unfold all_time_returns
  exact inferInstance

/-- Every bucket of `db'` either continues a bucket of `db` (same identity,
resolution and open time) or has an identity that `db` had not handed out yet;
`db'` has handed out at least the identities `db` had. -/
def continues (db db' : database) : Prop :=
  db.next_id ≤ db'.next_id ∧
  ∀ y ∈ db'.buckets,
    (∃ x ∈ db.buckets, x.id = y.id ∧ x.seconds = y.seconds ∧ x.open_ = y.open_) ∨
    db.next_id ≤ y.id

/-- What the post-pass makes of an active bucket `z`: the operation count,
then the handler of the operation; `z` itself where the handler does not
return. -/
def processed (db : database) (v : Bool) (op : operation) (z : bucket_object) : bucket_object :=
  match operation_process db op (count_operation v z) with
  | .ok y => y
  | .error _ => z

/-- The update the pre-pass applies to an active bucket `z` for the operation
`op`, with the chain objects of `db`; `z` itself where a lookup fails or the
operation has no rule in the pre-pass. -/
def pre_processed (intervals : Int) (db : database) (op : operation) (z : bucket_object) :
    bucket_object :=
  match op with
  | .delete_comment_operation author permlink =>
    match db.get_comment author permlink with
    | .error _ => z
    | .ok comment =>
      if comment.parent_author.length ≠ 0 then
        { z with replies_deleted := z.replies_deleted + 1 }
      else
        { z with root_comments_deleted := z.root_comments_deleted + 1 }
  | .withdraw_vesting_operation account_name vesting_shares =>
    match db.get_account account_name with
    | .error _ => z
    | .ok account =>
      let rate := new_vesting_withdrawal_rate intervals db.hardfork_0_1 vesting_shares.amount
      let b1 := if 0 < account.vesting_withdraw_rate then
          { z with modified_vesting_withdrawal_requests :=
              z.modified_vesting_withdrawal_requests + 1 }
        else
          { z with new_vesting_withdrawal_requests :=
              z.new_vesting_withdrawal_requests + 1 }
      { b1 with vesting_withdraw_rate_delta :=
          b1.vesting_withdraw_rate_delta + (rate - account.vesting_withdraw_rate) }
  | _ => z

/-- The post-pass over a run of operation events, in the order the ledger
delivers them. -/
def post_operations (is_virtual_operation : operation → Bool) :
    plugin_impl → List operation_notification → Except fault plugin_impl
  | p, [] => .ok p
  | p, o :: os =>
    match post_operation is_virtual_operation p o with
    | .error e => .error e
    | .ok p1 => post_operations is_virtual_operation p1 os

/-- Every counter of `y` other than the signed `vesting_withdraw_rate_delta`
is at least the counter of `x`. -/
def counters_le (x y : bucket_object) : Prop :=
  x.blocks ≤ y.blocks ∧ x.bandwidth ≤ y.bandwidth ∧ x.operations ≤ y.operations ∧
  x.transactions ≤ y.transactions ∧ x.transfers ≤ y.transfers ∧
  x.steem_transferred ≤ y.steem_transferred ∧ x.sbd_transferred ≤ y.sbd_transferred ∧
  x.sbd_paid_as_interest ≤ y.sbd_paid_as_interest ∧
  x.paid_accounts_created ≤ y.paid_accounts_created ∧
  x.mined_accounts_created ≤ y.mined_accounts_created ∧
  x.root_comments ≤ y.root_comments ∧ x.root_comment_edits ≤ y.root_comment_edits ∧
  x.root_comments_deleted ≤ y.root_comments_deleted ∧ x.replies ≤ y.replies ∧
  x.reply_edits ≤ y.reply_edits ∧ x.replies_deleted ≤ y.replies_deleted ∧
  x.new_root_votes ≤ y.new_root_votes ∧ x.changed_root_votes ≤ y.changed_root_votes ∧
  x.new_reply_votes ≤ y.new_reply_votes ∧ x.changed_reply_votes ≤ y.changed_reply_votes ∧
  x.payouts ≤ y.payouts ∧ x.sbd_paid_to_authors ≤ y.sbd_paid_to_authors ∧
  x.vests_paid_to_authors ≤ y.vests_paid_to_authors ∧
  x.vests_paid_to_curators ≤ y.vests_paid_to_curators ∧
  x.liquidity_rewards_paid ≤ y.liquidity_rewards_paid ∧
  x.transfers_to_vesting ≤ y.transfers_to_vesting ∧ x.steem_vested ≤ y.steem_vested ∧
  x.new_vesting_withdrawal_requests ≤ y.new_vesting_withdrawal_requests ∧
  x.modified_vesting_withdrawal_requests ≤ y.modified_vesting_withdrawal_requests ∧
  x.vesting_withdrawals_processed ≤ y.vesting_withdrawals_processed ∧
  x.finished_vesting_withdrawals ≤ y.finished_vesting_withdrawals ∧
  x.vests_withdrawn ≤ y.vests_withdrawn ∧ x.vests_transferred ≤ y.vests_transferred ∧
  x.sbd_conversion_requests_created ≤ y.sbd_conversion_requests_created ∧
  x.sbd_to_be_converted ≤ y.sbd_to_be_converted ∧
  x.sbd_conversion_requests_filled ≤ y.sbd_conversion_requests_filled ∧
  x.steem_converted ≤ y.steem_converted ∧ x.limit_orders_created ≤ y.limit_orders_created ∧
  x.limit_orders_filled ≤ y.limit_orders_filled ∧
  x.limit_orders_cancelled ≤ y.limit_orders_cancelled ∧ x.total_pow ≤ y.total_pow ∧
  x.estimated_hashpower ≤ y.estimated_hashpower

instance counters_le_decidable (x y : bucket_object) : Decidable (counters_le x y) := by
  unfold counters_le
  exact inferInstance

/-- The amounts the handler of `op` adds to a bucket are not negative. -/
def amounts_nonneg : operation → Prop
  | .transfer_operation amount => 0 ≤ amount.amount
  | .interest_operation interest => 0 ≤ interest.amount
  | .author_reward_operation sbd_payout vesting_payout =>
    0 ≤ sbd_payout.amount ∧ 0 ≤ vesting_payout.amount
  | .curation_reward_operation reward => 0 ≤ reward.amount
  | .liquidity_reward_operation payout => 0 ≤ payout.amount
  | .transfer_to_vesting_operation amount => 0 ≤ amount.amount
  | .fill_vesting_withdraw_operation _ withdrawn _ => 0 ≤ withdrawn.amount
  | .convert_operation amount => 0 ≤ amount.amount
  | .fill_convert_request_operation amount_out => 0 ≤ amount_out.amount
  | _ => True

instance amounts_nonneg_decidable (op : operation) : Decidable (amounts_nonneg op) := by
  cases op <;> unfold amounts_nonneg <;> exact inferInstance

/-- The hash-power estimate and the resolution of `x` are small enough for
the 128-bit update of the estimate not to wrap. -/
def hashpower_fits (x : bucket_object) : Prop :=
  x.estimated_hashpower < 2 ^ 95 ∧ x.seconds ≤ UINT32_MAX

instance hashpower_fits_decidable (x : bucket_object) : Decidable (hashpower_fits x) := by
  unfold hashpower_fits
  exact inferInstance

/-- The bucket `y` is the bucket `x` up to `operations` and the counters the
handler of `op` writes. -/
def row_frame (op : operation) (x y : bucket_object) : Prop :=
  match op with
  | .transfer_operation _ =>
    y = { x with operations := y.operations, transfers := y.transfers,
                 steem_transferred := y.steem_transferred,
                 sbd_transferred := y.sbd_transferred }
  | .interest_operation _ =>
    y = { x with operations := y.operations, sbd_paid_as_interest := y.sbd_paid_as_interest }
  | .account_create_operation =>
    y = { x with operations := y.operations, paid_accounts_created := y.paid_accounts_created }
  | .pow_operation _ =>
    y = { x with operations := y.operations,
                 mined_accounts_created := y.mined_accounts_created,
                 total_pow := y.total_pow, estimated_hashpower := y.estimated_hashpower }
  | .comment_operation _ _ =>
    y = { x with operations := y.operations, replies := y.replies,
                 root_comments := y.root_comments, reply_edits := y.reply_edits,
                 root_comment_edits := y.root_comment_edits }
  | .vote_operation _ _ _ =>
    y = { x with operations := y.operations, new_reply_votes := y.new_reply_votes,
                 new_root_votes := y.new_root_votes,
                 changed_reply_votes := y.changed_reply_votes,
                 changed_root_votes := y.changed_root_votes }
  | .author_reward_operation _ _ =>
    y = { x with operations := y.operations, payouts := y.payouts,
                 sbd_paid_to_authors := y.sbd_paid_to_authors,
                 vests_paid_to_authors := y.vests_paid_to_authors }
  | .curation_reward_operation _ =>
    y = { x with operations := y.operations,
                 vests_paid_to_curators := y.vests_paid_to_curators }
  | .liquidity_reward_operation _ =>
    y = { x with operations := y.operations,
                 liquidity_rewards_paid := y.liquidity_rewards_paid }
  | .transfer_to_vesting_operation _ =>
    y = { x with operations := y.operations, transfers_to_vesting := y.transfers_to_vesting,
                 steem_vested := y.steem_vested }
  | .fill_vesting_withdraw_operation _ _ _ =>
    y = { x with operations := y.operations,
                 vesting_withdrawals_processed := y.vesting_withdrawals_processed,
                 vests_withdrawn := y.vests_withdrawn,
                 vests_transferred := y.vests_transferred,
                 finished_vesting_withdrawals := y.finished_vesting_withdrawals }
  | .limit_order_create_operation =>
    y = { x with operations := y.operations, limit_orders_created := y.limit_orders_created }
  | .fill_order_operation =>
    y = { x with operations := y.operations, limit_orders_filled := y.limit_orders_filled }
  | .limit_order_cancel_operation =>
    y = { x with operations := y.operations,
                 limit_orders_cancelled := y.limit_orders_cancelled }
  | .convert_operation _ =>
    y = { x with operations := y.operations,
                 sbd_conversion_requests_created := y.sbd_conversion_requests_created,
                 sbd_to_be_converted := y.sbd_to_be_converted }
  | .fill_convert_request_operation _ =>
    y = { x with operations := y.operations,
                 sbd_conversion_requests_filled := y.sbd_conversion_requests_filled,
                 steem_converted := y.steem_converted }
  | .delete_comment_operation _ _ => y = { x with operations := y.operations }
  | .withdraw_vesting_operation _ _ => y = { x with operations := y.operations }
  | .other_operation _ => y = { x with operations := y.operations }

instance row_frame_decidable (op : operation) (x y : bucket_object) :
    Decidable (row_frame op x y) := by
  cases op <;> unfold row_frame <;> exact inferInstance

/-- Every bucket of `db2` either has the identity of a bucket of `db1` whose
counters it does not fall below, or has an identity `db1` had not handed out
yet. -/
def grows (db1 db2 : database) : Prop :=
  db1.next_id ≤ db2.next_id ∧
  ∀ y ∈ db2.buckets,
    (∃ x ∈ db1.buckets, x.id = y.id ∧ counters_le x y) ∨ db1.next_id ≤ y.id

/-- The time span `delta_t` of the proof-of-work handler for the bucket `b`:
the resolution of the bucket, and for the all-time bucket the 32-bit
difference of the head block time and the open time. -/
def delta_t (db : database) (b : bucket_object) : Nat :=
  if b.seconds = 0 then
    (db.head_block_time + (UINT32_MAX + 1) - b.open_ % (UINT32_MAX + 1)) % (UINT32_MAX + 1)
  else b.seconds

/-- The local `estimated_hashes` of the proof-of-work handler for the queue
of `db`: the `int` value of `1 << bits`, converted to 128 bits. At 31 bits
the `int` is the least one, and its conversion is `2 ^ 128 - 2 ^ 31`. -/
def estimated_hashes (db : database) : Nat :=
  let bits := db.num_pow_witnesses / 4 + 4
  if bits = 31 then 2 ^ 128 - 2 ^ 31 else 2 ^ bits

/-- The state `example_plugin_ops` with chain objects: three accounts (the
withdrawal rate of `carol` is 70), a root post
and a reply created in the current block, a first vote of `alice` on the
reply and a vote of hers on the post that she changed twice, and a queue of
8 proof-of-work witnesses. -/
def example_plugin_chain : plugin_impl :=
  { example_plugin_ops with
    database_ :=
      { example_plugin_ops.database_ with
        accounts :=
          [{ id := 1, name := "alice", created := 50, vesting_withdraw_rate := 0 },
           { id := 2, name := "miner", created := 130, vesting_withdraw_rate := 0 },
           { id := 3, name := "carol", created := 60, vesting_withdraw_rate := 70 }],
        comments :=
          [{ id := 6, author := "bob", permlink := "post", created := 100, parent_author := "" },
           { id := 7, author := "carol", permlink := "re-post", created := 130,
             parent_author := "bob" }],
        comment_votes :=
          [{ comment := 7, voter := 1, num_changes := 0 },
           { comment := 6, voter := 1, num_changes := 2 }],
        num_pow_witnesses := 8 } }

/-- A classification for the examples: the kinds the ledger derives itself
are virtual. -/
def example_is_virtual : operation → Bool
  | .interest_operation _ => true
  | .author_reward_operation _ _ => true
  | .curation_reward_operation _ => true
  | .liquidity_reward_operation _ => true
  | .fill_vesting_withdraw_operation _ _ _ => true
  | .fill_order_operation => true
  | .fill_convert_request_operation _ => true
  | _ => false

/-- A run of three operations, the second of them virtual. -/
def example_run : List operation_notification :=
  [{ op := .transfer_operation { amount := 1000, symbol := asset_symbol.STEEM_SYMBOL } },
   { op := .interest_operation { amount := 5, symbol := asset_symbol.SBD_SYMBOL } },
   { op := .account_create_operation }]

/-- The state the post-pass leaves for `example_plugin_chain` and
`example_run`. -/
def example_plugin_run_after : plugin_impl :=
  { example_plugin_chain with database_ := { example_plugin_chain.database_ with
    buckets :=
      [{ new_bucket 0 100 0 with
          operations := 2, transfers := 1, steem_transferred := 1000,
          sbd_paid_as_interest := 5, paid_accounts_created := 1 },
       { new_bucket 1 120 60 with
          operations := 2, transfers := 1, steem_transferred := 1000,
          sbd_paid_as_interest := 5, paid_accounts_created := 1 },
       new_bucket 2 0 3600] } }

/-- The state the post-pass leaves for `example_plugin_chain` and the first
vote of `alice` on the reply. -/
def example_plugin_vote_after : plugin_impl :=
  { example_plugin_chain with database_ := { example_plugin_chain.database_ with
    buckets :=
      [{ new_bucket 0 100 0 with operations := 1, changed_reply_votes := 1 },
       { new_bucket 1 120 60 with operations := 1, changed_reply_votes := 1 },
       new_bucket 2 0 3600] } }

/-- What the pre-pass needs to return for `op` on an active bucket that is in
the store: the content of a deletion, or the account of a withdrawal setup, is
found, and the number of withdrawal intervals is not zero. -/
def pre_lookups_found (intervals : Int) (db : database) : operation → Prop
  | .delete_comment_operation author permlink =>
    ∃ comment, db.get_comment author permlink = .ok comment
  | .withdraw_vesting_operation account_name _ =>
    (∃ account, db.get_account account_name = .ok account) ∧ intervals ≠ 0
  | _ => True

/-- The state the pre-pass leaves for `example_plugin_chain` and a withdrawal
setup of 130 by `carol`, whose rate is 70. -/
def example_plugin_carol_after : plugin_impl :=
  { example_plugin_chain with database_ := { example_plugin_chain.database_ with
    buckets :=
      [{ new_bucket 0 100 0 with
          modified_vesting_withdrawal_requests := 1, vesting_withdraw_rate_delta := -60 },
       { new_bucket 1 120 60 with
          modified_vesting_withdrawal_requests := 1, vesting_withdraw_rate_delta := -60 },
       new_bucket 2 0 3600] } }

/-- The state the pre-pass leaves for `example_plugin_chain` and the deletion
of the reply of `carol`. -/
def example_plugin_delete_after : plugin_impl :=
  { example_plugin_chain with database_ := { example_plugin_chain.database_ with
    buckets :=
      [{ new_bucket 0 100 0 with replies_deleted := 1 },
       { new_bucket 1 120 60 with replies_deleted := 1 },
       new_bucket 2 0 3600] } }

/-- The state the post-pass leaves for `example_plugin_chain` (a queue of 8
proof-of-work witnesses, so 64 estimated hashes) and a proof of work of
`miner`, whose account was created in the current block: the time span of
the all-time bucket is 30 seconds, that of the one-minute bucket 60. -/
def example_plugin_pow_after : plugin_impl :=
  { example_plugin_chain with database_ := { example_plugin_chain.database_ with
    buckets :=
      [{ new_bucket 0 100 0 with
          operations := 1, mined_accounts_created := 1, total_pow := 1,
          estimated_hashpower := 2 },
       { new_bucket 1 120 60 with
          operations := 1, mined_accounts_created := 1, total_pow := 1,
          estimated_hashpower := 1 },
       new_bucket 2 0 3600] } }

/-- Every bucket of `db2` either has the identity and the `operations` of a
bucket of `db1`, or has an identity `db1` had not handed out yet and no
operation counted. -/
def keeps_operations (db1 db2 : database) : Prop :=
  db1.next_id ≤ db2.next_id ∧
  ∀ y ∈ db2.buckets,
    (∃ x ∈ db1.buckets, x.id = y.id ∧ y.operations = x.operations) ∨
    (db1.next_id ≤ y.id ∧ y.operations = 0)

/-- A plugin on a fresh store at head block time 130, tracking one-minute
buckets and retaining one; the chain has the account `miner`, created at
130, and a queue of 8 proof-of-work witnesses. -/
def genesis_plugin : plugin_impl :=
  { database_ :=
      { head_block_time := 130,
        accounts := [{ id := 2, name := "miner", created := 130, vesting_withdraw_rate := 0 }],
        num_pow_witnesses := 8 },
    _tracked_buckets := [60],
    _current_buckets := [],
    _maximum_history_per_bucket_size := 1 }

/-- The first block of the chain, at time 130, without transactions. -/
def genesis_block : signed_block :=
  { block_num := 1, timestamp := 130, transactions := [] }

/-- The state `on_block` leaves for `genesis_plugin` and `genesis_block`: the
all-time bucket opened at 130 and the one-minute bucket opened at 120, both
active. -/
def genesis_plugin_after : plugin_impl :=
  { genesis_plugin with
    database_ :=
      { genesis_plugin.database_ with
        buckets := [new_bucket 0 130 0, new_bucket 1 120 60],
        next_id := 2 },
    _current_buckets := [0, 1] }

/-- A plugin on a fresh store at head block time 130, tracking one-minute
buckets and retaining one; the chain has the account `miner`, created at
130, and a queue of 107 proof-of-work witnesses. -/
def mining_plugin : plugin_impl :=
  { database_ :=
      { head_block_time := 130,
        accounts := [{ id := 2, name := "miner", created := 130, vesting_withdraw_rate := 0 }],
        num_pow_witnesses := 107 },
    _tracked_buckets := [60],
    _current_buckets := [],
    _maximum_history_per_bucket_size := 1 }

/-- The first two blocks of a chain, at times 130 and 133. -/
def mining_chain : List signed_block :=
  [{ block_num := 1, timestamp := 130, transactions := [] },
   { block_num := 2, timestamp := 133, transactions := [] }]

/-- The state the two blocks of `mining_chain` leave on `mining_plugin`: the
all-time bucket opened at 130 and the one-minute bucket opened at 120, both
active, at head block time 133. -/
def mining_opened : plugin_impl :=
  { mining_plugin with
    database_ :=
      { mining_plugin.database_ with
        head_block_time := 133,
        buckets := [{ new_bucket 0 130 0 with blocks := 2 },
                    { new_bucket 1 120 60 with blocks := 2 }],
        next_id := 2 },
    _current_buckets := [0, 1] }

/-- Three proofs of work of `miner`. -/
def mining_operations : List operation_notification :=
  [{ op := .pow_operation "miner" }, { op := .pow_operation "miner" },
   { op := .pow_operation "miner" }]

/-- The state the post-pass leaves on `mining_opened` after the three proofs
of work of `mining_operations`, each worth `2 ^ 30` hashes: the time span of
the all-time bucket is 3 seconds, that of the one-minute bucket 60. -/
def mining_mined : plugin_impl :=
  { mining_opened with
    database_ :=
      { mining_opened.database_ with
        buckets :=
          [{ new_bucket 0 130 0 with
              blocks := 2, operations := 3, total_pow := 3,
              estimated_hashpower := 1073741823 },
           { new_bucket 1 120 60 with
              blocks := 2, operations := 3, total_pow := 3,
              estimated_hashpower := 53687091 }] } }

/-- The state `mining_mined` once the queue holds 108 proof-of-work
witnesses. -/
def mining_queue : plugin_impl :=
  { mining_mined with
    database_ := { mining_mined.database_ with num_pow_witnesses := 108 } }

/-- The state the post-pass leaves on `mining_queue` after one more proof of
work of `miner`: both estimates have fallen. -/
def mining_queue_after : plugin_impl :=
  { mining_queue with
    database_ :=
      { mining_queue.database_ with
        buckets :=
          [{ new_bucket 0 130 0 with
              blocks := 2, operations := 4, total_pow := 4,
              estimated_hashpower := 357913940 },
           { new_bucket 1 120 60 with
              blocks := 2, operations := 4, total_pow := 4,
              estimated_hashpower := 17895696 }] } }

/-- The state `mining_mined` once the queue holds 112 proof-of-work
witnesses. -/
def mining_full : plugin_impl :=
  { mining_mined with
    database_ := { mining_mined.database_ with num_pow_witnesses := 112 } }

/-- The state the pre-pass leaves for `example_plugin_chain` and a withdrawal
setup of 130 by `alice`, whose rate is 0. -/
def example_plugin_alice_after : plugin_impl :=
  { example_plugin_chain with database_ := { example_plugin_chain.database_ with
    buckets :=
      [{ new_bucket 0 100 0 with
          new_vesting_withdrawal_requests := 1, vesting_withdraw_rate_delta := 10 },
       { new_bucket 1 120 60 with
          new_vesting_withdrawal_requests := 1, vesting_withdraw_rate_delta := 10 },
       new_bucket 2 0 3600] } }

/-- What the handler of `op` needs to return on the bucket `b`: the account
of a proof of work is found, its shift has fewer than 32 bits and the time
span of `b` is not zero; the content of a post or reply is found; the
content, the voter and the vote record of a vote are found; the account of a
processed withdrawal is found. The other handlers look nothing up. -/
def post_lookups_found (db : database) (op : operation) (b : bucket_object) : Bool :=
  match op with
  | .pow_operation worker_account =>
    match db.get_account worker_account with
    | .error _ => false
    | .ok _ => decide (db.num_pow_witnesses / 4 + 4 < 32) && decide (delta_t db b ≠ 0)
  | .comment_operation author permlink =>
    match db.get_comment author permlink with
    | .error _ => false
    | .ok _ => true
  | .vote_operation voter author permlink =>
    match db.get_comment author permlink with
    | .error _ => false
    | .ok comment =>
      match db.get_account voter with
      | .error _ => false
      | .ok voter_account => (find_comment_vote db comment.id voter_account.id).isSome
  | .fill_vesting_withdraw_operation from_account _ _ =>
    match db.get_account from_account with
    | .error _ => false
    | .ok _ => true
  | _ => true

/-- The blocks of the list are at the times `j * r`, `(j + 1) * r`, ... in
order. -/
def spaced_from (r : Nat) : Nat → List signed_block → Prop
  | _, [] => True
  | j, b :: rest => b.timestamp = j * r ∧ spaced_from r (j + 1) rest

instance spaced_from_decidable (r : Nat) : ∀ (j : Nat) (bs : List signed_block),
    Decidable (spaced_from r j bs)
  | _, [] => isTrue trivial
  | j, b :: rest =>
    have := spaced_from_decidable r (j + 1) rest
    by unfold spaced_from; exact inferInstance

/-- Four blocks, numbered from 1, at times 120, 180, 240 and 300. -/
def window_chain : List signed_block :=
  [{ block_num := 1, timestamp := 120, transactions := [] },
   { block_num := 2, timestamp := 180, transactions := [] },
   { block_num := 3, timestamp := 240, transactions := [] },
   { block_num := 4, timestamp := 300, transactions := [] }]

/-- The state the four blocks of `window_chain` leave on `retention_fresh`:
the one-minute bucket opened at 120 is gone, those opened at 180, 240 and 300
are there. -/
def window_after : plugin_impl :=
  { database_ :=
      { head_block_time := 300,
        buckets := [{ new_bucket 0 120 0 with blocks := 4 }, new_bucket 2 180 60,
                    new_bucket 3 240 60, new_bucket 4 300 60],
        next_id := 5 },
    _tracked_buckets := [60],
    _current_buckets := [0, 4],
    _maximum_history_per_bucket_size := 2 }


/-! ## Lemmas on the bucket store and the retention scan -/

theorem mem_by_bucket {l : List bucket_object} {x : bucket_object} :
    x ∈ by_bucket l ↔ x ∈ l := by
  unfold by_bucket
  exact List.mem_insertionSort _

theorem sorted_by_bucket (l : List bucket_object) : (by_bucket l).Sorted by_bucket_le := by
  unfold by_bucket
  exact List.sorted_insertionSort _ l

/-- On a sorted list, dropping while a downward closed test holds leaves exactly
the elements that fail it. -/
theorem mem_dropWhile_of_sorted {p : bucket_object → Bool} :
    ∀ {l : List bucket_object}, l.Sorted by_bucket_le →
      (∀ a b, by_bucket_le a b → p b = true → p a = true) →
      ∀ x, x ∈ l.dropWhile p ↔ x ∈ l ∧ p x = false
  | [], _, _, x => by simp
  | a :: l, hs, hp, x => by
    have hs' := List.sorted_cons.mp hs
    by_cases ha : p a = true
    · rw [List.dropWhile_cons_of_pos ha, mem_dropWhile_of_sorted hs'.2 hp x]
      constructor
      · rintro ⟨h1, h2⟩
        exact ⟨List.mem_cons_of_mem _ h1, h2⟩
      · rintro ⟨h1, h2⟩
        rcases List.mem_cons.mp h1 with rfl | h1
        · simp [ha] at h2
        · exact ⟨h1, h2⟩
    · rw [List.dropWhile_cons_of_neg ha]
      constructor
      · intro h1
        refine ⟨h1, ?_⟩
        rcases List.mem_cons.mp h1 with rfl | h1
        · simpa using ha
        · have := hs'.1 x h1
          by_contra hx
          exact ha (hp a x this (by simpa using hx))
      · exact fun h => h.1

theorem mem_lower_bound {db : database} {r : Nat} {x : bucket_object} :
    x ∈ db.lower_bound r 0 ↔ x ∈ db.buckets ∧ r ≤ x.seconds := by
  unfold database.lower_bound
  rw [mem_dropWhile_of_sorted (sorted_by_bucket _), mem_by_bucket]
  · simp [key_lt]
  · intro a b hab hb
    simp only [key_lt, Nat.not_lt_zero, decide_False, Bool.and_false, Bool.or_false,
      decide_eq_true_eq] at hb ⊢
    unfold by_bucket_le at hab
    omega

theorem sorted_lower_bound (db : database) (r o : Nat) :
    (db.lower_bound r o).Sorted by_bucket_le := by
  unfold database.lower_bound
  exact (sorted_by_bucket _).sublist (List.dropWhile_sublist _)

theorem expired_iff {r cut : Nat} {x : bucket_object} :
    expired r cut x = true ↔ x.seconds = r ∧ x.open_ < cut := by
  simp [expired]

theorem eq_of_id_eq {db : database} (h : unique_ids db) {x y : bucket_object}
    (hx : x ∈ db.buckets) (hy : y ∈ db.buckets) (hxy : x.id = y.id) : x = y :=
  List.inj_on_of_nodup_map h hx hy hxy

/-- What a returning retention scan did: it removed a prefix of the index made
of expired buckets and stopped at the first bucket that is not expired. -/
theorem evict_while_ok {r cut : Nat} :
    ∀ {L : List bucket_object} {db db' : database} {itr : Option Nat},
      evict_while r cut L db = .ok (db', itr) →
      ∃ pre y post, L = pre ++ y :: post ∧
        (∀ x ∈ pre, expired r cut x = true) ∧ expired r cut y = false ∧ itr = some y.id ∧
        db' = { db with buckets :=
          db.buckets.filter (fun x => decide (x.id ∉ pre.map (fun z => z.id))) }
  | [], db, db', itr, h => by simp [evict_while] at h
  | a :: L, db, db', itr, h => by
    by_cases ha : a.seconds = r ∧ a.open_ < cut
    · rw [evict_while, if_pos ha] at h
      obtain ⟨pre, y, post, hL, hpre, hy, hitr, hdb⟩ := evict_while_ok h
      refine ⟨a :: pre, y, post, by simp [hL], ?_, hy, hitr, ?_⟩
      · intro x hx
        rcases List.mem_cons.mp hx with rfl | hx
        · exact expired_iff.mpr ha
        · exact hpre x hx
      · rw [hdb]
        simp only [database.remove, List.filter_filter, List.map_cons, List.mem_cons, not_or]
        congr 1
        apply List.filter_congr
        intro x _
        simp only [Bool.and_eq_true, decide_eq_true_eq, ne_eq, Bool.decide_and]
        rw [Bool.and_comm]
    · rw [evict_while, if_neg ha] at h
      simp only [Except.ok.injEq, Prod.mk.injEq] at h
      refine ⟨[], a, L, rfl, by simp, ?_, h.2.symm, ?_⟩
      · rw [← Bool.not_eq_true, expired_iff]; exact ha
      · rw [← h.1]; simp

/-- The retention scan returns as soon as the index holds a bucket that is not
expired. -/
theorem evict_while_returns {r cut : Nat} :
    ∀ {L : List bucket_object} (db : database),
      (∃ y ∈ L, expired r cut y = false) →
      ∃ db' itr, evict_while r cut L db = .ok (db', itr)
  | [], _, h => by simp at h
  | a :: L, db, h => by
    by_cases ha : a.seconds = r ∧ a.open_ < cut
    · rw [evict_while, if_pos ha]
      apply evict_while_returns
      obtain ⟨y, hy, hy2⟩ := h
      rcases List.mem_cons.mp hy with rfl | hy
      · rw [← Bool.not_eq_true, expired_iff] at hy2; exact absurd ha hy2
      · exact ⟨y, hy, hy2⟩
    · rw [evict_while, if_neg ha]
      exact ⟨_, _, rfl⟩

/-- A returning scan started at `lower_bound(r, 0)` removed exactly the expired
buckets, and stopped at the least bucket at or above `(r, 0)` that is not
expired. -/
theorem evict_while_lower_bound {r cut : Nat} {db db' : database} {itr : Option Nat}
    (hu : unique_ids db) (h : evict_while r cut (db.lower_bound r 0) db = .ok (db', itr)) :
    db' = { db with buckets := db.buckets.filter (fun x => !expired r cut x) } ∧
    ∃ y ∈ db.buckets, itr = some y.id ∧ r ≤ y.seconds ∧ expired r cut y = false ∧
      ∀ z ∈ db.buckets, r ≤ z.seconds → expired r cut z = false → by_bucket_le y z := by
  obtain ⟨pre, y, post, hL, hpre, hy, hitr, hdb⟩ := evict_while_ok h
  have hs := sorted_lower_bound db r 0
  rw [hL] at hs
  have hs2 := (List.pairwise_append.mp hs).2.1
  have hypost : ∀ z ∈ post, by_bucket_le y z := (List.pairwise_cons.mp hs2).1
  have hmem : ∀ z, z ∈ pre ++ y :: post ↔ z ∈ db.buckets ∧ r ≤ z.seconds := by
    intro z; rw [← hL]; exact mem_lower_bound
  have hy_mem := (hmem y).mp (by simp)
  refine ⟨?_, y, hy_mem.1, hitr, hy_mem.2, hy, ?_⟩
  · rw [hdb]
    congr 1
    apply List.filter_congr
    intro x hx
    by_cases hex : expired r cut x = true
    · have hxL : x ∈ pre ++ y :: post := (hmem x).mpr ⟨hx, by
        have := expired_iff.mp hex; omega⟩
      have hxpre : x ∈ pre := by
        rcases List.mem_append.mp hxL with h1 | h1
        · exact h1
        · rcases List.mem_cons.mp h1 with rfl | h1
          · rw [hex] at hy; exact absurd hy (by simp)
          · have hle := hypost x h1
            have hx2 := expired_iff.mp hex
            have : expired r cut y = true := by
              rw [expired_iff]
              unfold by_bucket_le at hle
              have := hy_mem.2
              omega
            rw [this] at hy; exact absurd hy (by simp)
      have : x.id ∈ pre.map (fun z => z.id) := List.mem_map.mpr ⟨x, hxpre, rfl⟩
      simp [hex, this]
    · have : x.id ∉ pre.map (fun z => z.id) := by
        intro hc
        obtain ⟨z, hz, hzx⟩ := List.mem_map.mp hc
        have hzdb : z ∈ db.buckets := ((hmem z).mp (by simp [hz])).1
        have := eq_of_id_eq hu hzdb hx hzx
        subst this
        exact hex (hpre z hz)
      simp [hex, this]
  · intro z hz hzr hze
    have hzL : z ∈ pre ++ y :: post := (hmem z).mpr ⟨hz, hzr⟩
    rcases List.mem_append.mp hzL with h1 | h1
    · rw [hpre z h1] at hze; exact absurd hze (by simp)
    · rcases List.mem_cons.mp h1 with rfl | h1
      · unfold by_bucket_le; omega
      · exact hypost z h1

theorem find_eq_none {db : database} {r o : Nat} :
    db.find r o = none ↔ ∀ x ∈ db.buckets, ¬ (x.seconds = r ∧ x.open_ = o) := by
  unfold database.find
  simp [mem_by_bucket]

theorem find_eq_some {db : database} {r o id : Nat} (h : db.find r o = some id) :
    ∃ x ∈ db.buckets, x.id = id ∧ x.seconds = r ∧ x.open_ = o := by
  unfold database.find at h
  rw [Option.map_eq_some'] at h
  obtain ⟨x, hx, hid⟩ := h
  have h1 := List.find?_some hx
  have h2 := mem_by_bucket.mp (List.mem_of_find?_eq_some hx)
  simp only [Bool.and_eq_true, decide_eq_true_eq] at h1
  exact ⟨x, h2, hid, h1.1, h1.2⟩

theorem create_ok {db db1 : database} {init : bucket_object → bucket_object} {bo : bucket_object}
    (h : db.create init = .ok (db1, bo)) :
    bo = init { id := db.next_id } ∧
    db1 = { db with buckets := db.buckets ++ [bo], next_id := db.next_id + 1 } ∧
    ∀ x ∈ db.buckets, x.id ≠ bo.id ∧ ¬ (x.seconds = bo.seconds ∧ x.open_ = bo.open_) := by
  unfold database.create at h
  simp only at h
  split at h
  · exact absurd h (by simp)
  · rename_i hc
    simp only [Except.ok.injEq, Prod.mk.injEq] at h
    refine ⟨h.2.symm, ?_, ?_⟩
    · rw [← h.1, ← h.2]
    · intro x hx
      simp only [List.any_eq_true, Bool.or_eq_true, decide_eq_true_eq, Bool.and_eq_true,
        not_exists, not_and, not_or] at hc
      have := hc x hx
      rw [← h.2]
      exact ⟨this.1, fun hh => this.2 hh.1 hh.2⟩

/-- What a returning round of the loop did, by cases on whether the bucket of
the block existed. -/
theorem on_block_bucket_inv {m n s r : Nat} {st st' : database × List Nat}
    (hu : unique_ids st.1) (h : on_block_bucket m n s st r = .ok st') :
    r ≠ 0 ∧
    ((∃ x ∈ st.1.buckets, x.seconds = r ∧ x.open_ = st.1.head_block_time / r * r ∧
        st' = ({ st.1 with buckets := (st.1.buckets.map
                  (fun z => if z.id = x.id then add_block_stats n s (count_block z) else z)) },
               flat_set_insert x.id st.2)) ∨
     ((∀ x ∈ st.1.buckets, ¬ (x.seconds = r ∧ x.open_ = st.1.head_block_time / r * r)) ∧
      (∀ x ∈ st.1.buckets, x.id ≠ st.1.next_id) ∧ 0 < m ∧
      ∃ cut, cutoff st.1.head_block_time r m = some cut ∧
      expired r cut (new_bucket st.1.next_id (st.1.head_block_time / r * r) r) = false ∧
      ∃ y ∈ st.1.buckets ++ [new_bucket st.1.next_id (st.1.head_block_time / r * r) r],
        y.seconds = r ∧ expired r cut y = false ∧
        (∀ z ∈ st.1.buckets ++ [new_bucket st.1.next_id (st.1.head_block_time / r * r) r],
          z.seconds = r → expired r cut z = false → y.open_ ≤ z.open_) ∧
        st' = ({ st.1 with
                  buckets := (((st.1.buckets ++
                      [new_bucket st.1.next_id (st.1.head_block_time / r * r) r]).filter
                      (fun z => !expired r cut z)).map
                    (fun z => if z.id = y.id then add_block_stats n s z else z)),
                  next_id := st.1.next_id + 1 },
               flat_set_insert st.1.next_id st.2))) := by
  unfold on_block_bucket at h
  split at h
  · exact absurd h (by simp)
  rename_i hr
  refine ⟨hr, ?_⟩
  simp only at h
  split at h
  · -- created
    rename_i hfind
    right
    split at h
    · exact absurd h (by simp)
    rename_i db1 bo hcreate
    obtain ⟨hbo, hdb1, hfresh⟩ := create_ok hcreate
    have hbo' : bo = new_bucket st.1.next_id (st.1.head_block_time / r * r) r := by
      rw [hbo]; rfl
    split at h
    · exact absurd h (by simp)
    rename_i db2 itr hevict
    split at h
    · exact absurd h (by simp)
    rename_i id hderef
    simp only [Except.ok.injEq] at h
    have hitr : itr = some id := by
      unfold deref at hderef
      split at hderef
      · simp only [Except.ok.injEq] at hderef; rw [hderef]
      · exact absurd hderef (by simp)
    unfold evict at hevict
    split at hevict
    · rename_i hm
      split at hevict
      · rename_i cut hcut
        have hcut' : cutoff st.1.head_block_time r m = some cut := by
          rw [hdb1] at hcut; exact hcut
        have hu1 : unique_ids db1 := by
          unfold unique_ids
          rw [hdb1]
          simp only [List.map_append, List.map_cons, List.map_nil]
          rw [List.nodup_append]
          refine ⟨hu, by simp, ?_⟩
          intro a ha hb
          rw [List.mem_singleton] at hb
          subst hb
          obtain ⟨x, hx, hxid⟩ := List.mem_map.mp ha
          exact (hfresh x hx).1 hxid
        obtain ⟨hdb2, y, hy, hy_itr, hy_r, hy_exp, hy_min⟩ := evict_while_lower_bound hu1 hevict
        have hb1 : db1.buckets = st.1.buckets ++
            [new_bucket st.1.next_id (st.1.head_block_time / r * r) r] := by
          rw [hdb1, hbo']
        have hbo_mem : bo ∈ db1.buckets := by rw [hdb1]; simp
        -- the new bucket is not expired, so the scan stops at resolution `r`
        have hbo_exp : expired r cut bo = false := by
          rw [hbo']
          simp only [expired, new_bucket, decide_True, Bool.true_and, decide_eq_false_iff_not,
            not_lt]
          unfold cutoff safe_mul safe_sub at hcut'
          split at hcut'
          · simp at hcut'
          · simp only [Option.bind_eq_bind, Option.some_bind] at hcut'
            split at hcut'
            · simp at hcut'
            · rename_i h2
              simp only [Option.some.injEq] at hcut'
              have hrpos : 0 < r := Nat.pos_of_ne_zero hr
              have h3 : r ≤ r * m := Nat.le_mul_of_pos_right r hm
              have h4 := Nat.div_add_mod st.1.head_block_time r
              have h5 := Nat.mod_lt st.1.head_block_time hrpos
              rw [Nat.mul_comm] at h4
              omega
        have hbo_r : bo.seconds = r := by rw [hbo']; rfl
        have hy_sec : y.seconds = r := by
          have := hy_min bo hbo_mem (by omega) hbo_exp
          unfold by_bucket_le at this
          omega
        have hid : id = y.id := by rw [hy_itr] at hitr; simpa using hitr.symm
        refine ⟨find_eq_none.mp hfind, fun x hx => ?_, hm, cut, hcut', hbo' ▸ hbo_exp, y,
          hb1 ▸ hy, hy_sec, hy_exp, ?_, ?_⟩
        · have := (hfresh x hx).1; rw [hbo'] at this; exact this
        · intro z hz hzr hze
          have := hy_min z (hb1 ▸ hz) (by omega) hze
          unfold by_bucket_le at this
          omega
        · rw [← h, hdb2, hid, hdb1, hbo']
          rfl
      · simp only [Except.ok.injEq, Prod.mk.injEq] at hevict
        rw [← hevict.2] at hitr
        exact absurd hitr (by simp)
    · simp only [Except.ok.injEq, Prod.mk.injEq] at hevict
      rw [← hevict.2] at hitr
      exact absurd hitr (by simp)
  · -- found
    rename_i id hfind
    left
    obtain ⟨x, hx, hxid, hxr, hxo⟩ := find_eq_some hfind
    refine ⟨x, hx, hxr, hxo, ?_⟩
    simp only [Except.ok.injEq] at h
    rw [← h, hxid]
    simp only [database.modify, List.map_map]
    congr 2
    apply List.map_congr_left
    intro z _
    simp only [Function.comp]
    by_cases hz : z.id = id
    · simp [hz, add_block_stats, count_block]
    · simp [hz]

theorem filter_map_of_fixed {p : bucket_object → Bool} {f : bucket_object → bucket_object} :
    ∀ {l : List bucket_object}, (∀ z, p (f z) = p z) → (∀ z ∈ l, p z = true → f z = z) →
      (l.map f).filter p = l.filter p
  | [], _, _ => rfl
  | a :: l, hp, hf => by
    have ih := filter_map_of_fixed (l := l) hp (fun z hz => hf z (List.mem_cons_of_mem _ hz))
    by_cases ha : p a = true
    · have h1 : f a = a := hf a (List.mem_cons_self _ _) ha
      simp only [List.map_cons, h1, List.filter_cons, ha, ite_true, ih]
    · have h2 : ¬ p (f a) = true := by rw [hp]; exact ha
      simp only [List.map_cons, List.filter_cons, ha, h2, ite_false, ih]
      simp

theorem map_id_map_of_id_eq {f : bucket_object → bucket_object} (hf : ∀ z, (f z).id = z.id)
    (l : List bucket_object) : (l.map f).map (fun x => x.id) = l.map (fun x => x.id) := by
  rw [List.map_map]
  apply List.map_congr_left
  intro z _
  exact hf z

theorem unique_ids_append_new {db : database} {nb : bucket_object} (hu : unique_ids db)
    (hfresh : ∀ x ∈ db.buckets, x.id ≠ nb.id) :
    ((db.buckets ++ [nb]).map (fun x => x.id)).Nodup := by
  simp only [List.map_append, List.map_cons, List.map_nil]
  rw [List.nodup_append]
  refine ⟨hu, by simp, ?_⟩
  intro a ha hb
  rw [List.mem_singleton] at hb
  subst hb
  obtain ⟨x, hx, hxid⟩ := List.mem_map.mp ha
  exact hfresh x hx hxid

theorem add_block_stats_id (n s : Nat) (z : bucket_object) : (add_block_stats n s z).id = z.id := rfl
theorem add_block_stats_seconds (n s : Nat) (z : bucket_object) :
    (add_block_stats n s z).seconds = z.seconds := rfl
theorem add_block_stats_open (n s : Nat) (z : bucket_object) :
    (add_block_stats n s z).open_ = z.open_ := rfl
theorem count_block_id (z : bucket_object) : (count_block z).id = z.id := rfl
theorem count_block_seconds (z : bucket_object) : (count_block z).seconds = z.seconds := rfl
theorem count_block_open (z : bucket_object) : (count_block z).open_ = z.open_ := rfl

theorem keeps_key_found (n s id : Nat) :
    keeps_key (fun z => if z.id = id then add_block_stats n s (count_block z) else z) := by
  intro z
  by_cases h : z.id = id <;> simp [h, add_block_stats, count_block]

theorem keeps_key_created (n s id : Nat) :
    keeps_key (fun z => if z.id = id then add_block_stats n s z else z) := by
  intro z
  by_cases h : z.id = id <;> simp [h, add_block_stats]

/-- One round of the loop keeps identities unique, keeps the head block time,
and leaves the buckets of every other resolution exactly as they were. -/
theorem on_block_bucket_frame {m n s r : Nat} {st st' : database × List Nat}
    (hu : unique_ids st.1) (h : on_block_bucket m n s st r = .ok st') :
    r ≠ 0 ∧ unique_ids st'.1 ∧ st'.1.head_block_time = st.1.head_block_time ∧
    ∀ r', r' ≠ r → slice st'.1 r' = slice st.1 r' := by
  obtain ⟨hr, hcase⟩ := on_block_bucket_inv hu h
  refine ⟨hr, ?_⟩
  rcases hcase with ⟨x, hx, hxr, hxo, hst⟩ | ⟨hnone, hfresh, hm, cut, hcut, hnb, y, hy, hyr, hye, hymin, hst⟩
  · subst hst
    refine ⟨?_, rfl, ?_⟩
    · unfold unique_ids
      simp only
      rw [map_id_map_of_id_eq (fun z => (keeps_key_found n s x.id z).1)]
      exact hu
    · intro r' hr'
      unfold slice
      simp only
      apply filter_map_of_fixed
      · intro z
        rw [(keeps_key_found n s x.id z).2.1]
      · intro z hz hzr
        have hzr' : z.seconds = r' := by simpa using hzr
        have : z.id ≠ x.id := by
          intro hc
          have := eq_of_id_eq hu hz hx hc
          subst this
          omega
        simp [this]
  · subst hst
    have hu1 := @unique_ids_append_new st.1
      (new_bucket st.1.next_id (st.1.head_block_time / r * r) r) hu hfresh
    refine ⟨?_, rfl, ?_⟩
    · unfold unique_ids
      simp only
      rw [map_id_map_of_id_eq (fun z => (keeps_key_created n s y.id z).1)]
      exact hu1.sublist ((List.filter_sublist _).map _)
    · intro r' hr'
      unfold slice
      simp only
      rw [filter_map_of_fixed]
      · rw [List.filter_filter, List.filter_append]
        have h1 : List.filter (fun a => decide (a.seconds = r') && !expired r cut a)
            [new_bucket st.1.next_id (st.1.head_block_time / r * r) r] = [] := by
          simp [new_bucket, Ne.symm hr']
        rw [h1, List.append_nil]
        apply List.filter_congr
        intro z _
        by_cases hz : z.seconds = r'
        · simp [hz, expired, hr']
        · simp [hz]
      · intro z
        rw [(keeps_key_created n s y.id z).2.1]
      · intro z hz hzr
        have hzr' : z.seconds = r' := by simpa using hzr
        have hz' : z ∈ st.1.buckets ++ [new_bucket st.1.next_id (st.1.head_block_time / r * r) r] :=
          (List.mem_filter.mp hz).1
        have : z.id ≠ y.id := by
          intro hc
          have := List.inj_on_of_nodup_map hu1 hz' hy hc
          subst this
          omega
        simp [this]

/-- One round of the loop puts in the active set a bucket of the store with
resolution `r` and open time `floor(t / r) * r`. -/
theorem on_block_bucket_active {m n s r : Nat} {st st' : database × List Nat}
    (hu : unique_ids st.1) (h : on_block_bucket m n s st r = .ok st') :
    ∃ x ∈ st'.1.buckets, x.seconds = r ∧ x.open_ = st.1.head_block_time / r * r ∧
      st'.2 = flat_set_insert x.id st.2 := by
  obtain ⟨hr, hcase⟩ := on_block_bucket_inv hu h
  rcases hcase with ⟨x, hx, hxr, hxo, hst⟩ | ⟨hnone, hfresh, hm, cut, hcut, hnb, y, hy, hyr, hye, hymin, hst⟩
  · subst hst
    refine ⟨add_block_stats n s (count_block x), ?_, hxr, hxo, rfl⟩
    simp only [List.mem_map]
    exact ⟨x, hx, by simp⟩
  · subst hst
    have hk := keeps_key_created n s y.id (new_bucket st.1.next_id (st.1.head_block_time / r * r) r)
    refine ⟨_, List.mem_map.mpr ⟨new_bucket st.1.next_id (st.1.head_block_time / r * r) r, ?_, rfl⟩,
      ?_, ?_, ?_⟩
    · rw [List.mem_filter]
      exact ⟨by simp, by simp [hnb]⟩
    · rw [hk.2.1]; rfl
    · rw [hk.2.2]; rfl
    · simp only; rw [hk.1]; rfl

theorem mem_flat_set_insert {x y : Nat} : ∀ {l : List Nat}, y ∈ flat_set_insert x l ↔ y = x ∨ y ∈ l
  | [] => by simp [flat_set_insert]
  | a :: l => by
    unfold flat_set_insert
    split
    · simp
    · split
      · rename_i h; subst h; simp
      · rw [List.mem_cons, mem_flat_set_insert (l := l), List.mem_cons]
        tauto

theorem length_flat_set_insert {x : Nat} :
    ∀ {l : List Nat}, x ∉ l → (flat_set_insert x l).length = l.length + 1
  | [], _ => by simp [flat_set_insert]
  | a :: l, h => by
    unfold flat_set_insert
    split
    · simp
    · split
      · rename_i h2; subst h2; simp at h
      · simp only [List.length_cons]
        rw [length_flat_set_insert (l := l) (fun hc => h (List.mem_cons_of_mem _ hc))]

theorem perm_flat_set_insert {x : Nat} :
    ∀ {l : List Nat}, x ∉ l → (flat_set_insert x l).Perm (x :: l)
  | [], _ => by simp [flat_set_insert]
  | a :: l, h => by
    unfold flat_set_insert
    split
    · exact List.Perm.refl _
    · split
      · rename_i h2; subst h2; simp at h
      · have ih := perm_flat_set_insert (l := l) (fun hc => h (List.mem_cons_of_mem _ hc))
        exact (List.Perm.cons a ih).trans (List.Perm.swap x a l)

theorem nodup_flat_set_insert {x : Nat} {l : List Nat} (hx : x ∉ l) (hl : l.Nodup) :
    (flat_set_insert x l).Nodup :=
  (perm_flat_set_insert hx).nodup_iff.mpr (List.nodup_cons.mpr ⟨hx, hl⟩)

theorem mem_slice {db : database} {r : Nat} {x : bucket_object} :
    x ∈ slice db r ↔ x ∈ db.buckets ∧ x.seconds = r := by
  simp [slice]

/-- The loop keeps identities unique, keeps the head block time, runs only over
non-zero resolutions, and leaves the buckets of every resolution it does not
run over exactly as they were. -/
theorem on_block_loop_frame {m n s : Nat} :
    ∀ {rs : List Nat} {st st' : database × List Nat}, unique_ids st.1 →
      on_block_loop m n s rs st = .ok st' →
      (∀ r ∈ rs, r ≠ 0) ∧ unique_ids st'.1 ∧ st'.1.head_block_time = st.1.head_block_time ∧
      ∀ r', r' ∉ rs → slice st'.1 r' = slice st.1 r'
  | [], st, st', hu, h => by
    simp only [on_block_loop, Except.ok.injEq] at h
    subst h
    exact ⟨by simp, hu, rfl, fun _ _ => rfl⟩
  | r :: rs, st, st', hu, h => by
    rw [on_block_loop] at h
    split at h
    · exact absurd h (by simp)
    rename_i st1 h1
    obtain ⟨hr, hu1, ht1, hs1⟩ := on_block_bucket_frame hu h1
    obtain ⟨hrs, hu2, ht2, hs2⟩ := on_block_loop_frame hu1 h
    refine ⟨?_, hu2, by rw [ht2, ht1], ?_⟩
    · intro r' hr'
      rcases List.mem_cons.mp hr' with rfl | hr'
      · exact hr
      · exact hrs r' hr'
    · intro r' hr'
      rw [List.mem_cons, not_or] at hr'
      rw [hs2 r' hr'.2, hs1 r' hr'.1]

/-- The active set the loop builds: its new members are buckets of the final
store, one per resolution run over, each aligned to the head block time. -/
theorem on_block_loop_active {m n s : Nat} :
    ∀ {rs : List Nat} {st st' : database × List Nat}, unique_ids st.1 → rs.Nodup →
      (∀ id ∈ st.2, ∃ x ∈ st.1.buckets, x.id = id ∧ x.seconds ∉ rs) →
      on_block_loop m n s rs st = .ok st' →
      st'.2.length = st.2.length + rs.length ∧
      (∀ id ∈ st.2, id ∈ st'.2) ∧
      (∀ id ∈ st'.2, id ∈ st.2 ∨ ∃ x ∈ st'.1.buckets, x.id = id ∧ x.seconds ∈ rs) ∧
      (∀ r ∈ rs, ∃ x ∈ st'.1.buckets, x.id ∈ st'.2 ∧ x.seconds = r ∧
        x.open_ = st.1.head_block_time / r * r) ∧
      (∀ y ∈ st'.1.buckets, ∀ z ∈ st'.1.buckets, y.id ∈ st'.2 → z.id ∈ st'.2 →
        y.seconds ∈ rs → z.seconds = y.seconds → y = z) ∧
      (st.2.Nodup → st'.2.Nodup)
  | [], st, st', _, _, _, h => by
    simp only [on_block_loop, Except.ok.injEq] at h
    subst h
    simp
  | r :: rs, st, st', hu, hnd, hinv, h => by
    rw [on_block_loop] at h
    split at h
    · exact absurd h (by simp)
    rename_i st1 h1
    obtain ⟨hr, hu1, ht1, hs1⟩ := on_block_bucket_frame hu h1
    obtain ⟨x, hx, hxr, hxo, hcur⟩ := on_block_bucket_active hu h1
    obtain ⟨hrs, hu2, ht2, hs2⟩ := on_block_loop_frame hu1 h
    have hnd' := List.nodup_cons.mp hnd
    -- buckets of a resolution not equal to `r` survive the round
    have hkeep : ∀ z ∈ st.1.buckets, z.seconds ≠ r → z ∈ st1.1.buckets := by
      intro z hz hzr
      have : z ∈ slice st1.1 z.seconds := by
        rw [hs1 _ hzr]; exact mem_slice.mpr ⟨hz, rfl⟩
      exact (mem_slice.mp this).1
    have hkeep2 : ∀ z ∈ st1.1.buckets, z.seconds ∉ rs → z ∈ st'.1.buckets := by
      intro z hz hzr
      have : z ∈ slice st'.1 z.seconds := by
        rw [hs2 _ hzr]; exact mem_slice.mpr ⟨hz, rfl⟩
      exact (mem_slice.mp this).1
    have hinv1 : ∀ id ∈ st1.2, ∃ z ∈ st1.1.buckets, z.id = id ∧ z.seconds ∉ rs := by
      intro id hid
      rw [hcur, mem_flat_set_insert] at hid
      rcases hid with rfl | hid
      · exact ⟨x, hx, rfl, by rw [hxr]; exact hnd'.1⟩
      · obtain ⟨z, hz, hzid, hzr⟩ := hinv id hid
        rw [List.mem_cons, not_or] at hzr
        exact ⟨z, hkeep z hz hzr.1, hzid, hzr.2⟩
    have hnew : x.id ∉ st.2 := by
      intro hc
      obtain ⟨z, hz, hzid, hzr⟩ := hinv x.id hc
      rw [List.mem_cons, not_or] at hzr
      have := eq_of_id_eq hu1 (hkeep z hz hzr.1) hx hzid
      subst this
      exact hzr.1 hxr
    obtain ⟨hlen, hsub, hsup, hall, huniq, hnodup⟩ := on_block_loop_active hu1 hnd'.2 hinv1 h
    -- an active bucket of resolution `r` in the final store is the one chosen in this round
    have hthis : ∀ y ∈ st'.1.buckets, y.id ∈ st'.2 → y.seconds = r → y.id = x.id := by
      intro y hy hyc hyr
      rcases hsup y.id hyc with h3 | ⟨w, hw, hwid, hwr⟩
      · rw [hcur, mem_flat_set_insert] at h3
        rcases h3 with h3 | h3
        · exact h3
        · obtain ⟨w, hw, hwid, hwr⟩ := hinv y.id h3
          have hwr' := hwr
          rw [List.mem_cons, not_or] at hwr'
          have hw' := hkeep2 w (hkeep w hw hwr'.1) hwr'.2
          have := eq_of_id_eq hu2 hw' hy hwid
          subst this
          exact absurd (by rw [hyr]; simp) hwr
      · have := eq_of_id_eq hu2 hw hy hwid
        subst this
        rw [hyr] at hwr
        exact absurd hwr hnd'.1
    refine ⟨?_, ?_, ?_, ?_, ?_, fun h0 => hnodup (by rw [hcur]; exact nodup_flat_set_insert hnew h0)⟩
    · rw [hlen, hcur, length_flat_set_insert hnew, List.length_cons]; omega
    · intro id hid
      exact hsub id (by rw [hcur, mem_flat_set_insert]; exact Or.inr hid)
    · intro id hid
      rcases hsup id hid with h3 | ⟨z, hz, hzid, hzr⟩
      · rw [hcur, mem_flat_set_insert] at h3
        rcases h3 with rfl | h3
        · right
          exact ⟨x, hkeep2 x hx (by rw [hxr]; exact hnd'.1), rfl, by rw [hxr]; simp⟩
        · exact Or.inl h3
      · exact Or.inr ⟨z, hz, hzid, List.mem_cons_of_mem _ hzr⟩
    · intro r' hr'
      rcases List.mem_cons.mp hr' with rfl | hr'
      · exact ⟨x, hkeep2 x hx (by rw [hxr]; exact hnd'.1),
          hsub x.id (by rw [hcur, mem_flat_set_insert]; exact Or.inl rfl), hxr, hxo⟩
      · obtain ⟨z, hz, hzc, hzr, hzo⟩ := hall r' hr'
        exact ⟨z, hz, hzc, hzr, by rw [hzo, ht1]⟩
    · intro y hy z hz hyc hzc hyr hzy
      rcases List.mem_cons.mp hyr with hyr | hyr
      · exact eq_of_id_eq hu2 hy hz
          ((hthis y hy hyc hyr).trans (hthis z hz hzc (hzy.trans hyr)).symm)
      · exact huniq y hy z hz hyc hzc hyr hzy

/-- The loop over a concatenation is the loop over the first part followed by
the loop over the second. -/
theorem on_block_loop_append {m n s : Nat} :
    ∀ {rs₁ rs₂ : List Nat} {st st' : database × List Nat},
      on_block_loop m n s (rs₁ ++ rs₂) st = .ok st' →
      ∃ st1, on_block_loop m n s rs₁ st = .ok st1 ∧ on_block_loop m n s rs₂ st1 = .ok st'
  | [], _, st, st', h => ⟨st, rfl, h⟩
  | r :: rs₁, rs₂, st, st', h => by
    rw [List.cons_append, on_block_loop] at h
    split at h
    · exact absurd h (by simp)
    rename_i st1 h1
    obtain ⟨st2, h2, h3⟩ := on_block_loop_append h
    exact ⟨st2, by rw [on_block_loop, h1]; exact h2, h3⟩

/-- What the first statement of `on_block` did when it returned. -/
theorem on_block_all_time_inv {db db0 : database} {b : signed_block}
    (h : on_block_all_time db b = .ok db0) :
    (b.block_num = 1 ∧ (∀ x ∈ db.buckets, x.id ≠ db.next_id) ∧
      (∀ x ∈ db.buckets, ¬ (x.seconds = 0 ∧ x.open_ = b.timestamp)) ∧
      db0 = { db with buckets := db.buckets ++ [new_bucket db.next_id b.timestamp 0],
                      next_id := db.next_id + 1 }) ∨
    (b.block_num ≠ 1 ∧ (∃ x ∈ db.buckets, x.id = 0) ∧
      db0 = { db with buckets :=
        (db.buckets.map (fun z => if z.id = 0 then count_block z else z)) }) := by
  unfold on_block_all_time at h
  split at h
  · rename_i hb
    left
    split at h
    · exact absurd h (by simp)
    rename_i db1 bo hc
    obtain ⟨hbo, hdb1, hfresh⟩ := create_ok hc
    have hbo' : bo = new_bucket db.next_id b.timestamp 0 := by rw [hbo]; rfl
    simp only [Except.ok.injEq] at h
    refine ⟨hb, fun x hx => ?_, fun x hx => ?_, ?_⟩
    · have := (hfresh x hx).1; rw [hbo'] at this; exact this
    · have := (hfresh x hx).2; rw [hbo'] at this; exact this
    · rw [← h, hdb1, hbo']
  · rename_i hb
    right
    split at h
    · exact absurd h (by simp)
    rename_i bo hg
    simp only [Except.ok.injEq] at h
    unfold database.get at hg
    split at hg
    · rename_i x hx
      simp only [Except.ok.injEq] at hg
      have h1 := List.find?_some hx
      have h2 := List.mem_of_find?_eq_some hx
      simp only [decide_eq_true_eq] at h1
      subst hg
      refine ⟨hb, ⟨x, h2, h1⟩, ?_⟩
      rw [← h, h1]
      rfl
    · exact absurd hg (by simp)

theorem keeps_key_count (id : Nat) :
    keeps_key (fun z => if z.id = id then count_block z else z) := by
  intro z
  by_cases h : z.id = id <;> simp [h, count_block]

/-- The first statement of `on_block` keeps identities unique, keeps the head
block time, and leaves every bucket of a non-zero resolution as it was,
provided the bucket with identity 0 (if any) is of resolution 0. -/
theorem on_block_all_time_frame {db db0 : database} {b : signed_block} (hu : unique_ids db)
    (h : on_block_all_time db b = .ok db0) :
    unique_ids db0 ∧ db0.head_block_time = db.head_block_time ∧
    ((∀ x ∈ db.buckets, x.id = 0 → x.seconds = 0) →
      ∀ r, r ≠ 0 → slice db0 r = slice db r) := by
  rcases on_block_all_time_inv h with ⟨_, hfresh, _, hdb0⟩ | ⟨_, ⟨x, hx, hx0⟩, hdb0⟩
  · subst hdb0
    refine ⟨unique_ids_append_new hu hfresh, rfl, fun _ r hr => ?_⟩
    unfold slice
    simp only [List.filter_append]
    have : List.filter (fun x => decide (x.seconds = r)) [new_bucket db.next_id b.timestamp 0]
        = [] := by simp [new_bucket, Ne.symm hr]
    rw [this, List.append_nil]
  · subst hdb0
    refine ⟨?_, rfl, fun h0 r hr => ?_⟩
    · unfold unique_ids
      simp only
      rw [map_id_map_of_id_eq (fun z => (keeps_key_count 0 z).1)]
      exact hu
    · unfold slice
      simp only
      apply filter_map_of_fixed
      · intro z
        rw [(keeps_key_count 0 z).2.1]
      · intro z hz hzr
        have hzr' : z.seconds = r := by simpa using hzr
        have : z.id ≠ 0 := fun hc => hr (by rw [← hzr']; exact h0 z hz hc)
        simp [this]

/-- The loop resolves every resolution it runs over: a bucket of the final
store, in the final active set, aligned to the head block time. -/
theorem on_block_loop_resolves {m n s : Nat} :
    ∀ {rs : List Nat} {st st' : database × List Nat}, unique_ids st.1 → rs.Nodup →
      on_block_loop m n s rs st = .ok st' →
      (∀ id ∈ st.2, id ∈ st'.2) ∧
      (∀ r ∈ rs, ∃ x ∈ st'.1.buckets, x.id ∈ st'.2 ∧ x.seconds = r ∧
        x.open_ = st.1.head_block_time / r * r)
  | [], st, st', _, _, h => by
    simp only [on_block_loop, Except.ok.injEq] at h
    subst h
    simp
  | r :: rs, st, st', hu, hnd, h => by
    rw [on_block_loop] at h
    split at h
    · exact absurd h (by simp)
    rename_i st1 h1
    obtain ⟨hr, hu1, ht1, hs1⟩ := on_block_bucket_frame hu h1
    obtain ⟨x, hx, hxr, hxo, hcur⟩ := on_block_bucket_active hu h1
    obtain ⟨hrs, hu2, ht2, hs2⟩ := on_block_loop_frame hu1 h
    have hnd' := List.nodup_cons.mp hnd
    have hkeep2 : ∀ z ∈ st1.1.buckets, z.seconds ∉ rs → z ∈ st'.1.buckets := by
      intro z hz hzr
      have : z ∈ slice st'.1 z.seconds := by
        rw [hs2 _ hzr]; exact mem_slice.mpr ⟨hz, rfl⟩
      exact (mem_slice.mp this).1
    obtain ⟨hsub, hall⟩ := on_block_loop_resolves hu1 hnd'.2 h
    refine ⟨?_, ?_⟩
    · intro id hid
      exact hsub id (by rw [hcur, mem_flat_set_insert]; exact Or.inr hid)
    · intro r' hr'
      rcases List.mem_cons.mp hr' with rfl | hr'
      · exact ⟨x, hkeep2 x hx (by rw [hxr]; exact hnd'.1),
          hsub x.id (by rw [hcur, mem_flat_set_insert]; exact Or.inl rfl), hxr, hxo⟩
      · obtain ⟨z, hz, hzc, hzr, hzo⟩ := hall r' hr'
        exact ⟨z, hz, hzc, hzr, by rw [hzo, ht1]⟩

/-- What a returning `on_block` is made of. -/
theorem on_block_inv {p p' : plugin_impl} {b : signed_block} (h : on_block p b = .ok p') :
    ∃ db0 st', on_block_all_time p.database_ b = .ok db0 ∧
      on_block_loop p._maximum_history_per_bucket_size (num_trx b) (trx_size b)
        p._tracked_buckets (db0, [0]) = .ok st' ∧
      p' = { p with database_ := st'.1, _current_buckets := st'.2 } := by
  unfold on_block at h
  split at h
  · exact absurd h (by simp)
  rename_i db0 h0
  split at h
  · exact absurd h (by simp)
  rename_i db1 cur h1
  simp only [Except.ok.injEq] at h
  exact ⟨db0, (db1, cur), h0, h1, h.symm⟩

theorem unique_pairs_map {db : database} {f : bucket_object → bucket_object} (hf : keeps_key f)
    (h : unique_pairs db) : unique_pairs { db with buckets := (db.buckets.map f) } := by
  unfold unique_pairs at *
  simp only
  rw [List.pairwise_map]
  refine h.imp ?_
  intro a b hab
  unfold same_pair at *
  rw [(hf a).2.1, (hf a).2.2, (hf b).2.1, (hf b).2.2]
  exact hab

theorem unique_pairs_modify {db : database} {id : Nat} {m : bucket_object → bucket_object}
    (hm : ∀ z, (m z).id = z.id ∧ (m z).seconds = z.seconds ∧ (m z).open_ = z.open_)
    (h : unique_pairs db) : unique_pairs (db.modify id m) := by
  unfold database.modify
  apply unique_pairs_map _ h
  intro z
  by_cases hz : z.id = id
  · dsimp only; rw [if_pos hz]; exact hm z
  · dsimp only; rw [if_neg hz]; exact ⟨rfl, rfl, rfl⟩

theorem unique_pairs_filter {db : database} (q : bucket_object → Bool) (h : unique_pairs db) :
    unique_pairs { db with buckets := (db.buckets.filter q) } := by
  unfold unique_pairs at *
  exact h.sublist (List.filter_sublist _)

theorem unique_pairs_create {db db1 : database} {init : bucket_object → bucket_object}
    {bo : bucket_object} (h : unique_pairs db) (hc : db.create init = .ok (db1, bo)) :
    unique_pairs db1 := by
  obtain ⟨_, hdb1, hfresh⟩ := create_ok hc
  subst hdb1
  unfold unique_pairs at *
  simp only
  rw [List.pairwise_append]
  refine ⟨h, by simp, ?_⟩
  intro a ha c hc'
  rw [List.mem_singleton] at hc'
  subst hc'
  exact (hfresh a ha).2

theorem unique_pairs_evict {db db' : database} {r m : Nat} {itr itr' : Option Nat}
    (h : unique_pairs db) (he : evict db r m itr = .ok (db', itr')) : unique_pairs db' := by
  unfold evict at he
  split at he
  · split at he
    · obtain ⟨pre, y, post, _, _, _, _, hdb⟩ := evict_while_ok he
      rw [hdb]
      exact unique_pairs_filter _ h
    · simp only [Except.ok.injEq, Prod.mk.injEq] at he
      rw [← he.1]; exact h
  · simp only [Except.ok.injEq, Prod.mk.injEq] at he
    rw [← he.1]; exact h

theorem unique_pairs_on_block_bucket {m n s r : Nat} {st st' : database × List Nat}
    (hp : unique_pairs st.1) (h : on_block_bucket m n s st r = .ok st') : unique_pairs st'.1 := by
  unfold on_block_bucket at h
  split at h
  · exact absurd h (by simp)
  simp only at h
  split at h
  · split at h
    · exact absurd h (by simp)
    rename_i db1 bo hcreate
    split at h
    · exact absurd h (by simp)
    rename_i db2 itr hevict
    split at h
    · exact absurd h (by simp)
    simp only [Except.ok.injEq] at h
    rw [← h]
    exact unique_pairs_modify (fun z => ⟨rfl, rfl, rfl⟩)
      (unique_pairs_evict (unique_pairs_create hp hcreate) hevict)
  · simp only [Except.ok.injEq] at h
    rw [← h]
    exact unique_pairs_modify (fun z => ⟨rfl, rfl, rfl⟩)
      (unique_pairs_modify (fun z => ⟨rfl, rfl, rfl⟩) hp)

theorem unique_pairs_on_block_loop {m n s : Nat} :
    ∀ {rs : List Nat} {st st' : database × List Nat}, unique_pairs st.1 →
      on_block_loop m n s rs st = .ok st' → unique_pairs st'.1
  | [], st, st', hp, h => by
    simp only [on_block_loop, Except.ok.injEq] at h
    subst h
    exact hp
  | r :: rs, st, st', hp, h => by
    rw [on_block_loop] at h
    split at h
    · exact absurd h (by simp)
    rename_i st1 h1
    exact unique_pairs_on_block_loop (unique_pairs_on_block_bucket hp h1) h

theorem unique_pairs_on_block_all_time {db db0 : database} {b : signed_block}
    (hp : unique_pairs db) (h : on_block_all_time db b = .ok db0) : unique_pairs db0 := by
  unfold on_block_all_time at h
  split at h
  · split at h
    · exact absurd h (by simp)
    rename_i db1 bo hc
    simp only [Except.ok.injEq] at h
    rw [← h]
    exact unique_pairs_create hp hc
  · split at h
    · exact absurd h (by simp)
    simp only [Except.ok.injEq] at h
    rw [← h]
    exact unique_pairs_modify (fun z => ⟨rfl, rfl, rfl⟩) hp

/-- After the first statement of `on_block`, the bucket with identity 0 is in
the store and is of resolution 0. -/
theorem on_block_all_time_zero {db db0 : database} {b : signed_block}
    (hready : all_time_ready db b) (h : on_block_all_time db b = .ok db0) :
    ∃ x ∈ db0.buckets, x.id = 0 ∧ x.seconds = 0 := by
  unfold all_time_ready at hready
  rcases on_block_all_time_inv h with ⟨hb, _, _, hdb0⟩ | ⟨hb, ⟨x, hx, hx0⟩, hdb0⟩
  · rw [if_pos hb] at hready
    subst hdb0
    exact ⟨new_bucket db.next_id b.timestamp 0, by simp, hready, rfl⟩
  · rw [if_neg hb] at hready
    subst hdb0
    refine ⟨count_block x, ?_, hx0, hready x hx hx0⟩
    simp only [List.mem_map]
    exact ⟨x, hx, by simp [hx0]⟩

theorem get_of_mem {db : database} (hu : unique_ids db) {x : bucket_object}
    (hx : x ∈ db.buckets) : db.get x.id = .ok x := by
  unfold database.get
  have : db.buckets.find? (fun z => decide (z.id = x.id)) = some x := by
    unfold unique_ids at hu
    generalize db.buckets = l at hu hx
    induction l with
    | nil => simp at hx
    | cons a l ih =>
      simp only [List.map_cons, List.nodup_cons] at hu
      by_cases ha : a.id = x.id
      · rcases List.mem_cons.mp hx with rfl | hx'
        · simp
        · exact absurd (List.mem_map.mpr ⟨x, hx', ha.symm⟩) hu.1
      · rcases List.mem_cons.mp hx with rfl | hx'
        · exact absurd rfl ha
        · rw [List.find?_cons_of_neg _ (by simpa using ha)]
          exact ih hu.2 hx'
  rw [this]

theorem unique_ids_slice {db : database} (hu : unique_ids db) (r : Nat) :
    ((slice db r).map (fun x => x.id)).Nodup :=
  hu.sublist ((List.filter_sublist _).map _)

/-- The first statement of `on_block` leaves every bucket of a non-zero
resolution as it was when the bucket with identity 0 is in place. -/
theorem on_block_all_time_slice {db db0 : database} {b : signed_block} (hu : unique_ids db)
    (hready : all_time_ready db b) (h : on_block_all_time db b = .ok db0) :
    ∀ r, r ≠ 0 → slice db0 r = slice db r := by
  unfold all_time_ready at hready
  rcases on_block_all_time_inv h with ⟨hb, hfresh, _, hdb0⟩ | ⟨hb, _, _⟩
  · intro r hr
    subst hdb0
    unfold slice
    simp only [List.filter_append]
    have : List.filter (fun x => decide (x.seconds = r)) [new_bucket db.next_id b.timestamp 0]
        = [] := by simp [new_bucket, Ne.symm hr]
    rw [this, List.append_nil]
  · rw [if_neg hb] at hready
    exact (on_block_all_time_frame hu h).2.2 hready

/-- One round of the loop, seen on the buckets of its own resolution: either
the bucket of the block was there and is updated, or it is created, the
expired buckets are dropped and the block is counted in the earliest bucket
that is left. -/
theorem on_block_bucket_slice {m n s r : Nat} {st st' : database × List Nat}
    (hu : unique_ids st.1) (h : on_block_bucket m n s st r = .ok st') :
    round_spec m n s r st.1.head_block_time (slice st.1 r) (slice st'.1 r) := by
  unfold round_spec
  obtain ⟨hr, hcase⟩ := on_block_bucket_inv hu h
  rcases hcase with ⟨x, hx, hxr, hxo, hst⟩ |
    ⟨hnone, hfresh, hm, cut, hcut, hnb, y, hy, hyr, hye, hymin, hst⟩
  · left
    subst hst
    refine ⟨x, mem_slice.mpr ⟨hx, hxr⟩, hxo, ?_⟩
    unfold slice
    simp only
    rw [List.filter_map]
    congr 1
    apply List.filter_congr
    intro z _
    simp only [Function.comp]
    rw [(keeps_key_found n s x.id z).2.1]
  · right
    subst hst
    refine ⟨fun x hx hxo => hnone x (mem_slice.mp hx).1 ⟨(mem_slice.mp hx).2, hxo⟩, hm, cut,
      hcut, st.1.next_id, fun x hx => hfresh x (mem_slice.mp hx).1, hnb, y, ?_, hye, ?_, ?_⟩
    · rcases List.mem_append.mp hy with h1 | h1
      · exact List.mem_append_left _ (mem_slice.mpr ⟨h1, hyr⟩)
      · exact List.mem_append_right _ h1
    · intro z hz hze
      rcases List.mem_append.mp hz with h1 | h1
      · exact hymin z (List.mem_append_left _ (mem_slice.mp h1).1) (mem_slice.mp h1).2 hze
      · refine hymin z (List.mem_append_right _ h1) ?_ hze
        rw [List.mem_singleton] at h1
        rw [h1]; rfl
    · unfold slice
      simp only
      rw [List.filter_map, List.filter_filter]
      congr 1
      rw [List.filter_append, List.filter_append, List.filter_filter]
      congr 1
      · apply List.filter_congr
        intro z _
        simp only [Function.comp]
        rw [(keeps_key_created n s y.id z).2.1, Bool.and_comm]
      · have hsingle : ∀ (q : bucket_object → Bool) (a : bucket_object), q a = true →
            List.filter q [a] = [a] := by
          intro q a hq; simp [hq]
        rw [hsingle, hsingle]
        · show (!expired r cut _) = true
          rw [hnb]; rfl
        · show (decide (_ = r) && !expired r cut _) = true
          simp only [Function.comp]
          rw [(keeps_key_created n s y.id _).2.1, hnb]
          simp [new_bucket]

/-- The round of `on_block` for a tracked resolution, seen from outside: what
the whole call makes of the buckets of that resolution. -/
theorem on_block_slice {p p' : plugin_impl} {b : signed_block} {r : Nat}
    (hu : unique_ids p.database_) (hnd : p._tracked_buckets.Nodup)
    (hready : all_time_ready p.database_ b) (hr : r ∈ p._tracked_buckets)
    (h : on_block p b = .ok p') :
    r ≠ 0 ∧
    round_spec p._maximum_history_per_bucket_size (num_trx b) (trx_size b) r
      p.database_.head_block_time (slice p.database_ r) (slice p'.database_ r) := by
  obtain ⟨db0, st', h0, h1, hp'⟩ := on_block_inv h
  obtain ⟨hu0, ht0, _⟩ := on_block_all_time_frame hu h0
  have hs0 := on_block_all_time_slice hu hready h0
  obtain ⟨pre, post, hsplit⟩ := List.append_of_mem hr
  rw [hsplit] at h1 hnd
  obtain ⟨st1, hpre, hrest⟩ := on_block_loop_append h1
  rw [on_block_loop] at hrest
  split at hrest
  · exact absurd hrest (by simp)
  rename_i st2 hstep
  have hnd2 := List.nodup_append.mp hnd
  have hnd3 := List.nodup_cons.mp hnd2.2.1
  have hrpre : r ∉ pre := fun hc => hnd2.2.2 hc (List.mem_cons_self _ _)
  obtain ⟨_, hu1, ht1, hs1⟩ := @on_block_loop_frame _ _ _ _ (db0, [0]) _ hu0 hpre
  obtain ⟨hr0, hu2, _, _⟩ := on_block_bucket_frame hu1 hstep
  obtain ⟨_, _, _, hs3⟩ := on_block_loop_frame hu2 hrest
  have hslice := on_block_bucket_slice hu1 hstep
  rw [ht1, hs1 r hrpre] at hslice
  simp only at hslice
  rw [ht0, hs0 r hr0, ← hs3 r hnd3.1] at hslice
  subst hp'
  exact ⟨hr0, hslice⟩

/-- A returning `on_block` has resolved every tracked resolution to a bucket of
the store aligned to the head block time. -/
theorem on_block_resolves {p p' : plugin_impl} {b : signed_block} {r : Nat}
    (hu : unique_ids p.database_) (hnd : p._tracked_buckets.Nodup)
    (hr : r ∈ p._tracked_buckets) (h : on_block p b = .ok p') :
    0 < r ∧ ∃ x ∈ p'.database_.buckets, x.id ∈ p'._current_buckets ∧ x.seconds = r ∧
      x.open_ = p.database_.head_block_time / r * r ∧ r ∣ x.open_ ∧
      x.open_ ≤ p.database_.head_block_time ∧ p.database_.head_block_time < x.open_ + r := by
  obtain ⟨db0, st', h0, h1, hp'⟩ := on_block_inv h
  obtain ⟨hu0, ht0, _⟩ := on_block_all_time_frame hu h0
  obtain ⟨hrs, _, _, _⟩ := @on_block_loop_frame _ _ _ _ (db0, [0]) _ hu0 h1
  obtain ⟨_, hall⟩ := @on_block_loop_resolves _ _ _ _ (db0, [0]) _ hu0 hnd h1
  have hrpos : 0 < r := Nat.pos_of_ne_zero (hrs r hr)
  obtain ⟨x, hx, hxc, hxr, hxo⟩ := hall r hr
  simp only at hxo
  rw [ht0] at hxo
  subst hp'
  refine ⟨hrpos, x, hx, hxc, hxr, hxo, ?_, ?_, ?_⟩
  · rw [hxo]; exact Dvd.intro_left _ rfl
  · rw [hxo]; exact Nat.div_mul_le_self _ _
  · rw [hxo]
    have h4 := Nat.div_add_mod p.database_.head_block_time r
    have h5 := Nat.mod_lt p.database_.head_block_time hrpos
    rw [Nat.mul_comm] at h4
    omega


/-- A returning `on_block` keeps the (resolution, open) pairs of the store
distinct. -/
theorem unique_pairs_on_block {p p' : plugin_impl} {b : signed_block}
    (hp : unique_pairs p.database_) (h : on_block p b = .ok p') :
    unique_pairs p'.database_ := by
  obtain ⟨db0, st', h0, h1, hp'⟩ := on_block_inv h
  subst hp'
  exact @unique_pairs_on_block_loop _ _ _ _ (db0, [0]) _ (unique_pairs_on_block_all_time hp h0) h1

theorem get_of_fresh {db : database} {id : Nat} (h : ∀ x ∈ db.buckets, x.id ≠ id) :
    db.get id = .error fault.out_of_range := by
  unfold database.get
  have : db.buckets.find? (fun x => decide (x.id = id)) = none := by
    rw [List.find?_eq_none]
    intro x hx
    simpa using h x hx
  rw [this]

theorem eq_of_same_pair {db : database} (hp : unique_pairs db) {x y : bucket_object}
    (hx : x ∈ db.buckets) (hy : y ∈ db.buckets) (hxy : same_pair x y) : x = y := by
  by_contra hne
  have hsymm : Symmetric (fun a b : bucket_object => ¬ same_pair a b) := by
    intro a b hab hba
    exact hab ⟨hba.1.symm, hba.2.symm⟩
  exact List.Pairwise.forall hsymm hp hx hy hne hxy

/-- A returning `on_block` leaves the buckets of resolution 0 as its first
statement made them. -/
theorem on_block_slice_zero {p p' : plugin_impl} {b : signed_block}
    (hu : unique_ids p.database_) (h : on_block p b = .ok p') :
    unique_ids p'.database_ ∧
    ∃ db0, on_block_all_time p.database_ b = .ok db0 ∧
      slice p'.database_ 0 = slice db0 0 := by
  obtain ⟨db0, st', h0, h1, hp'⟩ := on_block_inv h
  obtain ⟨hu0, _, _⟩ := on_block_all_time_frame hu h0
  obtain ⟨hrs, hu', _, hs'⟩ := @on_block_loop_frame _ _ _ _ (db0, [0]) _ hu0 h1
  have h0nt : (0 : Nat) ∉ p._tracked_buckets := fun hc => hrs 0 hc rfl
  subst hp'
  exact ⟨hu', db0, h0, hs' 0 h0nt⟩

theorem safe_mul_eq_some {a b c : Nat} :
    safe_mul a b = some c ↔ a * b ≤ UINT32_MAX ∧ c = a * b := by
  unfold safe_mul
  by_cases ha : 0 < a
  · by_cases hb : 0 < b
    · have hdiv : UINT32_MAX / b < a ↔ UINT32_MAX < a * b := Nat.div_lt_iff_lt_mul hb
      by_cases hlt : UINT32_MAX / b < a
      · have h1 : ¬ a * b ≤ UINT32_MAX := by have := hdiv.mp hlt; omega
        simp [ha, hb, hlt, h1]
      · have h1 : a * b ≤ UINT32_MAX := by
          by_contra hc
          exact hlt (hdiv.mpr (by omega))
        simp [ha, hb, hlt, h1, eq_comm]
    · have hb0 : b = 0 := by omega
      subst hb0
      simp [eq_comm]
  · have ha0 : a = 0 := by omega
    subst ha0
    simp [eq_comm]

theorem safe_sub_eq_some {a b c : Nat} : safe_sub a b = some c ↔ b ≤ a ∧ c = a - b := by
  unfold safe_sub
  by_cases h : 0 < b ∧ a < b
  · rw [if_pos h]
    constructor
    · intro hc; exact absurd hc (by simp)
    · intro hc; omega
  · rw [if_neg h]
    simp only [Option.some.injEq]
    constructor
    · intro hc; exact ⟨by omega, hc.symm⟩
    · intro hc; exact hc.2.symm

/-- The retention cutoff is there exactly when `bucket * max_history` fits in 32
bits and does not exceed the head block time; it is then their difference. -/
theorem cutoff_eq_some {t r m cut : Nat} :
    cutoff t r m = some cut ↔ r * m ≤ UINT32_MAX ∧ r * m ≤ t ∧ cut = t - r * m := by
  unfold cutoff
  constructor
  · intro h
    rw [Option.bind_eq_some] at h
    obtain ⟨p, hp, hs⟩ := h
    obtain ⟨h1, h2⟩ := safe_mul_eq_some.mp hp
    obtain ⟨h3, h4⟩ := safe_sub_eq_some.mp hs
    subst h2
    exact ⟨h1, h3, h4⟩
  · rintro ⟨h1, h2, h3⟩
    rw [Option.bind_eq_some]
    exact ⟨r * m, safe_mul_eq_some.mpr ⟨h1, rfl⟩, safe_sub_eq_some.mpr ⟨h2, h3⟩⟩

/-- When a returning `on_block` creates the bucket of the block for a tracked
resolution `r`, the retention ran with the cutoff `t - r * m`, and a bucket of
resolution `r` of the old store is still there exactly when it opened at or
after the cutoff. -/
theorem on_block_retention {p p' : plugin_impl} {b : signed_block} {r : Nat}
    (hu : unique_ids p.database_) (hnd : p._tracked_buckets.Nodup)
    (hready : all_time_ready p.database_ b) (hr : r ∈ p._tracked_buckets)
    (hnew : ∀ x ∈ p.database_.buckets,
      ¬ (x.seconds = r ∧ x.open_ = p.database_.head_block_time / r * r))
    (h : on_block p b = .ok p') :
    0 < p._maximum_history_per_bucket_size ∧
    r * p._maximum_history_per_bucket_size ≤ UINT32_MAX ∧
    r * p._maximum_history_per_bucket_size ≤ p.database_.head_block_time ∧
    (∀ x ∈ p.database_.buckets, x.seconds = r →
      ((∃ y ∈ p'.database_.buckets, y.id = x.id ∧ y.seconds = r ∧ y.open_ = x.open_) ↔
        p.database_.head_block_time - r * p._maximum_history_per_bucket_size ≤ x.open_)) ∧
    (∃ y ∈ p'.database_.buckets, y.seconds = r ∧
        y.open_ = p.database_.head_block_time / r * r) ∧
    (∀ y ∈ p'.database_.buckets, y.seconds = r →
      y.open_ = p.database_.head_block_time / r * r ∨
      ∃ x ∈ p.database_.buckets, x.id = y.id ∧ x.seconds = r ∧ x.open_ = y.open_) := by
  obtain ⟨hr0, hspec⟩ := on_block_slice hu hnd hready hr h
  unfold round_spec at hspec
  rcases hspec with ⟨x', hx', hxo', _⟩ |
    ⟨_, hm, cut, hcut, nid, hfresh, hnb, y, hy, hye, hymin, hL'⟩
  · exact absurd ⟨(mem_slice.mp hx').2, hxo'⟩ (hnew x' (mem_slice.mp hx').1)
  obtain ⟨hc1, hc2, hc3⟩ := cutoff_eq_some.mp hcut
  subst hc3
  have hkey := keeps_key_created (num_trx b) (trx_size b) y.id
  refine ⟨hm, hc1, hc2, ?_, ?_, ?_⟩
  · intro x hx hxr
    have hxL : x ∈ slice p.database_ r := mem_slice.mpr ⟨hx, hxr⟩
    constructor
    · rintro ⟨z, hz, hzid, hzr, hzo⟩
      have hzL : z ∈ slice p'.database_ r := mem_slice.mpr ⟨hz, hzr⟩
      rw [hL'] at hzL
      obtain ⟨w, hw, hwz⟩ := List.mem_map.mp hzL
      rw [List.mem_filter] at hw
      have hwid : w.id = x.id := by rw [← hzid, ← hwz]; exact (hkey w).1.symm
      have hwx : w = x := by
        rcases List.mem_append.mp hw.1 with h1 | h1
        · exact List.inj_on_of_nodup_map (unique_ids_slice hu r) h1 hxL hwid
        · rw [List.mem_singleton] at h1
          rw [h1] at hwid
          exact absurd hwid.symm (hfresh x hxL)
      subst hwx
      have hexp : expired r (p.database_.head_block_time -
          r * p._maximum_history_per_bucket_size) w = false := by simpa using hw.2
      by_contra hc
      have : expired r (p.database_.head_block_time -
          r * p._maximum_history_per_bucket_size) w = true :=
        expired_iff.mpr ⟨hxr, by omega⟩
      rw [this] at hexp
      exact absurd hexp (by simp)
    · intro hle
      have hexp : expired r (p.database_.head_block_time -
          r * p._maximum_history_per_bucket_size) x = false := by
        rw [← Bool.not_eq_true, expired_iff]
        omega
      have : (fun z => if z.id = y.id then add_block_stats (num_trx b) (trx_size b) z else z) x
          ∈ slice p'.database_ r := by
        rw [hL']
        exact List.mem_map.mpr ⟨x, List.mem_filter.mpr
          ⟨List.mem_append_left _ hxL, by simp [hexp]⟩, rfl⟩
      exact ⟨_, (mem_slice.mp this).1, (hkey x).1, (hkey x).2.1.trans hxr, (hkey x).2.2⟩
  · have : (fun z => if z.id = y.id then add_block_stats (num_trx b) (trx_size b) z else z)
        (new_bucket nid (p.database_.head_block_time / r * r) r) ∈ slice p'.database_ r := by
      rw [hL']
      exact List.mem_map.mpr ⟨_, List.mem_filter.mpr
        ⟨List.mem_append_right _ (List.mem_singleton.mpr rfl), by simp [hnb]⟩, rfl⟩
    exact ⟨_, (mem_slice.mp this).1, (hkey _).2.1, (hkey _).2.2⟩
  · intro z hz hzr
    have hzL : z ∈ slice p'.database_ r := mem_slice.mpr ⟨hz, hzr⟩
    rw [hL'] at hzL
    obtain ⟨w, hw, hwz⟩ := List.mem_map.mp hzL
    rw [List.mem_filter] at hw
    rcases List.mem_append.mp hw.1 with h1 | h1
    · right
      refine ⟨w, (mem_slice.mp h1).1, ?_, (mem_slice.mp h1).2, ?_⟩
      · rw [← hwz]; exact (hkey w).1.symm
      · rw [← hwz]; exact (hkey w).2.2.symm
    · left
      rw [List.mem_singleton] at h1
      rw [← hwz, h1]
      exact (hkey _).2.2

theorem cutoff_eq_none {t r m : Nat} :
    cutoff t r m = none ↔ UINT32_MAX < r * m ∨ t < r * m := by
  constructor
  · intro h
    by_contra hc
    rw [not_or] at hc
    have := cutoff_eq_some.mpr ⟨by omega, by omega, (rfl : t - r * m = t - r * m)⟩
    rw [h] at this
    exact absurd this (by simp)
  · intro h
    cases hcut : cutoff t r m with
    | none => rfl
    | some c =>
      obtain ⟨h1, h2, _⟩ := cutoff_eq_some.mp hcut
      omega

/-- Whenever a round of the loop creates the bucket of the block while the
eviction has to be skipped (`m = 0`, or `t < r * m`, or `r * m` beyond 32
bits), it does not return: `itr` is still `end()` when it is dereferenced. -/
theorem on_block_bucket_skip_faults (m n s r : Nat) (st : database × List Nat)
    (hnew : st.1.find r (st.1.head_block_time / r * r) = none)
    (hskip : m = 0 ∨ st.1.head_block_time < r * m ∨ UINT32_MAX < r * m) :
    on_block_bucket m n s st r = .error fault.end_dereferenced ∨
    on_block_bucket m n s st r = .error fault.uniqueness_violated ∨
    on_block_bucket m n s st r = .error fault.division_by_zero := by
  unfold on_block_bucket
  split
  · exact Or.inr (Or.inr rfl)
  simp only [hnew]
  split
  · rename_i e hc
    unfold database.create at hc
    simp only at hc
    split at hc
    · simp only [Except.error.injEq] at hc
      rw [← hc]
      exact Or.inr (Or.inl rfl)
    · exact absurd hc (by simp)
  · rename_i db1 bo hc
    obtain ⟨_, hdb1, _⟩ := create_ok hc
    have hev : evict db1 r m none = .ok (db1, none) := by
      unfold evict
      by_cases hm : 0 < m
      · rw [if_pos hm]
        have : cutoff db1.head_block_time r m = none := by
          rw [cutoff_eq_none, hdb1]
          simp only
          omega
        rw [this]
      · rw [if_neg hm]
    rw [hev]
    exact Or.inl rfl

theorem count_operation_id (v : Bool) (z : bucket_object) : (count_operation v z).id = z.id := by
  unfold count_operation
  split <;> rfl

/-- The body of the loop of `post_operation` for an active bucket that is in
the store, when the handler of the operation is the total update `f`. -/
theorem post_operation_bucket_eq {v : Bool} {op : operation} {db0 : database}
    {f : bucket_object → bucket_object}
    (hop : ∀ bs z, operation_process { db0 with buckets := bs } op z = .ok (f z))
    (bs : List bucket_object) (id : Nat)
    (hu : (bs.map (fun x => x.id)).Nodup) (hid : ∃ x ∈ bs, x.id = id) :
    post_operation_bucket v op { db0 with buckets := bs } id =
      .ok { db0 with buckets :=
        (bs.map (fun z => if z.id = id then f (count_operation v z) else z)) } := by
  obtain ⟨x, hx, hxid⟩ := hid
  subst hxid
  unfold post_operation_bucket
  have hu0 : unique_ids { db0 with buckets := bs } := hu
  rw [get_of_mem hu0 hx]
  simp only
  -- the store after the operation has been counted
  have hdb1 : (if v = true then { db0 with buckets := bs }
      else database.modify { db0 with buckets := bs } x.id
        (fun b => { b with operations := b.operations + 1 })) =
      { db0 with buckets := (bs.map (fun z => if z.id = x.id then count_operation v z else z)) } := by
    cases v
    · simp only [database.modify, count_operation]
      rfl
    · simp only [count_operation, ite_true]
      congr 1
      symm
      have : (fun z : bucket_object => if z.id = x.id then z else z) = id := by
        funext z; split <;> rfl
      rw [this, List.map_id]
  rw [hdb1]
  have hu1 : unique_ids
      { db0 with buckets := (bs.map (fun z => if z.id = x.id then count_operation v z else z)) } := by
    unfold unique_ids
    simp only
    rw [map_id_map_of_id_eq]
    · exact hu
    · intro z; split
      · exact count_operation_id v z
      · rfl
  have hx1 : count_operation v x ∈
      ({ db0 with buckets :=
        (bs.map (fun z => if z.id = x.id then count_operation v z else z)) } : database).buckets :=
    List.mem_map.mpr ⟨x, hx, by simp⟩
  have hg := get_of_mem hu1 hx1
  rw [count_operation_id] at hg
  rw [hg]
  simp only
  rw [hop]
  simp only [database.modify, List.map_map]
  congr 2
  apply List.map_congr_left
  intro z hz
  simp only [Function.comp]
  by_cases hzx : z.id = x.id
  · have : z = x := List.inj_on_of_nodup_map hu hz hx hzx
    subst this
    simp [count_operation_id]
  · simp [hzx]

/-- The loop of `post_operation` over an active set whose members are all in
the store, when the handler of the operation is the total update `f`: every
active bucket gets `f` after the operation count, every other bucket stays. -/
theorem post_operation_loop_eq {v : Bool} {op : operation} {db0 : database}
    {f : bucket_object → bucket_object} (hfid : ∀ z, (f z).id = z.id)
    (hop : ∀ bs z, operation_process { db0 with buckets := bs } op z = .ok (f z)) :
    ∀ (ids : List Nat) (bs : List bucket_object), (bs.map (fun x => x.id)).Nodup → ids.Nodup →
      (∀ id ∈ ids, ∃ x ∈ bs, x.id = id) →
      post_operation_loop v op ids { db0 with buckets := bs } =
        .ok { db0 with buckets :=
          (bs.map (fun z => if z.id ∈ ids then f (count_operation v z) else z)) }
  | [], bs, _, _, _ => by
    simp only [post_operation_loop, List.not_mem_nil, ite_false, List.map_id']
  | id :: ids, bs, hu, hnd, hact => by
    rw [post_operation_loop,
      post_operation_bucket_eq hop bs id hu (hact id (List.mem_cons_self _ _))]
    simp only
    have hnd' := List.nodup_cons.mp hnd
    have hkeep : ∀ z, (if z.id = id then f (count_operation v z) else z).id = z.id := by
      intro z; split
      · rw [hfid, count_operation_id]
      · rfl
    have hu1 : ((bs.map (fun z => if z.id = id then f (count_operation v z) else z)).map
        (fun x => x.id)).Nodup := by
      rw [map_id_map_of_id_eq hkeep]; exact hu
    have hact1 : ∀ i ∈ ids,
        ∃ x ∈ bs.map (fun z => if z.id = id then f (count_operation v z) else z), x.id = i := by
      intro i hi
      obtain ⟨x, hx, hxi⟩ := hact i (List.mem_cons_of_mem _ hi)
      exact ⟨_, List.mem_map.mpr ⟨x, hx, rfl⟩, (hkeep x).trans hxi⟩
    rw [post_operation_loop_eq hfid hop ids _ hu1 hnd'.2 hact1]
    simp only [List.map_map]
    congr 2
    apply List.map_congr_left
    intro z _
    simp only [Function.comp]
    by_cases hz : z.id = id
    · have h1 : (f (count_operation v z)).id ∉ ids := by
        rw [hfid, count_operation_id, hz]; exact hnd'.1
      simp [hz, h1]
    · simp [hz]

theorem create_returns {db : database} {init : bucket_object → bucket_object}
    (h : ∀ x ∈ db.buckets, x.id ≠ (init { id := db.next_id }).id ∧
      ¬ (x.seconds = (init { id := db.next_id }).seconds ∧
          x.open_ = (init { id := db.next_id }).open_)) :
    db.create init =
      .ok ({ db with buckets := db.buckets ++ [init { id := db.next_id }],
                     next_id := db.next_id + 1 }, init { id := db.next_id }) := by
  unfold database.create
  simp only
  rw [if_neg]
  simp only [List.any_eq_true, Bool.or_eq_true, decide_eq_true_eq, Bool.and_eq_true,
    not_exists, not_and, not_or]
  intro x hx
  exact ⟨(h x hx).1, fun h1 h2 => (h x hx).2 ⟨h1, h2⟩⟩

/-- A round of the loop returns when its resolution is not zero and either the
bucket of the block is found or the retention cutoff can be computed. -/
theorem on_block_bucket_returns {m n s r : Nat} {st : database × List Nat}
    (hids : ids_below st.1) (hret : round_returns st.1 m r) :
    ∃ st', on_block_bucket m n s st r = .ok st' := by
  obtain ⟨hr, hcase⟩ := hret
  unfold on_block_bucket
  rw [if_neg hr]
  simp only
  cases hfind : st.1.find r (st.1.head_block_time / r * r) with
  | some id => exact ⟨_, rfl⟩
  | none =>
    have hnone := find_eq_none.mp hfind
    rcases hcase with ⟨x, hx, hxk⟩ | ⟨hm, h1, h2⟩
    · exact absurd hxk (hnone x hx)
    simp only
    have hcreate : st.1.create
        (fun bo => { bo with open_ := st.1.head_block_time / r * r, seconds := r, blocks := 1 }) =
        .ok ({ st.1 with
          buckets := st.1.buckets ++ [new_bucket st.1.next_id (st.1.head_block_time / r * r) r],
          next_id := st.1.next_id + 1 },
          new_bucket st.1.next_id (st.1.head_block_time / r * r) r) :=
      create_returns (fun x hx => ⟨Nat.ne_of_lt (hids x hx), hnone x hx⟩)
    rw [hcreate]
    simp only
    have hcut : cutoff st.1.head_block_time r m = some (st.1.head_block_time - r * m) :=
      cutoff_eq_some.mpr ⟨h1, h2, rfl⟩
    have hrpos : 0 < r := Nat.pos_of_ne_zero hr
    have hexp : expired r (st.1.head_block_time - r * m)
        (new_bucket st.1.next_id (st.1.head_block_time / r * r) r) = false := by
      simp only [expired, new_bucket, decide_True, Bool.true_and, decide_eq_false_iff_not,
        not_lt]
      have h3 : r ≤ r * m := Nat.le_mul_of_pos_right r hm
      have h4 := Nat.div_add_mod st.1.head_block_time r
      have h5 := Nat.mod_lt st.1.head_block_time hrpos
      rw [Nat.mul_comm] at h4
      omega
    obtain ⟨db2, itr, hev⟩ := @evict_while_returns r (st.1.head_block_time - r * m)
      (database.lower_bound { st.1 with
          buckets := st.1.buckets ++ [new_bucket st.1.next_id (st.1.head_block_time / r * r) r],
          next_id := st.1.next_id + 1 } r 0)
      { st.1 with
          buckets := st.1.buckets ++ [new_bucket st.1.next_id (st.1.head_block_time / r * r) r],
          next_id := st.1.next_id + 1 }
      ⟨new_bucket st.1.next_id (st.1.head_block_time / r * r) r,
        mem_lower_bound.mpr ⟨by simp, le_refl _⟩, hexp⟩
    obtain ⟨_, y, _, _, _, _, hitr, _⟩ := evict_while_ok hev
    have hevict : evict { st.1 with
          buckets := st.1.buckets ++ [new_bucket st.1.next_id (st.1.head_block_time / r * r) r],
          next_id := st.1.next_id + 1 } r m none = .ok (db2, itr) := by
      unfold evict
      rw [if_pos hm]
      simp only [hcut]
      exact hev
    rw [hevict]
    simp only [hitr, deref]
    exact ⟨_, rfl⟩

theorem on_block_bucket_ids_below {m n s r : Nat} {st st' : database × List Nat}
    (hu : unique_ids st.1) (hids : ids_below st.1)
    (h : on_block_bucket m n s st r = .ok st') : ids_below st'.1 := by
  obtain ⟨_, hcase⟩ := on_block_bucket_inv hu h
  rcases hcase with ⟨x, _, _, _, hst⟩ | ⟨_, _, _, cut, _, _, y, _, _, _, _, hst⟩
  · subst hst
    intro z hz
    obtain ⟨w, hw, hwz⟩ := List.mem_map.mp hz
    rw [← hwz, (keeps_key_found n s x.id w).1]
    exact hids w hw
  · subst hst
    intro z hz
    obtain ⟨w, hw, hwz⟩ := List.mem_map.mp hz
    rw [← hwz, (keeps_key_created n s y.id w).1]
    simp only
    rcases List.mem_append.mp (List.mem_filter.mp hw).1 with h1 | h1
    · exact Nat.lt_succ_of_lt (hids w h1)
    · rw [List.mem_singleton] at h1
      rw [h1]
      exact Nat.lt_succ_self _

/-- A round of the loop does not spoil the condition under which the round of
another resolution returns. -/
theorem round_returns_on_block_bucket {m n s r r' : Nat} {st st' : database × List Nat}
    (hu : unique_ids st.1) (h : on_block_bucket m n s st r = .ok st') (hne : r' ≠ r)
    (hret : round_returns st.1 m r') : round_returns st'.1 m r' := by
  obtain ⟨_, _, ht, hs⟩ := on_block_bucket_frame hu h
  unfold round_returns at *
  rw [ht]
  refine ⟨hret.1, ?_⟩
  rcases hret.2 with ⟨x, hx, hxr, hxo⟩ | h3
  · left
    have : x ∈ slice st'.1 r' := by rw [hs r' hne]; exact mem_slice.mpr ⟨hx, hxr⟩
    exact ⟨x, (mem_slice.mp this).1, hxr, hxo⟩
  · exact Or.inr h3

/-- The loop returns when the round of each of its resolutions does. -/
theorem on_block_loop_returns {m n s : Nat} :
    ∀ (rs : List Nat) (st : database × List Nat), unique_ids st.1 → ids_below st.1 →
      rs.Nodup → (∀ r ∈ rs, round_returns st.1 m r) →
      ∃ st', on_block_loop m n s rs st = .ok st'
  | [], st, _, _, _, _ => ⟨st, rfl⟩
  | r :: rs, st, hu, hids, hnd, hret => by
    obtain ⟨st1, h1⟩ := @on_block_bucket_returns m n s r st hids (hret r (List.mem_cons_self _ _))
    have hnd' := List.nodup_cons.mp hnd
    obtain ⟨_, hu1, _, _⟩ := on_block_bucket_frame hu h1
    obtain ⟨st', h2⟩ := on_block_loop_returns rs st1 hu1 (on_block_bucket_ids_below hu hids h1)
      hnd'.2 (fun r' hr' => round_returns_on_block_bucket hu h1
        (fun hc => hnd'.1 (hc ▸ hr')) (hret r' (List.mem_cons_of_mem _ hr')))
    exact ⟨st', by rw [on_block_loop, h1]; exact h2⟩

/-- The first statement of `on_block` returns under `all_time_returns`, and
then keeps the identities below the next one and does not spoil the condition
under which a round returns. -/
theorem on_block_all_time_returns {db : database} {b : signed_block} (hids : ids_below db)
    (h0 : all_time_returns db b) :
    ∃ db0, on_block_all_time db b = .ok db0 ∧ ids_below db0 ∧
      ∀ m r, round_returns db m r → round_returns db0 m r := by
  unfold all_time_returns at h0
  unfold on_block_all_time
  by_cases hb : b.block_num = 1
  · rw [if_pos hb] at h0 ⊢
    have hcreate : db.create
        (fun bo => { bo with open_ := b.timestamp, seconds := 0, blocks := 1 }) =
        .ok ({ db with buckets := db.buckets ++ [new_bucket db.next_id b.timestamp 0],
                       next_id := db.next_id + 1 }, new_bucket db.next_id b.timestamp 0) :=
      create_returns (fun x hx => ⟨Nat.ne_of_lt (hids x hx), h0 x hx⟩)
    rw [hcreate]
    refine ⟨_, rfl, ?_, ?_⟩
    · intro z hz
      simp only at hz ⊢
      rcases List.mem_append.mp hz with h1 | h1
      · exact Nat.lt_succ_of_lt (hids z h1)
      · rw [List.mem_singleton] at h1
        rw [h1]
        exact Nat.lt_succ_self _
    · intro m r hret
      unfold round_returns at *
      refine ⟨hret.1, ?_⟩
      rcases hret.2 with ⟨x, hx, hxk⟩ | h3
      · exact Or.inl ⟨x, List.mem_append_left _ hx, hxk⟩
      · exact Or.inr h3
  · rw [if_neg hb] at h0 ⊢
    obtain ⟨x, hx, hx0⟩ := h0
    have hget : ∃ y, db.get 0 = .ok y ∧ y.id = 0 := by
      unfold database.get
      cases hf : db.buckets.find? (fun z => decide (z.id = 0)) with
      | none =>
        rw [List.find?_eq_none] at hf
        exact absurd (by simpa using hx0) (hf x hx)
      | some y =>
        exact ⟨y, rfl, by simpa using List.find?_some hf⟩
    obtain ⟨y, hy, hy0⟩ := hget
    rw [hy]
    refine ⟨_, rfl, ?_, ?_⟩
    · intro z hz
      simp only [database.modify] at hz ⊢
      obtain ⟨w, hw, hwz⟩ := List.mem_map.mp hz
      rw [← hwz]
      have : (if w.id = y.id then { w with blocks := w.blocks + 1 } else w).id = w.id := by
        split <;> rfl
      rw [this]
      exact hids w hw
    · intro m r hret
      unfold round_returns at *
      refine ⟨hret.1, ?_⟩
      rcases hret.2 with ⟨w, hw, hwr, hwo⟩ | h3
      · left
        refine ⟨if w.id = y.id then { w with blocks := w.blocks + 1 } else w, ?_, ?_, ?_⟩
        · simp only [database.modify]
          exact List.mem_map.mpr ⟨w, hw, rfl⟩
        · rw [← hwr]; split <;> rfl
        · show (if w.id = y.id then { w with blocks := w.blocks + 1 } else w).open_ =
            db.head_block_time / r * r
          rw [← hwo]; split <;> rfl
      · exact Or.inr h3

/-- When `on_block` returns. On a store with unique identities, all below the
next identity, and a duplicate-free tracked set, `on_block` returns as soon as
its first statement can run and, for every tracked resolution, either the
bucket of the block is in the store or the retention cutoff can be computed. -/
theorem on_block_returns (p : plugin_impl) (b : signed_block)
    (hu : unique_ids p.database_) (hids : ids_below p.database_)
    (hnd : p._tracked_buckets.Nodup) (h0 : all_time_returns p.database_ b)
    (hrs : ∀ r ∈ p._tracked_buckets,
      round_returns p.database_ p._maximum_history_per_bucket_size r) :
    ∃ p', on_block p b = .ok p' := by
  obtain ⟨db0, hdb0, hids0, hmono⟩ := on_block_all_time_returns hids h0
  obtain ⟨hu0, _, _⟩ := on_block_all_time_frame hu hdb0
  obtain ⟨st', hloop⟩ := @on_block_loop_returns p._maximum_history_per_bucket_size (num_trx b)
    (trx_size b) p._tracked_buckets (db0, [0]) hu0 hids0 hnd
    (fun r hr => hmono _ r (hrs r hr))
  refine ⟨{ p with database_ := st'.1, _current_buckets := st'.2 }, ?_⟩
  unfold on_block
  rw [hdb0]
  simp only
  have : flat_set_insert 0 [] = [0] := rfl
  rw [this, hloop]

theorem continues_refl (db : database) : continues db db :=
  ⟨le_refl _, fun y hy => Or.inl ⟨y, hy, rfl, rfl, rfl⟩⟩

theorem continues_trans {a b c : database} (hab : continues a b) (hbc : continues b c) :
    continues a c := by
  refine ⟨le_trans hab.1 hbc.1, fun y hy => ?_⟩
  rcases hbc.2 y hy with ⟨x, hx, hxid, hxr, hxo⟩ | h1
  · rcases hab.2 x hx with ⟨w, hw, hwid, hwr, hwo⟩ | h2
    · exact Or.inl ⟨w, hw, hwid.trans hxid, hwr.trans hxr, hwo.trans hxo⟩
    · exact Or.inr (by omega)
  · exact Or.inr (le_trans hab.1 h1)

theorem continues_on_block_bucket {m n s r : Nat} {st st' : database × List Nat}
    (hu : unique_ids st.1) (h : on_block_bucket m n s st r = .ok st') :
    continues st.1 st'.1 := by
  obtain ⟨_, hcase⟩ := on_block_bucket_inv hu h
  rcases hcase with ⟨x, _, _, _, hst⟩ | ⟨_, _, _, cut, _, _, y, _, _, _, _, hst⟩
  · subst hst
    refine ⟨le_refl _, fun z hz => ?_⟩
    obtain ⟨w, hw, hwz⟩ := List.mem_map.mp hz
    have hk := keeps_key_found n s x.id w
    rw [← hwz]
    exact Or.inl ⟨w, hw, hk.1.symm, hk.2.1.symm, hk.2.2.symm⟩
  · subst hst
    refine ⟨Nat.le_succ _, fun z hz => ?_⟩
    obtain ⟨w, hw, hwz⟩ := List.mem_map.mp hz
    have hk := keeps_key_created n s y.id w
    rw [← hwz]
    rcases List.mem_append.mp (List.mem_filter.mp hw).1 with h1 | h1
    · exact Or.inl ⟨w, h1, hk.1.symm, hk.2.1.symm, hk.2.2.symm⟩
    · rw [List.mem_singleton] at h1
      right
      rw [hk.1, h1]
      exact le_refl _

theorem continues_on_block_loop {m n s : Nat} :
    ∀ {rs : List Nat} {st st' : database × List Nat}, unique_ids st.1 →
      on_block_loop m n s rs st = .ok st' → continues st.1 st'.1
  | [], st, st', _, h => by
    simp only [on_block_loop, Except.ok.injEq] at h
    subst h
    exact continues_refl _
  | r :: rs, st, st', hu, h => by
    rw [on_block_loop] at h
    split at h
    · exact absurd h (by simp)
    rename_i st1 h1
    obtain ⟨_, hu1, _, _⟩ := on_block_bucket_frame hu h1
    exact continues_trans (continues_on_block_bucket hu h1) (continues_on_block_loop hu1 h)

theorem continues_on_block_all_time {db db0 : database} {b : signed_block}
    (h : on_block_all_time db b = .ok db0) : continues db db0 := by
  rcases on_block_all_time_inv h with ⟨_, _, _, hdb0⟩ | ⟨_, _, hdb0⟩
  · subst hdb0
    refine ⟨Nat.le_succ _, fun z hz => ?_⟩
    rcases List.mem_append.mp hz with h1 | h1
    · exact Or.inl ⟨z, h1, rfl, rfl, rfl⟩
    · rw [List.mem_singleton] at h1
      right
      rw [h1]
      exact le_refl _
  · subst hdb0
    refine ⟨le_refl _, fun z hz => ?_⟩
    obtain ⟨w, hw, hwz⟩ := List.mem_map.mp hz
    have hk := keeps_key_count 0 w
    rw [← hwz]
    exact Or.inl ⟨w, hw, hk.1.symm, hk.2.1.symm, hk.2.2.symm⟩

/-- A returning `on_block` never gives an identity of the old store to another
bucket: a bucket of the new store with the identity of an old bucket has that
bucket's resolution and open time. -/
theorem on_block_keeps_identity {p p' : plugin_impl} {b : signed_block}
    (hu : unique_ids p.database_) (hids : ids_below p.database_)
    (h : on_block p b = .ok p') :
    ∀ x ∈ p.database_.buckets, ∀ y ∈ p'.database_.buckets, y.id = x.id →
      y.seconds = x.seconds ∧ y.open_ = x.open_ := by
  obtain ⟨db0, st', h0, h1, hp'⟩ := on_block_inv h
  obtain ⟨hu0, _, _⟩ := on_block_all_time_frame hu h0
  have hc := continues_trans (continues_on_block_all_time h0)
    (@continues_on_block_loop _ _ _ _ (db0, [0]) _ hu0 h1)
  subst hp'
  intro x hx y hy hyx
  rcases hc.2 y hy with ⟨w, hw, hwid, hwr, hwo⟩ | h2
  · have := eq_of_id_eq hu hw hx (hwid.trans hyx)
    subst this
    exact ⟨hwr.symm, hwo.symm⟩
  · have := hids x hx
    omega


theorem operation_process_buckets (db : database) (bs : List bucket_object) (op : operation)
    (b : bucket_object) :
    operation_process { db with buckets := bs } op b = operation_process db op b := by
  cases op <;> rfl

/-- The handler of an operation keeps the identity, the resolution and the
open time of the bucket and does not touch `operations`. -/
theorem operation_process_keeps {db : database} {op : operation} {b b' : bucket_object}
    (h : operation_process db op b = .ok b') :
    b'.id = b.id ∧ b'.seconds = b.seconds ∧ b'.open_ = b.open_ ∧
      b'.operations = b.operations := by
  unfold operation_process at h
  cases op <;> simp only at h <;>
    (repeat' split at h) <;>
    first
      | (simp only [Except.ok.injEq] at h; subst h; exact ⟨rfl, rfl, rfl, rfl⟩)
      | (exact absurd h (by simp))


theorem get_ok_mem {db : database} {id : Nat} {x : bucket_object} (h : db.get id = .ok x) :
    x ∈ db.buckets ∧ x.id = id := by
  unfold database.get at h
  split at h
  · rename_i y hy
    simp only [Except.ok.injEq] at h
    subst h
    exact ⟨List.mem_of_find?_eq_some hy, by simpa using List.find?_some hy⟩
  · exact absurd h (by simp)

theorem count_modify (v : Bool) (db : database) (id : Nat) :
    (if v then db else db.modify id (fun b => { b with operations := b.operations + 1 })) =
      { db with buckets :=
        (db.buckets.map (fun z => if z.id = id then count_operation v z else z)) } := by
  cases v
  · simp only [database.modify, count_operation]
    rfl
  · simp only [count_operation, ite_true]
    have : (fun z : bucket_object => if z.id = id then z else z) = fun z => z := by
      funext z; split <;> rfl
    rw [this, List.map_id']

/-- What a returning round of the loop of `post_operation` did: the active
bucket is in the store, the handler returned on it, and the store holds the
handler's result in its place. -/
theorem post_operation_bucket_inv {v : Bool} {op : operation} {db db' : database} {id : Nat}
    (hu : unique_ids db) (h : post_operation_bucket v op db id = .ok db') :
    ∃ x ∈ db.buckets, x.id = id ∧
      ∃ y, operation_process db op (count_operation v x) = .ok y ∧
        db' = { db with buckets := (db.buckets.map (fun z => if z.id = id then y else z)) } := by
  unfold post_operation_bucket at h
  split at h
  · exact absurd h (by simp)
  · rename_i x hx
    obtain ⟨hxm, hxid⟩ := get_ok_mem hx
    subst hxid
    simp only at h
    rw [count_modify] at h
    have hu1 : unique_ids
        { db with buckets :=
          (db.buckets.map (fun z => if z.id = x.id then count_operation v z else z)) } := by
      unfold unique_ids
      simp only
      rw [map_id_map_of_id_eq]
      · exact hu
      · intro z; split
        · exact count_operation_id v z
        · rfl
    have hx1 : count_operation v x ∈
        ({ db with buckets :=
          (db.buckets.map (fun z => if z.id = x.id then count_operation v z else z)) } :
            database).buckets :=
      List.mem_map.mpr ⟨x, hxm, by simp⟩
    have hg := get_of_mem hu1 hx1
    rw [count_operation_id] at hg
    rw [hg] at h
    simp only at h
    rw [operation_process_buckets] at h
    split at h
    · exact absurd h (by simp)
    · rename_i y hy
      simp only [Except.ok.injEq] at h
      refine ⟨x, hxm, rfl, y, hy, ?_⟩
      rw [← h]
      simp only [database.modify, List.map_map]
      congr 1
      apply List.map_congr_left
      intro z _
      by_cases hz : z.id = x.id
      · simp [hz, count_operation_id]
      · simp [hz]

theorem processed_of_ok {db : database} {v : Bool} {op : operation} {x y : bucket_object}
    (h : operation_process db op (count_operation v x) = .ok y) : processed db v op x = y := by
  unfold processed
  rw [h]

theorem processed_id (db : database) (v : Bool) (op : operation) (z : bucket_object) :
    (processed db v op z).id = z.id := by
  unfold processed
  split
  · rename_i y hy
    rw [(operation_process_keeps hy).1, count_operation_id]
  · rfl

theorem processed_buckets (db : database) (bs : List bucket_object) (v : Bool) (op : operation) :
    processed { db with buckets := bs } v op = processed db v op := by
  funext z
  unfold processed
  rw [operation_process_buckets]

/-- What a returning loop of `post_operation` did: on every active bucket the
handler returned, and the store holds, in place of every active bucket, what
the post-pass makes of it; every other bucket is as before. -/
theorem post_operation_loop_inv {v : Bool} {op : operation} :
    ∀ (ids : List Nat) (db db' : database), unique_ids db → ids.Nodup →
      post_operation_loop v op ids db = .ok db' →
      db' = { db with buckets :=
          (db.buckets.map (fun z => if z.id ∈ ids then processed db v op z else z)) } ∧
      ∀ id ∈ ids, ∃ x ∈ db.buckets, x.id = id ∧
        ∃ y, operation_process db op (count_operation v x) = .ok y
  | [], db, db', _, _, h => by
    simp only [post_operation_loop, Except.ok.injEq] at h
    subst h
    simp
  | id :: ids, db, db', hu, hnd, h => by
    rw [post_operation_loop] at h
    split at h
    · exact absurd h (by simp)
    · rename_i db1 h1
      obtain ⟨x, hxm, hxid, y, hy, hdb1⟩ := post_operation_bucket_inv hu h1
      have hnd' := List.nodup_cons.mp hnd
      have hyid : y.id = id := by
        rw [(operation_process_keeps hy).1, count_operation_id, hxid]
      have hkeep : ∀ z : bucket_object, (if z.id = id then y else z).id = z.id := by
        intro z; split
        · rename_i hz; rw [hyid, hz]
        · rfl
      have hu1 : unique_ids db1 := by
        rw [hdb1]
        unfold unique_ids
        simp only
        rw [map_id_map_of_id_eq hkeep]; exact hu
      obtain ⟨hdb', hact⟩ := post_operation_loop_inv ids db1 db' hu1 hnd'.2 h
      constructor
      · rw [hdb', hdb1]
        simp only [List.map_map, processed_buckets]
        congr 1
        apply List.map_congr_left
        intro z hz
        simp only [Function.comp]
        by_cases hzid : z.id = id
        · have hzx : z = x := eq_of_id_eq hu hz hxm (hzid.trans hxid.symm)
          have h1 : y.id ∉ ids := by rw [hyid]; exact hnd'.1
          have h2 : z.id ∈ id :: ids := by rw [hzid]; exact List.mem_cons_self _ _
          rw [if_pos hzid, if_neg h1, if_pos h2, hzx, processed_of_ok hy]
        · have h2 : z.id ∈ id :: ids ↔ z.id ∈ ids := by
            rw [List.mem_cons]; exact or_iff_right hzid
          simp only [if_neg hzid, h2]
      · intro i hi
        rcases List.mem_cons.mp hi with hi | hi
        · subst hi
          exact ⟨x, hxm, hxid, y, hy⟩
        · obtain ⟨x1, hx1m, hx1id, y1, hy1⟩ := hact i hi
          rw [hdb1] at hx1m hy1
          rw [operation_process_buckets] at hy1
          obtain ⟨z, hz, hzx1⟩ := List.mem_map.mp hx1m
          have hne : z.id ≠ id := by
            intro hzid
            rw [if_pos hzid] at hzx1
            rw [← hzx1, hyid] at hx1id
            exact hnd'.1 (hx1id ▸ hi)
          rw [if_neg hne] at hzx1
          subst hzx1
          exact ⟨z, hz, hx1id, y1, hy1⟩

/-- The handler of an operation writes only the counters of its row. -/
theorem operation_process_row {db : database} {op : operation} {b b' : bucket_object}
    (h : operation_process db op b = .ok b') : row_frame op b b' := by
  unfold operation_process at h
  cases op <;> simp only at h <;>
    (repeat' split at h) <;>
    first
      | (simp only [Except.ok.injEq] at h; subst h; rfl)
      | (exact absurd h (by simp))

theorem row_frame_count {op : operation} {v : Bool} {x y : bucket_object}
    (h : row_frame op (count_operation v x) y) : row_frame op x y := by
  cases v <;> cases op <;> exact h

theorem counters_le_refl (x : bucket_object) : counters_le x x := by
  unfold counters_le
  simp

theorem counters_le_trans {x y z : bucket_object} (hxy : counters_le x y)
    (hyz : counters_le y z) : counters_le x z :=
  ⟨le_trans hxy.1 hyz.1, le_trans hxy.2.1 hyz.2.1, le_trans hxy.2.2.1 hyz.2.2.1,
   le_trans hxy.2.2.2.1 hyz.2.2.2.1, le_trans hxy.2.2.2.2.1 hyz.2.2.2.2.1,
   le_trans hxy.2.2.2.2.2.1 hyz.2.2.2.2.2.1, le_trans hxy.2.2.2.2.2.2.1 hyz.2.2.2.2.2.2.1,
   le_trans hxy.2.2.2.2.2.2.2.1 hyz.2.2.2.2.2.2.2.1,
   le_trans hxy.2.2.2.2.2.2.2.2.1 hyz.2.2.2.2.2.2.2.2.1,
   le_trans hxy.2.2.2.2.2.2.2.2.2.1 hyz.2.2.2.2.2.2.2.2.2.1,
   le_trans hxy.2.2.2.2.2.2.2.2.2.2.1 hyz.2.2.2.2.2.2.2.2.2.2.1,
   le_trans hxy.2.2.2.2.2.2.2.2.2.2.2.1 hyz.2.2.2.2.2.2.2.2.2.2.2.1,
   le_trans hxy.2.2.2.2.2.2.2.2.2.2.2.2.1 hyz.2.2.2.2.2.2.2.2.2.2.2.2.1,
   le_trans hxy.2.2.2.2.2.2.2.2.2.2.2.2.2.1 hyz.2.2.2.2.2.2.2.2.2.2.2.2.2.1,
   le_trans hxy.2.2.2.2.2.2.2.2.2.2.2.2.2.2.1 hyz.2.2.2.2.2.2.2.2.2.2.2.2.2.2.1,
   le_trans hxy.2.2.2.2.2.2.2.2.2.2.2.2.2.2.2.1 hyz.2.2.2.2.2.2.2.2.2.2.2.2.2.2.2.1,
   le_trans hxy.2.2.2.2.2.2.2.2.2.2.2.2.2.2.2.2.1 hyz.2.2.2.2.2.2.2.2.2.2.2.2.2.2.2.2.1,
   le_trans hxy.2.2.2.2.2.2.2.2.2.2.2.2.2.2.2.2.2.1 hyz.2.2.2.2.2.2.2.2.2.2.2.2.2.2.2.2.2.1,
   le_trans hxy.2.2.2.2.2.2.2.2.2.2.2.2.2.2.2.2.2.2.1 hyz.2.2.2.2.2.2.2.2.2.2.2.2.2.2.2.2.2.2.1,
   le_trans hxy.2.2.2.2.2.2.2.2.2.2.2.2.2.2.2.2.2.2.2.1 hyz.2.2.2.2.2.2.2.2.2.2.2.2.2.2.2.2.2.2.2.1,
   le_trans hxy.2.2.2.2.2.2.2.2.2.2.2.2.2.2.2.2.2.2.2.2.1 hyz.2.2.2.2.2.2.2.2.2.2.2.2.2.2.2.2.2.2.2.2.1,
   le_trans hxy.2.2.2.2.2.2.2.2.2.2.2.2.2.2.2.2.2.2.2.2.2.1 hyz.2.2.2.2.2.2.2.2.2.2.2.2.2.2.2.2.2.2.2.2.2.1,
   le_trans hxy.2.2.2.2.2.2.2.2.2.2.2.2.2.2.2.2.2.2.2.2.2.2.1 hyz.2.2.2.2.2.2.2.2.2.2.2.2.2.2.2.2.2.2.2.2.2.2.1,
   le_trans hxy.2.2.2.2.2.2.2.2.2.2.2.2.2.2.2.2.2.2.2.2.2.2.2.1 hyz.2.2.2.2.2.2.2.2.2.2.2.2.2.2.2.2.2.2.2.2.2.2.2.1,
   le_trans hxy.2.2.2.2.2.2.2.2.2.2.2.2.2.2.2.2.2.2.2.2.2.2.2.2.1 hyz.2.2.2.2.2.2.2.2.2.2.2.2.2.2.2.2.2.2.2.2.2.2.2.2.1,
   le_trans hxy.2.2.2.2.2.2.2.2.2.2.2.2.2.2.2.2.2.2.2.2.2.2.2.2.2.1 hyz.2.2.2.2.2.2.2.2.2.2.2.2.2.2.2.2.2.2.2.2.2.2.2.2.2.1,
   le_trans hxy.2.2.2.2.2.2.2.2.2.2.2.2.2.2.2.2.2.2.2.2.2.2.2.2.2.2.1 hyz.2.2.2.2.2.2.2.2.2.2.2.2.2.2.2.2.2.2.2.2.2.2.2.2.2.2.1,
   le_trans hxy.2.2.2.2.2.2.2.2.2.2.2.2.2.2.2.2.2.2.2.2.2.2.2.2.2.2.2.1 hyz.2.2.2.2.2.2.2.2.2.2.2.2.2.2.2.2.2.2.2.2.2.2.2.2.2.2.2.1,
   le_trans hxy.2.2.2.2.2.2.2.2.2.2.2.2.2.2.2.2.2.2.2.2.2.2.2.2.2.2.2.2.1 hyz.2.2.2.2.2.2.2.2.2.2.2.2.2.2.2.2.2.2.2.2.2.2.2.2.2.2.2.2.1,
   le_trans hxy.2.2.2.2.2.2.2.2.2.2.2.2.2.2.2.2.2.2.2.2.2.2.2.2.2.2.2.2.2.1 hyz.2.2.2.2.2.2.2.2.2.2.2.2.2.2.2.2.2.2.2.2.2.2.2.2.2.2.2.2.2.1,
   le_trans hxy.2.2.2.2.2.2.2.2.2.2.2.2.2.2.2.2.2.2.2.2.2.2.2.2.2.2.2.2.2.2.1 hyz.2.2.2.2.2.2.2.2.2.2.2.2.2.2.2.2.2.2.2.2.2.2.2.2.2.2.2.2.2.2.1,
   le_trans hxy.2.2.2.2.2.2.2.2.2.2.2.2.2.2.2.2.2.2.2.2.2.2.2.2.2.2.2.2.2.2.2.1 hyz.2.2.2.2.2.2.2.2.2.2.2.2.2.2.2.2.2.2.2.2.2.2.2.2.2.2.2.2.2.2.2.1,
   le_trans hxy.2.2.2.2.2.2.2.2.2.2.2.2.2.2.2.2.2.2.2.2.2.2.2.2.2.2.2.2.2.2.2.2.1 hyz.2.2.2.2.2.2.2.2.2.2.2.2.2.2.2.2.2.2.2.2.2.2.2.2.2.2.2.2.2.2.2.2.1,
   le_trans hxy.2.2.2.2.2.2.2.2.2.2.2.2.2.2.2.2.2.2.2.2.2.2.2.2.2.2.2.2.2.2.2.2.2.1 hyz.2.2.2.2.2.2.2.2.2.2.2.2.2.2.2.2.2.2.2.2.2.2.2.2.2.2.2.2.2.2.2.2.2.1,
   le_trans hxy.2.2.2.2.2.2.2.2.2.2.2.2.2.2.2.2.2.2.2.2.2.2.2.2.2.2.2.2.2.2.2.2.2.2.1 hyz.2.2.2.2.2.2.2.2.2.2.2.2.2.2.2.2.2.2.2.2.2.2.2.2.2.2.2.2.2.2.2.2.2.2.1,
   le_trans hxy.2.2.2.2.2.2.2.2.2.2.2.2.2.2.2.2.2.2.2.2.2.2.2.2.2.2.2.2.2.2.2.2.2.2.2.1 hyz.2.2.2.2.2.2.2.2.2.2.2.2.2.2.2.2.2.2.2.2.2.2.2.2.2.2.2.2.2.2.2.2.2.2.2.1,
   le_trans hxy.2.2.2.2.2.2.2.2.2.2.2.2.2.2.2.2.2.2.2.2.2.2.2.2.2.2.2.2.2.2.2.2.2.2.2.2.1 hyz.2.2.2.2.2.2.2.2.2.2.2.2.2.2.2.2.2.2.2.2.2.2.2.2.2.2.2.2.2.2.2.2.2.2.2.2.1,
   le_trans hxy.2.2.2.2.2.2.2.2.2.2.2.2.2.2.2.2.2.2.2.2.2.2.2.2.2.2.2.2.2.2.2.2.2.2.2.2.2.1 hyz.2.2.2.2.2.2.2.2.2.2.2.2.2.2.2.2.2.2.2.2.2.2.2.2.2.2.2.2.2.2.2.2.2.2.2.2.2.1,
   le_trans hxy.2.2.2.2.2.2.2.2.2.2.2.2.2.2.2.2.2.2.2.2.2.2.2.2.2.2.2.2.2.2.2.2.2.2.2.2.2.2.1 hyz.2.2.2.2.2.2.2.2.2.2.2.2.2.2.2.2.2.2.2.2.2.2.2.2.2.2.2.2.2.2.2.2.2.2.2.2.2.2.1,
   le_trans hxy.2.2.2.2.2.2.2.2.2.2.2.2.2.2.2.2.2.2.2.2.2.2.2.2.2.2.2.2.2.2.2.2.2.2.2.2.2.2.2.1 hyz.2.2.2.2.2.2.2.2.2.2.2.2.2.2.2.2.2.2.2.2.2.2.2.2.2.2.2.2.2.2.2.2.2.2.2.2.2.2.2.1,
   le_trans hxy.2.2.2.2.2.2.2.2.2.2.2.2.2.2.2.2.2.2.2.2.2.2.2.2.2.2.2.2.2.2.2.2.2.2.2.2.2.2.2.2.1 hyz.2.2.2.2.2.2.2.2.2.2.2.2.2.2.2.2.2.2.2.2.2.2.2.2.2.2.2.2.2.2.2.2.2.2.2.2.2.2.2.2.1,
   le_trans hxy.2.2.2.2.2.2.2.2.2.2.2.2.2.2.2.2.2.2.2.2.2.2.2.2.2.2.2.2.2.2.2.2.2.2.2.2.2.2.2.2.2 hyz.2.2.2.2.2.2.2.2.2.2.2.2.2.2.2.2.2.2.2.2.2.2.2.2.2.2.2.2.2.2.2.2.2.2.2.2.2.2.2.2.2⟩

theorem counters_le_count_operation (v : Bool) (x : bucket_object) :
    counters_le x (count_operation v x) := by
  cases v <;> simp [counters_le, count_operation]

/-- The hash-power update in exact arithmetic: when the sum fits 128 bits the
new estimate is the old one plus the estimated hashes over the time span. -/
theorem estimated_hashpower_eq {old dt e : Nat} (hdt : 0 < dt)
    (hfit : old * dt + e < 2 ^ 128) :
    ((old * dt + e) % 2 ^ 128) / dt = old + e / dt := by
  rw [Nat.mod_eq_of_lt hfit, Nat.mul_comm old dt, Nat.mul_add_div hdt]

theorem delta_t_le (db : database) (b : bucket_object) (hs : b.seconds ≤ UINT32_MAX) :
    (if b.seconds = 0 then
        (db.head_block_time + (UINT32_MAX + 1) - b.open_ % (UINT32_MAX + 1)) % (UINT32_MAX + 1)
      else b.seconds) ≤ UINT32_MAX := by
  split
  · exact Nat.le_of_lt_succ (Nat.mod_lt _ (Nat.succ_pos UINT32_MAX))
  · exact hs

theorem hashpower_sum_fits {old dt bits : Nat} (hold : old < 2 ^ 95) (hdt : dt ≤ UINT32_MAX)
    (hbits : bits < 31) : old * dt + 2 ^ bits < 2 ^ 128 := by
  have h1 : old * dt ≤ 2 ^ 95 * UINT32_MAX := Nat.mul_le_mul (Nat.le_of_lt hold) hdt
  have h2 : 2 ^ bits ≤ 2 ^ 30 := Nat.pow_le_pow_right (by norm_num) (by omega)
  have h3 : 2 ^ 95 * UINT32_MAX + 2 ^ 30 < 2 ^ 128 := by
    unfold UINT32_MAX
    norm_num
  omega

theorem estimated_hashes_of_lt {db : database} (hbits : db.num_pow_witnesses / 4 + 4 < 31) :
    estimated_hashes db = 2 ^ (db.num_pow_witnesses / 4 + 4) := by
  unfold estimated_hashes
  simp only
  rw [if_neg (Nat.ne_of_lt hbits)]

theorem estimated_hashes_of_eq {db : database} (hbits : db.num_pow_witnesses / 4 + 4 = 31) :
    estimated_hashes db = 2 ^ 128 - 2 ^ 31 := by
  unfold estimated_hashes
  simp only
  rw [if_pos hbits]

/-- The proof-of-work handler on a found worker account, a shift of fewer
than 32 bits and a time span that is not zero: it returns, with the three
counters of the row updated. -/
theorem operation_process_pow_eq {db : database} {w : String} {worker : account_object}
    (b : bucket_object) (hw : db.get_account w = .ok worker)
    (hbits : db.num_pow_witnesses / 4 + 4 < 32) (hd : delta_t db b ≠ 0) :
    operation_process db (.pow_operation w) b =
      .ok { b with
        mined_accounts_created :=
          b.mined_accounts_created + (if worker.created = db.head_block_time then 1 else 0),
        total_pow := b.total_pow + 1,
        estimated_hashpower :=
          ((b.estimated_hashpower * delta_t db b + estimated_hashes db) % 2 ^ 128) /
            delta_t db b } := by
  unfold operation_process
  simp only [hw]
  rw [if_neg (Nat.not_le.mpr hbits)]
  by_cases hc : worker.created = db.head_block_time
  · simp only [if_pos hc]
    unfold delta_t at hd
    rw [if_neg hd]
    rfl
  · simp only [if_neg hc]
    unfold delta_t at hd
    rw [if_neg hd]
    rfl

/-- The proof-of-work handler with a shift of 32 bits or more faults. -/
theorem operation_process_pow_shift {db : database} {w : String} {worker : account_object}
    (b : bucket_object) (hw : db.get_account w = .ok worker)
    (hbits : 32 ≤ db.num_pow_witnesses / 4 + 4) :
    operation_process db (.pow_operation w) b = .error .shift_out_of_range := by
  unfold operation_process
  simp only [hw]
  rw [if_pos hbits]

/-- The proof-of-work handler with a time span of zero faults, when the
worker account is found and the shift is in range. -/
theorem operation_process_pow_zero {db : database} {w : String} {worker : account_object}
    (b : bucket_object) (hw : db.get_account w = .ok worker)
    (hbits : db.num_pow_witnesses / 4 + 4 < 32) (hd : delta_t db b = 0) :
    operation_process db (.pow_operation w) b = .error .division_by_zero := by
  unfold operation_process
  simp only [hw]
  rw [if_neg (Nat.not_le.mpr hbits)]
  by_cases hc : worker.created = db.head_block_time
  · simp only [if_pos hc]
    unfold delta_t at hd
    rw [if_pos hd]
  · simp only [if_neg hc]
    unfold delta_t at hd
    rw [if_pos hd]

/-- What a returning proof-of-work handler did: the worker account is there,
the shift has fewer than 32 bits, the time span is not zero, and the three
counters of the row are updated. -/
theorem operation_process_pow_inv {db : database} {w : String} {b b' : bucket_object}
    (h : operation_process db (.pow_operation w) b = .ok b') :
    ∃ worker, db.get_account w = .ok worker ∧ db.num_pow_witnesses / 4 + 4 < 32 ∧
      delta_t db b ≠ 0 ∧
      b' = { b with
        mined_accounts_created :=
          b.mined_accounts_created + (if worker.created = db.head_block_time then 1 else 0),
        total_pow := b.total_pow + 1,
        estimated_hashpower :=
          ((b.estimated_hashpower * delta_t db b + estimated_hashes db) % 2 ^ 128) /
            delta_t db b } := by
  cases hw : db.get_account w with
  | error e =>
    unfold operation_process at h
    simp only [hw] at h
    exact absurd h (by simp)
  | ok worker =>
    by_cases hbits : 32 ≤ db.num_pow_witnesses / 4 + 4
    · rw [operation_process_pow_shift b hw hbits] at h
      exact absurd h (by simp)
    have hbits' := Nat.lt_of_not_le hbits
    by_cases hd : delta_t db b = 0
    · rw [operation_process_pow_zero b hw hbits' hd] at h
      exact absurd h (by simp)
    rw [operation_process_pow_eq b hw hbits' hd] at h
    simp only [Except.ok.injEq] at h
    exact ⟨worker, rfl, hbits', hd, h.symm⟩

/-- The update of the estimate when nothing wraps: the old estimate plus the
hashes of the solution divided by the time span. -/
theorem pow_estimate_eq {db : database} {b : bucket_object} (hf : hashpower_fits b)
    (hbits : db.num_pow_witnesses / 4 + 4 < 31) (hd : delta_t db b ≠ 0) :
    ((b.estimated_hashpower * delta_t db b + estimated_hashes db) % 2 ^ 128) / delta_t db b =
      b.estimated_hashpower + 2 ^ (db.num_pow_witnesses / 4 + 4) / delta_t db b := by
  rw [estimated_hashes_of_lt hbits]
  exact estimated_hashpower_eq (Nat.pos_of_ne_zero hd)
    (hashpower_sum_fits hf.1 (delta_t_le db b hf.2) hbits)

/-- The update of the estimate at a shift of 31 bits: an estimate whose
product with the time span is at least `2 ^ 31` falls. -/
theorem pow_estimate_wraps {db : database} {b : bucket_object} (hf : hashpower_fits b)
    (hbits : db.num_pow_witnesses / 4 + 4 = 31) (hd : delta_t db b ≠ 0)
    (hbig : 2 ^ 31 ≤ b.estimated_hashpower * delta_t db b) :
    ((b.estimated_hashpower * delta_t db b + estimated_hashes db) % 2 ^ 128) / delta_t db b =
        (b.estimated_hashpower * delta_t db b - 2 ^ 31) / delta_t db b ∧
      (b.estimated_hashpower * delta_t db b - 2 ^ 31) / delta_t db b <
        b.estimated_hashpower := by
  rw [estimated_hashes_of_eq hbits]
  have h1 : b.estimated_hashpower * delta_t db b ≤ 2 ^ 95 * UINT32_MAX :=
    Nat.mul_le_mul (Nat.le_of_lt hf.1) (delta_t_le db b hf.2)
  have h3 : 2 ^ 95 * UINT32_MAX < 2 ^ 128 := by
    unfold UINT32_MAX
    norm_num
  have h4 : (2 : Nat) ^ 31 ≤ 2 ^ 128 := by norm_num
  have hsum : b.estimated_hashpower * delta_t db b + (2 ^ 128 - 2 ^ 31) =
      (b.estimated_hashpower * delta_t db b - 2 ^ 31) + 2 ^ 128 := by omega
  constructor
  · rw [hsum, Nat.add_mod_right, Nat.mod_eq_of_lt (by omega)]
  · rw [Nat.div_lt_iff_lt_mul (Nat.pos_of_ne_zero hd)]
    have : 0 < (2 : Nat) ^ 31 := by norm_num
    omega

/-- The handler of an operation with non-negative amounts lowers no counter,
when the shift of the proof-of-work handler has fewer than 31 bits. -/
theorem operation_process_counters {db : database} {op : operation} {b b' : bucket_object}
    (ha : amounts_nonneg op) (hf : hashpower_fits b)
    (hbits : ∀ w, op = .pow_operation w → db.num_pow_witnesses / 4 + 4 < 31)
    (h : operation_process db op b = .ok b') : counters_le b b' := by
  cases op
  case pow_operation w =>
    obtain ⟨worker, _, _, hd, hb'⟩ := operation_process_pow_inv h
    rw [pow_estimate_eq hf (hbits w rfl) hd] at hb'
    subst hb'
    simp [counters_le]
  all_goals
    unfold operation_process at h
    try simp only [amounts_nonneg] at ha
    simp only at h
    (repeat' split at h)
    all_goals first
      | (simp only [Except.ok.injEq] at h; subst h; simp [counters_le, *])
      | exact absurd h (by simp)

theorem processed_counters {db : database} {v : Bool} {op : operation} {z : bucket_object}
    (ha : amounts_nonneg op) (hf : hashpower_fits z)
    (hbits : ∀ w, op = .pow_operation w → db.num_pow_witnesses / 4 + 4 < 31) :
    counters_le z (processed db v op z) := by
  unfold processed
  split
  · rename_i y hy
    have hf' : hashpower_fits (count_operation v z) := by
      cases v <;> exact hf
    exact counters_le_trans (counters_le_count_operation v z)
      (operation_process_counters ha hf' hbits hy)
  · exact counters_le_refl z

theorem processed_row {db : database} {v : Bool} {op : operation} {z y : bucket_object}
    (h : operation_process db op (count_operation v z) = .ok y) : row_frame op z y :=
  row_frame_count (operation_process_row h)

theorem processed_operations {db : database} {v : Bool} {op : operation} {z y : bucket_object}
    (h : operation_process db op (count_operation v z) = .ok y) :
    y.id = z.id ∧ y.operations = z.operations + (if v then 0 else 1) := by
  obtain ⟨hid, _, _, hops⟩ := operation_process_keeps h
  rw [hid, hops]
  cases v <;> exact ⟨rfl, rfl⟩

theorem forall2_map_of_forall {R : bucket_object → bucket_object → Prop}
    {g : bucket_object → bucket_object} :
    ∀ {l : List bucket_object}, (∀ x ∈ l, R x (g x)) → List.Forall₂ R l (l.map g)
  | [], _ => List.Forall₂.nil
  | a :: _, h =>
    List.Forall₂.cons (h a (List.mem_cons_self _ _))
      (forall2_map_of_forall (fun x hx => h x (List.mem_cons_of_mem _ hx)))

/-- What a returning `post_operation` did: the store is the old one with every
bucket rewritten by a function that is the handler of the operation, after
the operation count, on the active buckets and the identity on the others;
nothing else of the plugin state changes. -/
theorem post_operation_step {v : operation → Bool} {p p' : plugin_impl}
    {o : operation_notification} (hu : unique_ids p.database_)
    (hnd : p._current_buckets.Nodup) (h : post_operation v p o = .ok p') :
    ∃ g : bucket_object → bucket_object,
      p' = { p with database_ :=
        { p.database_ with buckets := (p.database_.buckets.map g) } } ∧
      ∀ x ∈ p.database_.buckets,
        (x.id ∈ p._current_buckets →
          operation_process p.database_ o.op (count_operation (v o.op) x) = .ok (g x)) ∧
        (x.id ∉ p._current_buckets → g x = x) := by
  unfold post_operation at h
  split at h
  · exact absurd h (by simp)
  rename_i db' hl
  simp only [Except.ok.injEq] at h
  obtain ⟨hdb', hact⟩ := post_operation_loop_inv _ _ _ hu hnd hl
  refine ⟨fun z => if z.id ∈ p._current_buckets then
    processed p.database_ (v o.op) o.op z else z, ?_, ?_⟩
  · rw [← h, hdb']
  · intro x hx
    constructor
    · intro hxa
      obtain ⟨x1, hx1, hx1id, y, hy⟩ := hact x.id hxa
      have := eq_of_id_eq hu hx1 hx hx1id
      subst this
      simp only [if_pos hxa]
      rw [processed_of_ok hy]
      exact hy
    · intro hxa
      simp only [if_neg hxa]

theorem post_operation_unique_ids {v : operation → Bool} {p p' : plugin_impl}
    {o : operation_notification} (hu : unique_ids p.database_)
    (hnd : p._current_buckets.Nodup) (h : post_operation v p o = .ok p') :
    unique_ids p'.database_ ∧ p'._current_buckets = p._current_buckets ∧
      p'.database_.buckets.map (fun x => x.id) = p.database_.buckets.map (fun x => x.id) := by
  obtain ⟨g, hp', hg⟩ := post_operation_step hu hnd h
  subst hp'
  have hmap : (p.database_.buckets.map g).map (fun x => x.id) =
      p.database_.buckets.map (fun x => x.id) := by
    rw [List.map_map]
    apply List.map_congr_left
    intro x hx
    simp only [Function.comp]
    by_cases hxa : x.id ∈ p._current_buckets
    · rw [(operation_process_keeps ((hg x hx).1 hxa)).1, count_operation_id]
    · rw [(hg x hx).2 hxa]
  refine ⟨?_, rfl, hmap⟩
  unfold unique_ids
  simp only
  rw [hmap]
  exact hu

theorem pre_processed_id (N : Int) (db : database) (op : operation) (z : bucket_object) :
    (pre_processed N db op z).id = z.id := by
  unfold pre_processed
  cases op <;> simp only <;> (repeat' split) <;> rfl

theorem pre_processed_buckets (N : Int) (db : database) (bs : List bucket_object)
    (op : operation) :
    pre_processed N { db with buckets := bs } op = pre_processed N db op := by
  funext z
  cases op <;> rfl

theorem pre_processed_counters (N : Int) (db : database) (op : operation) (z : bucket_object) :
    counters_le z (pre_processed N db op z) := by
  unfold pre_processed
  cases op <;> simp only <;> (repeat' split) <;> simp [counters_le]

/-- What a returning round of the loop of `pre_operation` did. -/
theorem pre_operation_bucket_inv {N : Int} {op : operation} {db db' : database} {id : Nat}
    (h : pre_operation_bucket N op db id = .ok db') :
    db' = { db with buckets :=
      (db.buckets.map (fun z => if z.id = id then pre_processed N db op z else z)) } := by
  have hid : ∀ (d : database), d = { d with buckets :=
      (d.buckets.map (fun z => if z.id = id then z else z)) } := by
    intro d
    have : (fun z : bucket_object => if z.id = id then z else z) = fun z => z := by
      funext z; split <;> rfl
    rw [this, List.map_id']
  unfold pre_operation_bucket at h
  cases op
  case delete_comment_operation author permlink =>
    simp only at h
    split at h
    · exact absurd h (by simp)
    rename_i comment hc
    split at h
    · exact absurd h (by simp)
    rename_i bucket hb
    obtain ⟨_, hbid⟩ := get_ok_mem hb
    simp only [Except.ok.injEq] at h
    rw [← h, hbid]
    unfold database.modify pre_processed
    simp only [hc]
  case withdraw_vesting_operation account_name vesting_shares =>
    simp only at h
    split at h
    · exact absurd h (by simp)
    rename_i account ha
    split at h
    · exact absurd h (by simp)
    rename_i bucket hb
    obtain ⟨_, hbid⟩ := get_ok_mem hb
    split at h
    · exact absurd h (by simp)
    simp only [Except.ok.injEq] at h
    rw [← h, hbid]
    unfold database.modify pre_processed
    simp only [ha]
  all_goals
    simp only [Except.ok.injEq] at h
    rw [← h]
    exact hid db

/-- What a returning loop of `pre_operation` did: every active bucket got the
update of the pre-pass, every other bucket is as before. -/
theorem pre_operation_loop_inv {N : Int} {op : operation} :
    ∀ (ids : List Nat) (db db' : database), ids.Nodup →
      pre_operation_loop N op ids db = .ok db' →
      db' = { db with buckets :=
          (db.buckets.map (fun z => if z.id ∈ ids then pre_processed N db op z else z)) }
  | [], db, db', _, h => by
    simp only [pre_operation_loop, Except.ok.injEq] at h
    subst h
    simp
  | id :: ids, db, db', hnd, h => by
    rw [pre_operation_loop] at h
    split at h
    · exact absurd h (by simp)
    · rename_i db1 h1
      have hdb1 := pre_operation_bucket_inv h1
      have hnd' := List.nodup_cons.mp hnd
      have hdb' := pre_operation_loop_inv ids db1 db' hnd'.2 h
      rw [hdb', hdb1]
      simp only [List.map_map, pre_processed_buckets]
      congr 1
      apply List.map_congr_left
      intro z _
      simp only [Function.comp]
      by_cases hzid : z.id = id
      · have h1 : (pre_processed N db op z).id ∉ ids := by
          rw [pre_processed_id, hzid]; exact hnd'.1
        have h2 : z.id ∈ id :: ids := by rw [hzid]; exact List.mem_cons_self _ _
        rw [if_pos hzid, if_neg h1, if_pos h2]
      · have h2 : z.id ∈ id :: ids ↔ z.id ∈ ids := by
          rw [List.mem_cons]; exact or_iff_right hzid
        simp only [if_neg hzid, h2]

theorem counters_le_found (n s id : Nat) (z : bucket_object) :
    counters_le z (if z.id = id then add_block_stats n s (count_block z) else z) := by
  by_cases h : z.id = id <;> simp [h, counters_le, add_block_stats, count_block]

theorem counters_le_created (n s id : Nat) (z : bucket_object) :
    counters_le z (if z.id = id then add_block_stats n s z else z) := by
  by_cases h : z.id = id <;> simp [h, counters_le, add_block_stats]

theorem counters_le_count (id : Nat) (z : bucket_object) :
    counters_le z (if z.id = id then count_block z else z) := by
  by_cases h : z.id = id <;> simp [h, counters_le, count_block]

theorem grows_refl (db : database) : grows db db :=
  ⟨le_refl _, fun y hy => Or.inl ⟨y, hy, rfl, counters_le_refl y⟩⟩

theorem grows_trans {a b c : database} (hab : grows a b) (hbc : grows b c) : grows a c := by
  refine ⟨le_trans hab.1 hbc.1, fun y hy => ?_⟩
  rcases hbc.2 y hy with ⟨x, hx, hxid, hxy⟩ | h1
  · rcases hab.2 x hx with ⟨w, hw, hwid, hwx⟩ | h2
    · exact Or.inl ⟨w, hw, hwid.trans hxid, counters_le_trans hwx hxy⟩
    · exact Or.inr (by omega)
  · exact Or.inr (le_trans hab.1 h1)

theorem grows_on_block_bucket {m n s r : Nat} {st st' : database × List Nat}
    (hu : unique_ids st.1) (h : on_block_bucket m n s st r = .ok st') :
    grows st.1 st'.1 := by
  obtain ⟨_, hcase⟩ := on_block_bucket_inv hu h
  rcases hcase with ⟨x, _, _, _, hst⟩ | ⟨_, _, _, cut, _, _, y, _, _, _, _, hst⟩
  · subst hst
    refine ⟨le_refl _, fun z hz => ?_⟩
    obtain ⟨w, hw, hwz⟩ := List.mem_map.mp hz
    have hk := keeps_key_found n s x.id w
    rw [← hwz]
    exact Or.inl ⟨w, hw, hk.1.symm, counters_le_found n s x.id w⟩
  · subst hst
    refine ⟨Nat.le_succ _, fun z hz => ?_⟩
    obtain ⟨w, hw, hwz⟩ := List.mem_map.mp hz
    have hk := keeps_key_created n s y.id w
    rw [← hwz]
    rcases List.mem_append.mp (List.mem_filter.mp hw).1 with h1 | h1
    · exact Or.inl ⟨w, h1, hk.1.symm, counters_le_created n s y.id w⟩
    · rw [List.mem_singleton] at h1
      right
      rw [hk.1, h1]
      exact le_refl _

theorem grows_on_block_loop {m n s : Nat} :
    ∀ {rs : List Nat} {st st' : database × List Nat}, unique_ids st.1 →
      on_block_loop m n s rs st = .ok st' → grows st.1 st'.1
  | [], st, st', _, h => by
    simp only [on_block_loop, Except.ok.injEq] at h
    subst h
    exact grows_refl _
  | r :: rs, st, st', hu, h => by
    rw [on_block_loop] at h
    split at h
    · exact absurd h (by simp)
    rename_i st1 h1
    obtain ⟨_, hu1, _, _⟩ := on_block_bucket_frame hu h1
    exact grows_trans (grows_on_block_bucket hu h1) (grows_on_block_loop hu1 h)

theorem grows_on_block_all_time {db db0 : database} {b : signed_block}
    (h : on_block_all_time db b = .ok db0) : grows db db0 := by
  rcases on_block_all_time_inv h with ⟨_, _, _, hdb0⟩ | ⟨_, _, hdb0⟩
  · subst hdb0
    refine ⟨Nat.le_succ _, fun z hz => ?_⟩
    rcases List.mem_append.mp hz with h1 | h1
    · exact Or.inl ⟨z, h1, rfl, counters_le_refl z⟩
    · rw [List.mem_singleton] at h1
      right
      rw [h1]
      exact le_refl _
  · subst hdb0
    refine ⟨le_refl _, fun z hz => ?_⟩
    obtain ⟨w, hw, hwz⟩ := List.mem_map.mp hz
    have hk := keeps_key_count 0 w
    rw [← hwz]
    exact Or.inl ⟨w, hw, hk.1.symm, counters_le_count 0 w⟩

/-- A returning `on_block` lowers no counter of a bucket it keeps. -/
theorem on_block_counters {p p' : plugin_impl} {b : signed_block}
    (hu : unique_ids p.database_) (hids : ids_below p.database_)
    (h : on_block p b = .ok p') :
    ∀ x ∈ p.database_.buckets, ∀ y ∈ p'.database_.buckets, y.id = x.id →
      counters_le x y := by
  obtain ⟨db0, st', h0, h1, hp'⟩ := on_block_inv h
  obtain ⟨hu0, _, _⟩ := on_block_all_time_frame hu h0
  have hc := grows_trans (grows_on_block_all_time h0)
    (@grows_on_block_loop _ _ _ _ (db0, [0]) _ hu0 h1)
  subst hp'
  intro x hx y hy hyx
  rcases hc.2 y hy with ⟨w, hw, hwid, hwy⟩ | h2
  · have := eq_of_id_eq hu hw hx (hwid.trans hyx)
    subst this
    exact hwy
  · have := hids x hx
    omega

/-- A returning `pre_operation` lowers no counter. -/
theorem pre_operation_counters {N : Int} {p p' : plugin_impl} {o : operation_notification}
    (hu : unique_ids p.database_) (hnd : p._current_buckets.Nodup)
    (h : pre_operation N p o = .ok p') :
    ∀ x ∈ p.database_.buckets, ∀ y ∈ p'.database_.buckets, y.id = x.id →
      counters_le x y := by
  unfold pre_operation at h
  split at h
  · exact absurd h (by simp)
  rename_i db' hl
  simp only [Except.ok.injEq] at h
  have hdb' := pre_operation_loop_inv _ _ _ hnd hl
  subst h
  subst hdb'
  intro x hx y hy hyx
  obtain ⟨w, hw, hwy⟩ := List.mem_map.mp hy
  have hwid : y.id = w.id := by
    rw [← hwy]
    split
    · exact pre_processed_id _ _ _ _
    · rfl
  have := eq_of_id_eq hu hw hx (hwid.symm.trans hyx)
  subst this
  rw [← hwy]
  split
  · exact pre_processed_counters _ _ _ _
  · exact counters_le_refl _

/-- A returning `post_operation` for an operation with non-negative amounts
lowers no counter, when no hash-power estimate can wrap and the shift of
the proof-of-work handler has fewer than 31 bits. -/
theorem post_operation_counters {v : operation → Bool} {p p' : plugin_impl}
    {o : operation_notification} (hu : unique_ids p.database_)
    (hnd : p._current_buckets.Nodup) (ha : amounts_nonneg o.op)
    (hf : ∀ x ∈ p.database_.buckets, hashpower_fits x)
    (hbits : ∀ w, o.op = .pow_operation w → p.database_.num_pow_witnesses / 4 + 4 < 31)
    (h : post_operation v p o = .ok p') :
    ∀ x ∈ p.database_.buckets, ∀ y ∈ p'.database_.buckets, y.id = x.id →
      counters_le x y := by
  obtain ⟨g, hp', hg⟩ := post_operation_step hu hnd h
  subst hp'
  intro x hx y hy hyx
  obtain ⟨w, hw, hwy⟩ := List.mem_map.mp hy
  have hgw : (g w).id = w.id ∧ counters_le w (g w) := by
    by_cases hwa : w.id ∈ p._current_buckets
    · have hy' := (hg w hw).1 hwa
      refine ⟨by rw [(operation_process_keeps hy').1, count_operation_id], ?_⟩
      have hf' : hashpower_fits (count_operation (v o.op) w) := by
        cases (v o.op) <;> exact hf w hw
      exact counters_le_trans (counters_le_count_operation _ w)
        (operation_process_counters ha hf' hbits hy')
    · rw [(hg w hw).2 hwa]
      exact ⟨rfl, counters_le_refl w⟩
  rw [← hwy] at hyx ⊢
  have := eq_of_id_eq hu hw hx (hgw.1.symm.trans hyx)
  subst this
  exact hgw.2

theorem forall2_comp {R S T : bucket_object → bucket_object → Prop}
    (hT : ∀ x y z, R x y → S y z → T x z) :
    ∀ {l1 l2 l3 : List bucket_object}, List.Forall₂ R l1 l2 → List.Forall₂ S l2 l3 →
      List.Forall₂ T l1 l3
  | [], _, _, h1, h2 => by
    cases h1
    cases h2
    exact List.Forall₂.nil
  | a :: l1, _, _, h1, h2 => by
    cases h1 with
    | cons hab hl =>
      cases h2 with
      | cons hbc hl2 =>
        exact List.Forall₂.cons (hT _ _ _ hab hbc) (forall2_comp hT hl hl2)

theorem pre_lookups_found_buckets (N : Int) (db : database) (bs : List bucket_object)
    (op : operation) :
    pre_lookups_found N { db with buckets := bs } op ↔ pre_lookups_found N db op := by
  cases op <;> exact Iff.rfl

theorem get_of_exists {db : database} {id : Nat} (h : ∃ x ∈ db.buckets, x.id = id) :
    ∃ x, db.get id = .ok x ∧ x.id = id := by
  unfold database.get
  obtain ⟨x, hx, hxid⟩ := h
  cases hf : db.buckets.find? (fun z => decide (z.id = id)) with
  | none =>
    rw [List.find?_eq_none] at hf
    exact absurd (by simpa using hxid) (hf x hx)
  | some y =>
    exact ⟨y, rfl, by simpa using List.find?_some hf⟩

/-- The body of the loop of `pre_operation` returns for an active bucket that
is in the store when the lookups of the operation succeed, and applies the
update of the pre-pass to that bucket. -/
theorem pre_operation_bucket_eq {N : Int} {op : operation} {db : database} {id : Nat}
    (hid : ∃ x ∈ db.buckets, x.id = id) (hok : pre_lookups_found N db op) :
    pre_operation_bucket N op db id =
      .ok { db with buckets :=
        (db.buckets.map (fun z => if z.id = id then pre_processed N db op z else z)) } := by
  obtain ⟨x, hx, hxid⟩ := get_of_exists hid
  have hsame : ∀ (d : database), d = { d with buckets :=
      (d.buckets.map (fun z => if z.id = id then z else z)) } := by
    intro d
    have : (fun z : bucket_object => if z.id = id then z else z) = fun z => z := by
      funext z; split <;> rfl
    rw [this, List.map_id']
  unfold pre_operation_bucket
  cases op
  case delete_comment_operation author permlink =>
    obtain ⟨comment, hc⟩ := hok
    simp only [hc, hx, hxid]
    unfold database.modify pre_processed
    simp only [hc]
  case withdraw_vesting_operation account_name vesting_shares =>
    obtain ⟨⟨account, ha⟩, hN⟩ := hok
    simp only [ha, hx, hxid, if_neg hN]
    unfold database.modify pre_processed
    simp only [ha]
  all_goals
    simp only [pre_processed]
    exact congrArg Except.ok (hsame db)

/-- The loop of `pre_operation` returns when the active buckets are in the
store and the lookups of the operation succeed, and applies the update of the
pre-pass to every active bucket. -/
theorem pre_operation_loop_eq {N : Int} {op : operation} :
    ∀ (ids : List Nat) (db : database), ids.Nodup →
      (∀ id ∈ ids, ∃ x ∈ db.buckets, x.id = id) → pre_lookups_found N db op →
      pre_operation_loop N op ids db =
        .ok { db with buckets :=
          (db.buckets.map (fun z => if z.id ∈ ids then pre_processed N db op z else z)) }
  | [], db, _, _, _ => by
    simp [pre_operation_loop]
  | id :: ids, db, hnd, hact, hok => by
    rw [pre_operation_loop, pre_operation_bucket_eq (hact id (List.mem_cons_self _ _)) hok]
    simp only
    have hnd' := List.nodup_cons.mp hnd
    have hact1 : ∀ i ∈ ids, ∃ x ∈ ({ db with buckets :=
        (db.buckets.map (fun z => if z.id = id then pre_processed N db op z else z)) } :
          database).buckets, x.id = i := by
      intro i hi
      obtain ⟨x, hx, hxi⟩ := hact i (List.mem_cons_of_mem _ hi)
      refine ⟨_, List.mem_map.mpr ⟨x, hx, rfl⟩, ?_⟩
      split
      · rw [pre_processed_id]; exact hxi
      · exact hxi
    rw [pre_operation_loop_eq ids _ hnd'.2 hact1 ((pre_lookups_found_buckets N db _ op).mpr hok)]
    simp only [List.map_map, pre_processed_buckets]
    congr 2
    apply List.map_congr_left
    intro z _
    simp only [Function.comp]
    by_cases hzid : z.id = id
    · have h1 : (pre_processed N db op z).id ∉ ids := by
        rw [pre_processed_id, hzid]; exact hnd'.1
      have h2 : z.id ∈ id :: ids := by rw [hzid]; exact List.mem_cons_self _ _
      rw [if_pos hzid, if_neg h1, if_pos h2]
    · have h2 : z.id ∈ id :: ids ↔ z.id ∈ ids := by
        rw [List.mem_cons]; exact or_iff_right hzid
      simp only [if_neg hzid, h2]

theorem operation_process_pow_bits {db : database} {w : String} {b b' : bucket_object}
    (h : operation_process db (.pow_operation w) b = .ok b') :
    db.num_pow_witnesses / 4 + 4 < 32 := by
  obtain ⟨_, _, hbits, _⟩ := operation_process_pow_inv h
  exact hbits

theorem delta_t_count_operation (db : database) (v : Bool) (x : bucket_object) :
    delta_t db (count_operation v x) = delta_t db x := by
  cases v <;> rfl

theorem keeps_operations_refl (db : database) : keeps_operations db db :=
  ⟨le_refl _, fun y hy => Or.inl ⟨y, hy, rfl, rfl⟩⟩

theorem keeps_operations_trans {a b c : database} (hab : keeps_operations a b)
    (hbc : keeps_operations b c) : keeps_operations a c := by
  refine ⟨le_trans hab.1 hbc.1, fun y hy => ?_⟩
  rcases hbc.2 y hy with ⟨x, hx, hxid, hxy⟩ | ⟨h1, h0⟩
  · rcases hab.2 x hx with ⟨w, hw, hwid, hwx⟩ | ⟨h2, h0⟩
    · exact Or.inl ⟨w, hw, hwid.trans hxid, hxy.trans hwx⟩
    · exact Or.inr ⟨by omega, hxy.trans h0⟩
  · exact Or.inr ⟨le_trans hab.1 h1, h0⟩

theorem keeps_operations_on_block_bucket {m n s r : Nat} {st st' : database × List Nat}
    (hu : unique_ids st.1) (h : on_block_bucket m n s st r = .ok st') :
    keeps_operations st.1 st'.1 := by
  obtain ⟨_, hcase⟩ := on_block_bucket_inv hu h
  rcases hcase with ⟨x, _, _, _, hst⟩ | ⟨_, _, _, cut, _, _, y, _, _, _, _, hst⟩
  · subst hst
    refine ⟨le_refl _, fun z hz => ?_⟩
    obtain ⟨w, hw, hwz⟩ := List.mem_map.mp hz
    have hk := keeps_key_found n s x.id w
    rw [← hwz]
    refine Or.inl ⟨w, hw, hk.1.symm, ?_⟩
    split <;> rfl
  · subst hst
    refine ⟨Nat.le_succ _, fun z hz => ?_⟩
    obtain ⟨w, hw, hwz⟩ := List.mem_map.mp hz
    have hk := keeps_key_created n s y.id w
    have hops : (if w.id = y.id then add_block_stats n s w else w).operations =
        w.operations := by
      split <;> rfl
    rw [← hwz]
    rcases List.mem_append.mp (List.mem_filter.mp hw).1 with h1 | h1
    · exact Or.inl ⟨w, h1, hk.1.symm, hops⟩
    · rw [List.mem_singleton] at h1
      right
      rw [hk.1, hops, h1]
      exact ⟨le_refl _, rfl⟩

theorem keeps_operations_on_block_loop {m n s : Nat} :
    ∀ {rs : List Nat} {st st' : database × List Nat}, unique_ids st.1 →
      on_block_loop m n s rs st = .ok st' → keeps_operations st.1 st'.1
  | [], st, st', _, h => by
    simp only [on_block_loop, Except.ok.injEq] at h
    subst h
    exact keeps_operations_refl _
  | r :: rs, st, st', hu, h => by
    rw [on_block_loop] at h
    split at h
    · exact absurd h (by simp)
    rename_i st1 h1
    obtain ⟨_, hu1, _, _⟩ := on_block_bucket_frame hu h1
    exact keeps_operations_trans (keeps_operations_on_block_bucket hu h1)
      (keeps_operations_on_block_loop hu1 h)

theorem keeps_operations_on_block_all_time {db db0 : database} {b : signed_block}
    (h : on_block_all_time db b = .ok db0) : keeps_operations db db0 := by
  rcases on_block_all_time_inv h with ⟨_, _, _, hdb0⟩ | ⟨_, _, hdb0⟩
  · subst hdb0
    refine ⟨Nat.le_succ _, fun z hz => ?_⟩
    rcases List.mem_append.mp hz with h1 | h1
    · exact Or.inl ⟨z, h1, rfl, rfl⟩
    · rw [List.mem_singleton] at h1
      right
      rw [h1]
      exact ⟨le_refl _, rfl⟩
  · subst hdb0
    refine ⟨le_refl _, fun z hz => ?_⟩
    obtain ⟨w, hw, hwz⟩ := List.mem_map.mp hz
    have hk := keeps_key_count 0 w
    rw [← hwz]
    refine Or.inl ⟨w, hw, hk.1.symm, ?_⟩
    split <;> rfl

/-- A returning `on_block` counts no operation: a bucket it keeps has the
`operations` it had, a bucket it creates has none. -/
theorem on_block_keeps_operations {p p' : plugin_impl} {b : signed_block}
    (hu : unique_ids p.database_) (h : on_block p b = .ok p') :
    keeps_operations p.database_ p'.database_ := by
  obtain ⟨db0, st', h0, h1, hp'⟩ := on_block_inv h
  obtain ⟨hu0, _, _⟩ := on_block_all_time_frame hu h0
  have hc := keeps_operations_trans (keeps_operations_on_block_all_time h0)
    (@keeps_operations_on_block_loop _ _ _ _ (db0, [0]) _ hu0 h1)
  subst hp'
  exact hc

theorem pre_processed_operations (N : Int) (db : database) (op : operation)
    (z : bucket_object) : (pre_processed N db op z).operations = z.operations := by
  unfold pre_processed
  cases op <;> simp only <;> (repeat' split) <;> rfl

/-- A returning `pre_operation` counts no operation. -/
theorem pre_operation_keeps_operations {N : Int} {p p' : plugin_impl}
    {o : operation_notification} (hnd : p._current_buckets.Nodup)
    (h : pre_operation N p o = .ok p') :
    p'._current_buckets = p._current_buckets ∧
    List.Forall₂ (fun x y => y.id = x.id ∧ y.operations = x.operations)
      p.database_.buckets p'.database_.buckets := by
  unfold pre_operation at h
  split at h
  · exact absurd h (by simp)
  rename_i db' hl
  simp only [Except.ok.injEq] at h
  have hdb' := pre_operation_loop_inv _ _ _ hnd hl
  subst h
  subst hdb'
  refine ⟨rfl, forall2_map_of_forall ?_⟩
  intro x _
  split
  · exact ⟨pre_processed_id _ _ _ _, pre_processed_operations _ _ _ _⟩
  · exact ⟨rfl, rfl⟩

theorem operation_process_pow_delta_t {db : database} {w : String} {b b' : bucket_object}
    (h : operation_process db (.pow_operation w) b = .ok b') : delta_t db b ≠ 0 := by
  obtain ⟨_, _, _, hd, _⟩ := operation_process_pow_inv h
  exact hd

/-- The time span of a bucket of resolution 0 opened at the head block time
is zero. -/
theorem delta_t_opened_now {db : database} {x : bucket_object} (hs : x.seconds = 0)
    (ho : x.open_ = db.head_block_time) : delta_t db x = 0 := by
  unfold delta_t
  rw [if_pos hs, ho]
  unfold UINT32_MAX
  omega

theorem delta_t_tracked {db : database} {x : bucket_object} (hs : x.seconds ≠ 0) :
    delta_t db x = x.seconds := by
  unfold delta_t
  rw [if_neg hs]

theorem delta_t_elapsed {db : database} {x : bucket_object} (hs : x.seconds = 0)
    (ho : x.open_ < db.head_block_time) (ht : db.head_block_time ≤ UINT32_MAX) :
    delta_t db x = db.head_block_time - x.open_ := by
  unfold delta_t
  rw [if_pos hs]
  unfold UINT32_MAX at *
  omega

/-- The body of the loop of `post_operation` for an active bucket `x` that is
in the store: the outcome of the handler on `x` after the operation count,
put in the place of `x`. -/
theorem post_operation_bucket_run {v : Bool} {op : operation} {db : database}
    {x : bucket_object} (hu : unique_ids db) (hx : x ∈ db.buckets) :
    post_operation_bucket v op db x.id =
      match operation_process db op (count_operation v x) with
      | .error e => .error e
      | .ok y =>
        .ok { db with buckets := (db.buckets.map (fun z => if z.id = x.id then y else z)) } := by
  unfold post_operation_bucket
  rw [get_of_mem hu hx]
  simp only
  rw [count_modify]
  have hu1 : unique_ids
      { db with buckets :=
        (db.buckets.map (fun z => if z.id = x.id then count_operation v z else z)) } := by
    unfold unique_ids
    simp only
    rw [map_id_map_of_id_eq]
    · exact hu
    · intro z; split
      · exact count_operation_id v z
      · rfl
  have hx1 : count_operation v x ∈
      ({ db with buckets :=
        (db.buckets.map (fun z => if z.id = x.id then count_operation v z else z)) } :
          database).buckets :=
    List.mem_map.mpr ⟨x, hx, by simp⟩
  have hg := get_of_mem hu1 hx1
  rw [count_operation_id] at hg
  rw [hg]
  simp only
  rw [operation_process_buckets]
  cases operation_process db op (count_operation v x) with
  | error e => rfl
  | ok y =>
    simp only [database.modify, List.map_map]
    congr 2
    apply List.map_congr_left
    intro z _
    by_cases hz : z.id = x.id
    · simp [hz, count_operation_id]
    · simp [hz]

/-- The loop of `post_operation` over an active set whose members are in the
store and on which the handler returns: it returns, and every active bucket
has become what the post-pass makes of it. -/
theorem post_operation_loop_forward {v : Bool} {op : operation} :
    ∀ (ids : List Nat) (db : database), unique_ids db → ids.Nodup →
      (∀ id ∈ ids, ∃ x ∈ db.buckets, x.id = id ∧
        ∃ y, operation_process db op (count_operation v x) = .ok y) →
      post_operation_loop v op ids db =
        .ok { db with buckets :=
          (db.buckets.map (fun z => if z.id ∈ ids then processed db v op z else z)) }
  | [], db, _, _, _ => by
    simp only [post_operation_loop, List.not_mem_nil, ite_false, List.map_id']
  | id :: ids, db, hu, hnd, hact => by
    obtain ⟨x, hx, hxid, y, hy⟩ := hact id (List.mem_cons_self _ _)
    subst hxid
    rw [post_operation_loop, post_operation_bucket_run hu hx, hy]
    simp only
    have hnd' := List.nodup_cons.mp hnd
    have hyid : y.id = x.id := by
      rw [(operation_process_keeps hy).1, count_operation_id]
    have hkeep : ∀ z : bucket_object, (if z.id = x.id then y else z).id = z.id := by
      intro z; split
      · rename_i hz; rw [hyid, hz]
      · rfl
    have hu1 : unique_ids
        { db with buckets := (db.buckets.map (fun z => if z.id = x.id then y else z)) } := by
      unfold unique_ids
      simp only
      rw [map_id_map_of_id_eq hkeep]; exact hu
    have hact1 : ∀ i ∈ ids, ∃ x1 ∈ ({ db with buckets :=
          (db.buckets.map (fun z => if z.id = x.id then y else z)) } : database).buckets,
        x1.id = i ∧ ∃ y1, operation_process { db with buckets :=
          (db.buckets.map (fun z => if z.id = x.id then y else z)) } op
            (count_operation v x1) = .ok y1 := by
      intro i hi
      obtain ⟨x1, hx1, hx1i, y1, hy1⟩ := hact i (List.mem_cons_of_mem _ hi)
      have hne : x1.id ≠ x.id := by
        intro he
        exact hnd'.1 (he ▸ hx1i ▸ hi)
      refine ⟨x1, List.mem_map.mpr ⟨x1, hx1, if_neg hne⟩, hx1i, y1, ?_⟩
      rw [operation_process_buckets]
      exact hy1
    rw [post_operation_loop_forward ids _ hu1 hnd'.2 hact1]
    simp only [List.map_map, processed_buckets]
    congr 2
    apply List.map_congr_left
    intro z hz
    simp only [Function.comp]
    by_cases hzid : z.id = x.id
    · have hzx : z = x := eq_of_id_eq hu hz hx hzid
      have h1 : y.id ∉ ids := by rw [hyid]; exact hnd'.1
      have h2 : z.id ∈ x.id :: ids := by rw [hzid]; exact List.mem_cons_self _ _
      rw [if_pos hzid, if_neg h1, if_pos h2, hzx, processed_of_ok hy]
    · have h2 : z.id ∈ x.id :: ids ↔ z.id ∈ ids := by
        rw [List.mem_cons]; exact or_iff_right hzid
      simp only [if_neg hzid, h2]

/-- The post-pass on an active set whose members are in the store and on
which the handler of the operation returns: the call returns, and every
active bucket has become what the post-pass makes of it. -/
theorem post_operation_forward {v : operation → Bool} {p : plugin_impl}
    {o : operation_notification} (hu : unique_ids p.database_)
    (hnd : p._current_buckets.Nodup)
    (hact : ∀ id ∈ p._current_buckets, ∃ x ∈ p.database_.buckets, x.id = id ∧
      ∃ y, operation_process p.database_ o.op (count_operation (v o.op) x) = .ok y) :
    post_operation v p o =
      .ok { p with database_ := { p.database_ with buckets :=
        (p.database_.buckets.map (fun z =>
          if z.id ∈ p._current_buckets then processed p.database_ (v o.op) o.op z else z)) } } := by
  unfold post_operation
  rw [post_operation_loop_forward _ _ hu hnd hact]

/-- The loop of `post_operation` faults when the handler faults on the first
active bucket. -/
theorem post_operation_loop_fault {v : Bool} {op : operation} {db : database} {id : Nat}
    {ids : List Nat} {x : bucket_object} {e : fault} (hu : unique_ids db)
    (hx : x ∈ db.buckets) (hxid : x.id = id)
    (he : operation_process db op (count_operation v x) = .error e) :
    post_operation_loop v op (id :: ids) db = .error e := by
  subst hxid
  rw [post_operation_loop, post_operation_bucket_run hu hx, he]

/-- The post-pass for a proof of work whose worker account is found, on
active buckets that are in the store and have a time span other than zero,
with a shift of fewer than 32 bits: the call returns, and every active
bucket has the operation counted and the three counters of the row
updated. -/
theorem post_operation_pow_returns {v : operation → Bool} {p : plugin_impl} {w : String}
    {worker : account_object}
    (hu : unique_ids p.database_) (hnd : p._current_buckets.Nodup)
    (hact : ∀ id ∈ p._current_buckets, ∃ x ∈ p.database_.buckets, x.id = id)
    (hw : p.database_.get_account w = .ok worker)
    (hbits : p.database_.num_pow_witnesses / 4 + 4 < 32)
    (hdt : ∀ x ∈ p.database_.buckets, x.id ∈ p._current_buckets →
      delta_t p.database_ x ≠ 0) :
    post_operation v p { op := .pow_operation w } =
      .ok { p with database_ := { p.database_ with buckets :=
        (p.database_.buckets.map (fun z =>
          if z.id ∈ p._current_buckets then
            { z with
              operations := z.operations + (if v (.pow_operation w) then 0 else 1),
              mined_accounts_created := z.mined_accounts_created +
                (if worker.created = p.database_.head_block_time then 1 else 0),
              total_pow := z.total_pow + 1,
              estimated_hashpower :=
                ((z.estimated_hashpower * delta_t p.database_ z +
                  estimated_hashes p.database_) % 2 ^ 128) / delta_t p.database_ z }
          else z)) } } := by
  have hret : ∀ id ∈ p._current_buckets, ∃ x ∈ p.database_.buckets, x.id = id ∧
      ∃ y, operation_process p.database_ (.pow_operation w)
        (count_operation (v (.pow_operation w)) x) = .ok y := by
    intro id hid
    obtain ⟨x, hx, hxid⟩ := hact id hid
    refine ⟨x, hx, hxid, _, operation_process_pow_eq _ hw hbits ?_⟩
    rw [delta_t_count_operation]
    exact hdt x hx (hxid ▸ hid)
  rw [@post_operation_forward v p { op := .pow_operation w } hu hnd hret]
  simp only [Except.ok.injEq]
  congr 2
  apply List.map_congr_left
  intro z hz
  by_cases hza : z.id ∈ p._current_buckets
  · rw [if_pos hza, if_pos hza]
    have hd : delta_t p.database_ (count_operation (v (.pow_operation w)) z) ≠ 0 := by
      rw [delta_t_count_operation]
      exact hdt z hz hza
    rw [processed_of_ok (operation_process_pow_eq _ hw hbits hd), delta_t_count_operation]
    cases (v (.pow_operation w)) <;> rfl
  · rw [if_neg hza, if_neg hza]

/-- The handler of `op` returns on `b` exactly when its lookups succeed. -/
theorem operation_process_returns_iff (db : database) (op : operation) (b : bucket_object) :
    (∃ y, operation_process db op b = .ok y) ↔ post_lookups_found db op b = true := by
  cases op
  case pow_operation w =>
    unfold post_lookups_found
    simp only
    cases hw : db.get_account w with
    | error e =>
      simp only [Bool.false_eq_true, iff_false]
      rintro ⟨y, hy⟩
      obtain ⟨worker, hw', _⟩ := operation_process_pow_inv hy
      rw [hw] at hw'
      exact absurd hw' (by simp)
    | ok worker =>
      simp only [Bool.and_eq_true, decide_eq_true_eq]
      constructor
      · rintro ⟨y, hy⟩
        obtain ⟨_, _, hbits, hd, _⟩ := operation_process_pow_inv hy
        exact ⟨hbits, hd⟩
      · rintro ⟨hbits, hd⟩
        exact ⟨_, operation_process_pow_eq b hw hbits hd⟩
  case vote_operation voter author permlink =>
    unfold post_lookups_found operation_process
    simp only
    cases db.get_comment author permlink with
    | error e => simp
    | ok comment =>
      simp only
      cases db.get_account voter with
      | error e => simp
      | ok account =>
        simp only
        cases find_comment_vote db comment.id account.id with
        | none => simp
        | some itr =>
          simp only [Option.isSome_some, iff_true]
          (repeat' split) <;> exact ⟨_, rfl⟩
  case comment_operation author permlink =>
    unfold post_lookups_found operation_process
    simp only
    cases db.get_comment author permlink with
    | error e => simp
    | ok comment =>
      simp only [iff_true]
      (repeat' split) <;> exact ⟨_, rfl⟩
  case fill_vesting_withdraw_operation a withdrawn deposited =>
    unfold post_lookups_found operation_process
    simp only
    cases db.get_account a with
    | error e => simp
    | ok account =>
      simp only [iff_true]
      (repeat' split) <;> exact ⟨_, rfl⟩
  case transfer_operation amount =>
    unfold post_lookups_found operation_process
    simp only [iff_true]
    (repeat' split) <;> exact ⟨_, rfl⟩
  all_goals
    unfold post_lookups_found operation_process
    simp only [iff_true]
    exact ⟨_, rfl⟩

theorem post_lookups_found_buckets (db : database) (bs : List bucket_object) (op : operation)
    (b : bucket_object) :
    post_lookups_found { db with buckets := bs } op b = post_lookups_found db op b := by
  cases op <;> rfl

theorem post_lookups_found_congr (db : database) (op : operation) {b b' : bucket_object}
    (hs : b'.seconds = b.seconds) (ho : b'.open_ = b.open_) :
    post_lookups_found db op b' = post_lookups_found db op b := by
  cases op
  case pow_operation w =>
    unfold post_lookups_found delta_t
    simp only [hs, ho]
  all_goals rfl

theorem post_lookups_found_count (db : database) (op : operation) (v : Bool)
    (b : bucket_object) :
    post_lookups_found db op (count_operation v b) = post_lookups_found db op b := by
  cases v <;> rfl

theorem processed_keeps (db : database) (v : Bool) (op : operation) (z : bucket_object) :
    (processed db v op z).seconds = z.seconds ∧ (processed db v op z).open_ = z.open_ := by
  unfold processed
  split
  · rename_i y hy
    obtain ⟨_, hs, ho, _⟩ := operation_process_keeps hy
    rw [hs, ho]
    cases v <;> exact ⟨rfl, rfl⟩
  · exact ⟨rfl, rfl⟩

/-- The post-pass on active buckets that are in the store returns when the
lookups of the handler succeed. -/
theorem post_operation_returns {v : operation → Bool} {p : plugin_impl}
    {o : operation_notification} (hu : unique_ids p.database_)
    (hnd : p._current_buckets.Nodup)
    (hact : ∀ id ∈ p._current_buckets, ∃ x ∈ p.database_.buckets, x.id = id)
    (hfound : ∀ x ∈ p.database_.buckets, x.id ∈ p._current_buckets →
      post_lookups_found p.database_ o.op x = true) :
    post_operation v p o =
      .ok { p with database_ := { p.database_ with buckets :=
        (p.database_.buckets.map (fun z =>
          if z.id ∈ p._current_buckets then processed p.database_ (v o.op) o.op z else z)) } } := by
  apply post_operation_forward hu hnd
  intro id hid
  obtain ⟨x, hx, hxid⟩ := hact id hid
  refine ⟨x, hx, hxid, ?_⟩
  rw [operation_process_returns_iff, post_lookups_found_count]
  exact hfound x hx (hxid ▸ hid)

/-- The post-pass over a run of operations returns when, on every active
bucket, the lookups of the handler of every operation of the run succeed. -/
theorem post_operations_returns {v : operation → Bool} :
    ∀ (os : List operation_notification) (p : plugin_impl), unique_ids p.database_ →
      p._current_buckets.Nodup →
      (∀ id ∈ p._current_buckets, ∃ x ∈ p.database_.buckets, x.id = id) →
      (∀ o ∈ os, ∀ x ∈ p.database_.buckets, x.id ∈ p._current_buckets →
        post_lookups_found p.database_ o.op x = true) →
      ∃ p', post_operations v p os = .ok p'
  | [], p, _, _, _, _ => ⟨p, rfl⟩
  | o :: os, p, hu, hnd, hact, hfound => by
    have h1 := @post_operation_returns v p o hu hnd hact
      (hfound o (List.mem_cons_self _ _))
    rw [post_operations, h1]
    simp only
    obtain ⟨hu1, _, _⟩ := post_operation_unique_ids hu hnd h1
    apply post_operations_returns os _ hu1 hnd
    · intro id hid
      obtain ⟨x, hx, hxid⟩ := hact id hid
      refine ⟨_, List.mem_map.mpr ⟨x, hx, rfl⟩, ?_⟩
      split
      · rw [processed_id]; exact hxid
      · exact hxid
    · intro o' ho' x1 hx1 hx1a
      obtain ⟨z, hz, hzx1⟩ := List.mem_map.mp hx1
      simp only at hx1a ⊢
      rw [post_lookups_found_buckets]
      by_cases hza : z.id ∈ p._current_buckets
      · rw [if_pos hza] at hzx1
        subst hzx1
        obtain ⟨hs, ho⟩ := processed_keeps p.database_ (v o.op) o.op z
        rw [post_lookups_found_congr _ _ hs ho]
        exact hfound o' (List.mem_cons_of_mem _ ho') z hz hza
      · rw [if_neg hza] at hzx1
        subst hzx1
        exact hfound o' (List.mem_cons_of_mem _ ho') z hz hx1a

theorem on_block_loop_ids_below {m n s : Nat} :
    ∀ {rs : List Nat} {st st' : database × List Nat}, unique_ids st.1 → ids_below st.1 →
      on_block_loop m n s rs st = .ok st' → ids_below st'.1
  | [], st, st', _, hids, h => by
    simp only [on_block_loop, Except.ok.injEq] at h
    subst h
    exact hids
  | r :: rs, st, st', hu, hids, h => by
    rw [on_block_loop] at h
    split at h
    · exact absurd h (by simp)
    rename_i st1 h1
    obtain ⟨_, hu1, _, _⟩ := on_block_bucket_frame hu h1
    exact on_block_loop_ids_below hu1 (on_block_bucket_ids_below hu hids h1) h

/-- A returning `on_block` leaves every identity below the next one. -/
theorem on_block_ids_below {p p' : plugin_impl} {b : signed_block}
    (hu : unique_ids p.database_) (hids : ids_below p.database_)
    (h0 : all_time_returns p.database_ b) (h : on_block p b = .ok p') :
    ids_below p'.database_ := by
  obtain ⟨db0, st', hdb0, h1, hp'⟩ := on_block_inv h
  obtain ⟨db0', hdb0', hids0, _⟩ := on_block_all_time_returns hids h0
  rw [hdb0] at hdb0'
  simp only [Except.ok.injEq] at hdb0'
  subst hdb0'
  obtain ⟨hu0, _, _⟩ := on_block_all_time_frame hu hdb0
  subst hp'
  exact @on_block_loop_ids_below _ _ _ _ (db0, [0]) _ hu0 hids0 h1

/-- After a returning `on_block` the bucket with identity 0 is in the store
and has resolution 0. -/
theorem on_block_all_time_present {p p' : plugin_impl} {b : signed_block}
    (hu : unique_ids p.database_) (hready : all_time_ready p.database_ b)
    (h : on_block p b = .ok p') :
    ∃ x ∈ p'.database_.buckets, x.id = 0 ∧ x.seconds = 0 := by
  obtain ⟨_, db0, h0, hs⟩ := on_block_slice_zero hu h
  obtain ⟨x0, hx0, hx0id, hx0s⟩ := on_block_all_time_zero hready h0
  have : x0 ∈ slice p'.database_ 0 := by
    rw [hs]; exact mem_slice.mpr ⟨hx0, hx0s⟩
  exact ⟨x0, (mem_slice.mp this).1, hx0id, hx0s⟩

theorem on_block_keeps_settings {p p' : plugin_impl} {b : signed_block}
    (h : on_block p b = .ok p') :
    p'._tracked_buckets = p._tracked_buckets ∧
    p'._maximum_history_per_bucket_size = p._maximum_history_per_bucket_size := by
  obtain ⟨_, _, _, _, hp'⟩ := on_block_inv h
  subst hp'
  exact ⟨rfl, rfl⟩

/-- One retention step on a window of buckets: when a returning `on_block`
at time `k * r` meets a store whose buckets of resolution `r` are those
opened at `a * r, ..., (k - 1) * r`, the buckets of resolution `r` it leaves
are those opened at `max a (k - m) * r, ..., k * r`. -/
theorem on_block_window {p p' : plugin_impl} {b : signed_block} {r a k : Nat}
    (hu : unique_ids p.database_) (hnd : p._tracked_buckets.Nodup)
    (hready : all_time_ready p.database_ b) (hr : r ∈ p._tracked_buckets)
    (ht : p.database_.head_block_time = k * r) (hak : a ≤ k)
    (hstore : ∀ o, (∃ x ∈ p.database_.buckets, x.seconds = r ∧ x.open_ = o) ↔
      ∃ j, a ≤ j ∧ j < k ∧ o = j * r)
    (h : on_block p b = .ok p') :
    ∀ o, (∃ y ∈ p'.database_.buckets, y.seconds = r ∧ y.open_ = o) ↔
      ∃ j, max a (k - p._maximum_history_per_bucket_size) ≤ j ∧ j < k + 1 ∧ o = j * r := by
  obtain ⟨hr0, _⟩ := on_block_slice hu hnd hready hr h
  have hrpos : 0 < r := Nat.pos_of_ne_zero hr0
  have hopen : p.database_.head_block_time / r * r = k * r := by
    rw [ht, Nat.mul_div_cancel _ hrpos]
  have hnew : ∀ z ∈ p.database_.buckets,
      ¬ (z.seconds = r ∧ z.open_ = p.database_.head_block_time / r * r) := by
    rintro z hz ⟨hzr, hzo⟩
    obtain ⟨j, _, hj, hjo⟩ := (hstore z.open_).mp ⟨z, hz, hzr, rfl⟩
    rw [hopen, hjo] at hzo
    have := Nat.eq_of_mul_eq_mul_right hrpos hzo
    omega
  obtain ⟨hm, _, h2, hiff, hnewb, hold⟩ := on_block_retention hu hnd hready hr hnew h
  generalize p._maximum_history_per_bucket_size = m at *
  rw [ht] at h2 hiff
  rw [hopen] at hnewb hold
  have hmk : m ≤ k := by
    rw [Nat.mul_comm] at h2
    exact Nat.le_of_mul_le_mul_right h2 hrpos
  have hcut : k * r - r * m = (k - m) * r := by
    rw [Nat.sub_mul, Nat.mul_comm r m]
  rw [hcut] at hiff
  intro o
  constructor
  · rintro ⟨y, hy, hyr, hyo⟩
    rcases hold y hy hyr with h3 | ⟨x, hx, hxid, hxr, hxo⟩
    · exact ⟨k, by omega, by omega, by rw [← hyo, h3]⟩
    · obtain ⟨j, hja, hj, hjo⟩ := (hstore x.open_).mp ⟨x, hx, hxr, rfl⟩
      have hle := (hiff x hx hxr).mp ⟨y, hy, hxid.symm, hyr, hxo.symm⟩
      rw [hjo] at hle
      have := Nat.le_of_mul_le_mul_right hle hrpos
      exact ⟨j, by omega, by omega, by rw [← hyo, ← hxo, hjo]⟩
  · rintro ⟨j, hj1, hj2, hjo⟩
    rcases Nat.lt_or_ge j k with hlt | hge
    · obtain ⟨x, hx, hxr, hxo⟩ := (hstore o).mpr ⟨j, by omega, hlt, hjo⟩
      have hle : (k - m) * r ≤ x.open_ := by
        rw [hxo, hjo]; exact Nat.mul_le_mul_right r (by omega)
      obtain ⟨y, hy, _, hyr, hyo⟩ := (hiff x hx hxr).mpr hle
      exact ⟨y, hy, hyr, hyo.trans hxo⟩
    · have hjk : j = k := by omega
      subst hjk
      obtain ⟨y, hy, hyr, hyo⟩ := hnewb
      exact ⟨y, hy, hyr, by rw [hyo, hjo]⟩

/-- One block of a run on a window of buckets: the block at time `k * r`,
late enough for every retention cutoff to be computed, is applied without a
fault, and the window moves on; the store stays well formed. -/
theorem apply_block_window {q : plugin_impl} {b : signed_block} {r a k : Nat}
    (hu : unique_ids q.database_) (hids : ids_below q.database_)
    (hup : unique_pairs q.database_) (hnd : q._tracked_buckets.Nodup)
    (hr : r ∈ q._tracked_buckets) (hm : 0 < q._maximum_history_per_bucket_size)
    (hfit : ∀ r' ∈ q._tracked_buckets, r' ≠ 0 ∧
      r' * q._maximum_history_per_bucket_size ≤ UINT32_MAX ∧
      r' * q._maximum_history_per_bucket_size ≤ k * r)
    (hb : b.timestamp = k * r) (hak : a ≤ k)
    (hfirst : if b.block_num = 1 then q.database_.buckets = [] ∧ q.database_.next_id = 0
      else ∃ x ∈ q.database_.buckets, x.id = 0 ∧ x.seconds = 0)
    (hstore : ∀ o, (∃ x ∈ q.database_.buckets, x.seconds = r ∧ x.open_ = o) ↔
      ∃ j, a ≤ j ∧ j < k ∧ o = j * r) :
    ∃ q', apply_block q b = .ok q' ∧
      q'._tracked_buckets = q._tracked_buckets ∧
      q'._maximum_history_per_bucket_size = q._maximum_history_per_bucket_size ∧
      unique_ids q'.database_ ∧ ids_below q'.database_ ∧ unique_pairs q'.database_ ∧
      (∃ x ∈ q'.database_.buckets, x.id = 0 ∧ x.seconds = 0) ∧
      ∀ o, (∃ y ∈ q'.database_.buckets, y.seconds = r ∧ y.open_ = o) ↔
        ∃ j, max a (k - q._maximum_history_per_bucket_size) ≤ j ∧ j < k + 1 ∧ o = j * r := by
  have hret0 : all_time_returns
      { q.database_ with head_block_time := b.timestamp } b := by
    unfold all_time_returns
    by_cases hbn : b.block_num = 1
    · rw [if_pos hbn] at hfirst ⊢
      intro x hx
      rw [show ({ q.database_ with head_block_time := b.timestamp } : database).buckets =
        q.database_.buckets from rfl, hfirst.1] at hx
      exact absurd hx (List.not_mem_nil _)
    · rw [if_neg hbn] at hfirst ⊢
      obtain ⟨x, hx, hxid, _⟩ := hfirst
      exact ⟨x, hx, hxid⟩
  have hready : all_time_ready
      { q.database_ with head_block_time := b.timestamp } b := by
    unfold all_time_ready
    by_cases hbn : b.block_num = 1
    · rw [if_pos hbn] at hfirst ⊢
      exact hfirst.2
    · rw [if_neg hbn] at hfirst ⊢
      obtain ⟨x0, hx0, hx0id, hx0s⟩ := hfirst
      intro x hx hxid
      have : x = x0 := eq_of_id_eq hu hx hx0 (hxid.trans hx0id.symm)
      rw [this]; exact hx0s
  have hrs : ∀ r' ∈ q._tracked_buckets,
      round_returns { q.database_ with head_block_time := b.timestamp }
        q._maximum_history_per_bucket_size r' := by
    intro r' hr'
    obtain ⟨h1, h2, h3⟩ := hfit r' hr'
    exact ⟨h1, Or.inr ⟨hm, h2, by rw [hb]; exact h3⟩⟩
  obtain ⟨q', h⟩ := on_block_returns
    { q with database_ := { q.database_ with head_block_time := b.timestamp } } b
    hu hids hnd hret0 hrs
  obtain ⟨ht, hmax⟩ := on_block_keeps_settings h
  refine ⟨q', h, ht, hmax, (on_block_slice_zero (p := { q with database_ :=
      { q.database_ with head_block_time := b.timestamp } }) hu h).1,
    on_block_ids_below (p := { q with database_ :=
      { q.database_ with head_block_time := b.timestamp } }) hu hids hret0 h,
    unique_pairs_on_block (p := { q with database_ :=
      { q.database_ with head_block_time := b.timestamp } }) hup h,
    on_block_all_time_present (p := { q with database_ :=
      { q.database_ with head_block_time := b.timestamp } }) hu hready h, ?_⟩
  exact on_block_window (p := { q with database_ :=
      { q.database_ with head_block_time := b.timestamp } }) hu hnd hready hr hb hak hstore h

/-- A run of blocks on a window of buckets, after the first block of the
chain: the blocks at times `k * r, (k + 1) * r, ...` are applied without a
fault, and the buckets of resolution `r` left are those opened at the last
`m + 1` block times, or all of them when there are fewer. -/
theorem apply_blocks_window {r m : Nat} (hm : 0 < m) :
    ∀ (bs : List signed_block) (q : plugin_impl) (a k n : Nat),
      q._maximum_history_per_bucket_size = m →
      unique_ids q.database_ → ids_below q.database_ → unique_pairs q.database_ →
      q._tracked_buckets.Nodup → r ∈ q._tracked_buckets →
      (∀ r' ∈ q._tracked_buckets, r' ≠ 0 ∧ r' * m ≤ UINT32_MAX ∧ r' * m ≤ k * r) →
      (∃ x ∈ q.database_.buckets, x.id = 0 ∧ x.seconds = 0) →
      2 ≤ n → numbered_from n bs → spaced_from r k bs → a ≤ k → k ≤ a + m + 1 →
      (∀ o, (∃ x ∈ q.database_.buckets, x.seconds = r ∧ x.open_ = o) ↔
        ∃ j, a ≤ j ∧ j < k ∧ o = j * r) →
      ∃ p', apply_blocks q bs = .ok p' ∧ unique_pairs p'.database_ ∧
        ∀ o, (∃ y ∈ p'.database_.buckets, y.seconds = r ∧ y.open_ = o) ↔
          ∃ j, max a (k + bs.length - 1 - m) ≤ j ∧ j < k + bs.length ∧ o = j * r
  | [], q, a, k, n, _, _, _, hup, _, _, _, _, _, _, _, hak, hka, hstore => by
    refine ⟨q, rfl, hup, ?_⟩
    intro o
    rw [hstore o]
    simp only [List.length_nil, Nat.add_zero]
    have : max a (k - 1 - m) = a := by omega
    rw [this]
  | b :: bs, q, a, k, n, hmax, hu, hids, hup, hnd, hr, hfit, hzero, hn, hnum, hsp, hak, hka,
      hstore => by
    unfold numbered_from at hnum
    unfold spaced_from at hsp
    have hbn : b.block_num ≠ 1 := by omega
    obtain ⟨q1, h1, ht1, hmax1, hu1, hids1, hup1, hzero1, hstore1⟩ :=
      @apply_block_window q b r a k hu hids hup hnd hr (by rw [hmax]; exact hm)
        (by rw [hmax]; exact hfit) hsp.1 hak (by rw [if_neg hbn]; exact hzero) hstore
    rw [hmax] at hstore1
    have hfit1 : ∀ r' ∈ q1._tracked_buckets,
        r' ≠ 0 ∧ r' * m ≤ UINT32_MAX ∧ r' * m ≤ (k + 1) * r := by
      intro r' hr'
      obtain ⟨h2, h3, h4⟩ := hfit r' (ht1 ▸ hr')
      exact ⟨h2, h3, le_trans h4 (Nat.mul_le_mul_right r (Nat.le_succ k))⟩
    obtain ⟨p', hp', hup', hstore'⟩ := apply_blocks_window hm bs q1 (max a (k - m)) (k + 1)
      (n + 1) (hmax1.trans hmax) hu1 hids1 hup1 (ht1 ▸ hnd) (ht1 ▸ hr) hfit1 hzero1 (by omega)
      hnum.2 hsp.2 (by omega) (by omega) hstore1
    refine ⟨p', by rw [apply_blocks, h1]; exact hp', hup', ?_⟩
    intro o
    rw [hstore' o]
    simp only [List.length_cons]
    have h5 : max (max a (k - m)) (k + 1 + bs.length - 1 - m) =
        max a (k + (bs.length + 1) - 1 - m) := by omega
    have h6 : k + 1 + bs.length = k + (bs.length + 1) := by omega
    rw [h5, h6]


/-! ## The claims -/

/-- C1. For every tracked resolution `r` and head block time `t`, `on_block`
returns when its first statement and the round of every tracked resolution
do, and a returning `on_block` has put in the active set a bucket with
resolution `r` and open time `floor(t / r) * r`; `r` is positive, the open
time is a multiple of `r`, and `open ≤ t < open + r`. -/
theorem on_block_bucket_aligned (p : plugin_impl) (b : signed_block) (r : Nat)
    (hu : unique_ids p.database_) (hnd : p._tracked_buckets.Nodup)
    (hr : r ∈ p._tracked_buckets) :
    (ids_below p.database_ → all_time_returns p.database_ b →
      (∀ r' ∈ p._tracked_buckets,
        round_returns p.database_ p._maximum_history_per_bucket_size r') →
      ∃ p', on_block p b = .ok p') ∧
    ∀ p', on_block p b = .ok p' →
      0 < r ∧ ∃ x ∈ p'.database_.buckets, x.id ∈ p'._current_buckets ∧ x.seconds = r ∧
        x.open_ = p.database_.head_block_time / r * r ∧ r ∣ x.open_ ∧
        x.open_ ≤ p.database_.head_block_time ∧
        p.database_.head_block_time < x.open_ + r := by
  refine ⟨fun hids h0 hrs => on_block_returns p b hu hids hnd h0 hrs, ?_⟩
  intro p' h
  obtain ⟨db0, st', h0, h1, hp'⟩ := on_block_inv h
  obtain ⟨hu0, ht0, _⟩ := on_block_all_time_frame hu h0
  obtain ⟨hrs, _, _, _⟩ := @on_block_loop_frame _ _ _ _ (db0, [0]) _ hu0 h1
  obtain ⟨_, hall⟩ := @on_block_loop_resolves _ _ _ _ (db0, [0]) _ hu0 hnd h1
  have hrpos : 0 < r := Nat.pos_of_ne_zero (hrs r hr)
  obtain ⟨x, hx, hxc, hxr, hxo⟩ := hall r hr
  simp only at hxo
  rw [ht0] at hxo
  subst hp'
  refine ⟨hrpos, x, hx, hxc, hxr, hxo, ?_, ?_, ?_⟩
  · rw [hxo]; exact Dvd.intro_left _ rfl
  · rw [hxo]; exact Nat.div_mul_le_self _ _
  · rw [hxo]
    have h4 := Nat.div_add_mod p.database_.head_block_time r
    have h5 := Nat.mod_lt p.database_.head_block_time hrpos
    rw [Nat.mul_comm] at h4
    omega

theorem on_block_bucket_aligned_witness :
    unique_ids example_plugin.database_ ∧ example_plugin._tracked_buckets.Nodup ∧
    60 ∈ example_plugin._tracked_buckets ∧
    ids_below example_plugin.database_ ∧
    all_time_returns example_plugin.database_ example_block ∧
    (∀ r' ∈ example_plugin._tracked_buckets,
      round_returns example_plugin.database_
        example_plugin._maximum_history_per_bucket_size r') ∧
    (∃ p', on_block example_plugin example_block = .ok p') ∧
    on_block example_plugin example_block = .ok example_plugin_after ∧
    (0 < 60 ∧ ∃ x ∈ example_plugin_after.database_.buckets,
      x.id ∈ example_plugin_after._current_buckets ∧ x.seconds = 60 ∧
      x.open_ = example_plugin.database_.head_block_time / 60 * 60 ∧ 60 ∣ x.open_ ∧
      x.open_ ≤ example_plugin.database_.head_block_time ∧
      example_plugin.database_.head_block_time < x.open_ + 60) :=
  ⟨by decide, by decide, by decide, by decide, by decide, by decide,
    (on_block_bucket_aligned example_plugin example_block 60
      (by decide) (by decide) (by decide)).1 (by decide) (by decide) (by decide),
    rfl,
    (on_block_bucket_aligned example_plugin example_block 60
      (by decide) (by decide) (by decide)).2 example_plugin_after rfl⟩

/-- C2. Bucket uniqueness is an invariant of `on_block`: if no two buckets of
the store have the same (resolution, open) pair before the call, then no two
have after it, whatever the block, the tracked resolutions and the retention
setting. -/
theorem on_block_unique_pairs (p p' : plugin_impl) (b : signed_block)
    (hp : unique_pairs p.database_) (h : on_block p b = .ok p') :
    unique_pairs p'.database_ := by
  obtain ⟨db0, st', h0, h1, hp'⟩ := on_block_inv h
  subst hp'
  exact @unique_pairs_on_block_loop _ _ _ _ (db0, [0]) _ (unique_pairs_on_block_all_time hp h0) h1

theorem on_block_unique_pairs_witness :
    unique_pairs example_plugin_evict.database_ ∧
    on_block example_plugin_evict example_block_evict = .ok example_plugin_evict_after ∧
    unique_pairs example_plugin_evict_after.database_ :=
  ⟨by decide, rfl,
    on_block_unique_pairs example_plugin_evict example_plugin_evict_after example_block_evict
      (by decide) rfl⟩

/-- C3. `on_block` returns when its first statement and the round of every
tracked resolution do. After `on_block` returns, the active set holds the
identity 0 of the all-time bucket and, for each tracked resolution, the
identity of exactly one bucket of that resolution; it has
`1 + |tracked resolutions|` members, all different, and every member is the
identity of a bucket that is in the store. -/
theorem on_block_active_set (p : plugin_impl) (b : signed_block)
    (hu : unique_ids p.database_) (hnd : p._tracked_buckets.Nodup)
    (hready : all_time_ready p.database_ b) :
    (ids_below p.database_ → all_time_returns p.database_ b →
      (∀ r ∈ p._tracked_buckets,
        round_returns p.database_ p._maximum_history_per_bucket_size r) →
      ∃ p', on_block p b = .ok p') ∧
    ∀ p', on_block p b = .ok p' →
      (0 ∈ p'._current_buckets ∧ ∃ x ∈ p'.database_.buckets, x.id = 0 ∧ x.seconds = 0) ∧
      (p'._current_buckets.Nodup ∧
        p'._current_buckets.length = 1 + p._tracked_buckets.length) ∧
      (∀ id ∈ p'._current_buckets, ∃ x ∈ p'.database_.buckets, x.id = id ∧
        (id = 0 ∨ x.seconds ∈ p._tracked_buckets)) ∧
      (∀ r ∈ p._tracked_buckets, ∃ x ∈ p'.database_.buckets,
        x.id ∈ p'._current_buckets ∧ x.seconds = r ∧
        ∀ y ∈ p'.database_.buckets, y.id ∈ p'._current_buckets → y.seconds = r → y = x) := by
  refine ⟨fun hids h0 hrs => on_block_returns p b hu hids hnd h0 hrs, ?_⟩
  intro p' h
  obtain ⟨db0, st', h0, h1, hp'⟩ := on_block_inv h
  obtain ⟨hu0, ht0, _⟩ := on_block_all_time_frame hu h0
  obtain ⟨x0, hx0, hx0id, hx0s⟩ := on_block_all_time_zero hready h0
  obtain ⟨hrs, hu', _, hs'⟩ := @on_block_loop_frame _ _ _ _ (db0, [0]) _ hu0 h1
  have h0nt : (0 : Nat) ∉ p._tracked_buckets := fun hc => hrs 0 hc rfl
  have hinv : ∀ id ∈ [0], ∃ x ∈ db0.buckets, x.id = id ∧ x.seconds ∉ p._tracked_buckets := by
    intro id hid
    rw [List.mem_singleton] at hid
    subst hid
    exact ⟨x0, hx0, hx0id, by rw [hx0s]; exact h0nt⟩
  obtain ⟨hlen, hsub, hsup, hall, huniq, hnodup⟩ :=
    @on_block_loop_active _ _ _ _ (db0, [0]) _ hu0 hnd hinv h1
  have hx0' : x0 ∈ st'.1.buckets := by
    have : x0 ∈ slice st'.1 x0.seconds := by
      rw [hs' _ (by rw [hx0s]; exact h0nt)]; exact mem_slice.mpr ⟨hx0, rfl⟩
    exact (mem_slice.mp this).1
  subst hp'
  simp only at hlen hsub hsup hall ⊢
  refine ⟨⟨hsub 0 (by simp), x0, hx0', hx0id, hx0s⟩, ?_, ?_, ?_⟩
  · exact ⟨hnodup (by simp), by rw [hlen]; simp only [List.length_singleton]⟩
  · intro id hid
    rcases hsup id hid with h3 | ⟨z, hz, hzid, hzr⟩
    · rw [List.mem_singleton] at h3
      subst h3
      exact ⟨x0, hx0', hx0id, Or.inl rfl⟩
    · exact ⟨z, hz, hzid, Or.inr hzr⟩
  · intro r hr
    obtain ⟨x, hx, hxc, hxr, _⟩ := hall r hr
    refine ⟨x, hx, hxc, hxr, ?_⟩
    intro y hy hyc hyr
    exact huniq y hy x hx hyc hxc (by rw [hyr]; exact hr) (by rw [hxr, hyr])

theorem on_block_active_set_witness :
    unique_ids example_plugin_evict.database_ ∧ example_plugin_evict._tracked_buckets.Nodup ∧
    all_time_ready example_plugin_evict.database_ example_block_evict ∧
    ids_below example_plugin_evict.database_ ∧
    all_time_returns example_plugin_evict.database_ example_block_evict ∧
    (∀ r ∈ example_plugin_evict._tracked_buckets,
      round_returns example_plugin_evict.database_
        example_plugin_evict._maximum_history_per_bucket_size r) ∧
    (∃ p', on_block example_plugin_evict example_block_evict = .ok p') ∧
    on_block example_plugin_evict example_block_evict = .ok example_plugin_evict_after ∧
    ((0 ∈ example_plugin_evict_after._current_buckets ∧
      ∃ x ∈ example_plugin_evict_after.database_.buckets, x.id = 0 ∧ x.seconds = 0) ∧
    (example_plugin_evict_after._current_buckets.Nodup ∧
      example_plugin_evict_after._current_buckets.length =
        1 + example_plugin_evict._tracked_buckets.length) ∧
    (∀ id ∈ example_plugin_evict_after._current_buckets,
      ∃ x ∈ example_plugin_evict_after.database_.buckets, x.id = id ∧
        (id = 0 ∨ x.seconds ∈ example_plugin_evict._tracked_buckets)) ∧
    (∀ r ∈ example_plugin_evict._tracked_buckets,
      ∃ x ∈ example_plugin_evict_after.database_.buckets,
        x.id ∈ example_plugin_evict_after._current_buckets ∧ x.seconds = r ∧
        ∀ y ∈ example_plugin_evict_after.database_.buckets,
          y.id ∈ example_plugin_evict_after._current_buckets → y.seconds = r → y = x)) :=
  ⟨by decide, by decide, by decide, by decide, by decide, by decide,
    (on_block_active_set example_plugin_evict example_block_evict
      (by decide) (by decide) (by decide)).1 (by decide) (by decide) (by decide),
    rfl,
    (on_block_active_set example_plugin_evict example_block_evict
      (by decide) (by decide) (by decide)).2 example_plugin_evict_after rfl⟩

/-- C4, as the code has it. `on_block` adds the block's transaction count and
size to the bucket it finds already in the store for a tracked resolution
(which it also puts in the active set, with one more block), and leaves
`transactions` and `bandwidth` of every bucket of resolution 0, the all-time
bucket among them, as they were. -/
theorem on_block_block_stats (p p' : plugin_impl) (b : signed_block)
    (hu : unique_ids p.database_) (hup : unique_pairs p.database_)
    (hnd : p._tracked_buckets.Nodup) (hready : all_time_ready p.database_ b)
    (h : on_block p b = .ok p') :
    (∀ r ∈ p._tracked_buckets, ∀ x ∈ p.database_.buckets, x.seconds = r →
      x.open_ = p.database_.head_block_time / r * r →
      x.id ∈ p'._current_buckets ∧
      add_block_stats (num_trx b) (trx_size b) (count_block x) ∈ p'.database_.buckets) ∧
    (∀ y ∈ p'.database_.buckets, y.seconds = 0 →
      y.transactions = prior_transactions p.database_ y.id ∧
      y.bandwidth = prior_bandwidth p.database_ y.id) := by
  constructor
  · intro r hr x hx hxr hxo
    obtain ⟨hr0, hspec⟩ := on_block_slice hu hnd hready hr h
    have hmem : add_block_stats (num_trx b) (trx_size b) (count_block x) ∈
        p'.database_.buckets := by
      unfold round_spec at hspec
      rcases hspec with ⟨x', hx', hxo', hL'⟩ | ⟨hnone, _⟩
      · have hxx : x = x' := eq_of_same_pair hup hx (mem_slice.mp hx').1
          ⟨hxr.trans (mem_slice.mp hx').2.symm, hxo.trans hxo'.symm⟩
        subst hxx
        have : add_block_stats (num_trx b) (trx_size b) (count_block x) ∈
            slice p'.database_ r := by
          rw [hL', List.mem_map]
          exact ⟨x, hx', by simp⟩
        exact (mem_slice.mp this).1
      · exact absurd hxo (hnone x (mem_slice.mpr ⟨hx, hxr⟩))
    refine ⟨?_, hmem⟩
    obtain ⟨_, z, hz, hzc, hzr, hzo, _⟩ := on_block_resolves hu hnd hr h
    have := eq_of_same_pair (unique_pairs_on_block hup h) hz hmem
      ⟨hzr.trans hxr.symm, hzo.trans hxo.symm⟩
    rw [this] at hzc
    exact hzc
  · intro y hy hy0
    obtain ⟨db0, st', h0, h1, hp'⟩ := on_block_inv h
    obtain ⟨hu0, _, _⟩ := on_block_all_time_frame hu h0
    obtain ⟨hrs, _, _, hs'⟩ := @on_block_loop_frame _ _ _ _ (db0, [0]) _ hu0 h1
    have h0nt : (0 : Nat) ∉ p._tracked_buckets := fun hc => hrs 0 hc rfl
    subst hp'
    have hy0' : y ∈ db0.buckets := by
      have : y ∈ slice st'.1 0 := mem_slice.mpr ⟨hy, hy0⟩
      rw [hs' 0 h0nt] at this
      exact (mem_slice.mp this).1
    unfold prior_transactions prior_bandwidth
    rcases on_block_all_time_inv h0 with ⟨_, hfresh, _, hdb0⟩ | ⟨_, _, hdb0⟩
    · subst hdb0
      rcases List.mem_append.mp hy0' with h2 | h2
      · rw [get_of_mem hu h2]
        exact ⟨rfl, rfl⟩
      · rw [List.mem_singleton] at h2
        subst h2
        rw [show (new_bucket p.database_.next_id b.timestamp 0).id = p.database_.next_id from rfl,
          get_of_fresh hfresh]
        exact ⟨rfl, rfl⟩
    · subst hdb0
      obtain ⟨w, hw, hwy⟩ := List.mem_map.mp hy0'
      have hid : y.id = w.id := by rw [← hwy]; exact (keeps_key_count 0 w).1
      rw [hid, get_of_mem hu hw, ← hwy]
      by_cases hw0 : w.id = 0 <;> simp [hw0, count_block]

/-- C4 fails as the spec has it: after `on_block` on `example_plugin_evict`,
neither the all-time bucket nor the bucket just created has the block's two
transactions and 300 bytes added. -/
theorem on_block_block_stats_counterexample :
    on_block example_plugin_evict example_block_evict = .ok example_plugin_evict_after ∧
    num_trx example_block_evict = 2 ∧ trx_size example_block_evict = 300 ∧
    ¬ block_stats_added example_plugin_evict example_plugin_evict_after example_block_evict :=
  ⟨rfl, rfl, rfl, by decide⟩

theorem on_block_block_stats_witness :
    unique_ids example_plugin.database_ ∧ unique_pairs example_plugin.database_ ∧
    example_plugin._tracked_buckets.Nodup ∧
    all_time_ready example_plugin.database_ example_block ∧
    on_block example_plugin example_block = .ok example_plugin_after ∧
    ((∀ r ∈ example_plugin._tracked_buckets, ∀ x ∈ example_plugin.database_.buckets,
      x.seconds = r → x.open_ = example_plugin.database_.head_block_time / r * r →
      x.id ∈ example_plugin_after._current_buckets ∧
      add_block_stats (num_trx example_block) (trx_size example_block) (count_block x) ∈
        example_plugin_after.database_.buckets) ∧
    (∀ y ∈ example_plugin_after.database_.buckets, y.seconds = 0 →
      y.transactions = prior_transactions example_plugin.database_ y.id ∧
      y.bandwidth = prior_bandwidth example_plugin.database_ y.id)) :=
  ⟨by decide, by decide, by decide, by decide, rfl,
    on_block_block_stats example_plugin example_plugin_after example_block
      (by decide) (by decide) (by decide) (by decide) rfl⟩

/-- C6, as the code has it. When a returning `on_block` at head block time `t`
creates the bucket of the block for a tracked resolution `r` with retention
`m`, then `m > 0`, the cutoff `t - m * r` is representable, and a bucket of
resolution `r` that was in the store before the call is removed (no bucket has
its identity any more) iff its open time is below `t - m * r`; every one with
open time at least `t - m * r` is still in the store, with its identity,
resolution and open time. -/
theorem on_block_evicts_before_cutoff (p p' : plugin_impl) (b : signed_block) (r : Nat)
    (x : bucket_object)
    (hu : unique_ids p.database_) (hids : ids_below p.database_)
    (hnd : p._tracked_buckets.Nodup)
    (hready : all_time_ready p.database_ b) (hr : r ∈ p._tracked_buckets)
    (hnew : ∀ z ∈ p.database_.buckets,
      ¬ (z.seconds = r ∧ z.open_ = p.database_.head_block_time / r * r))
    (hx : x ∈ p.database_.buckets) (hxr : x.seconds = r)
    (h : on_block p b = .ok p') :
    (0 < p._maximum_history_per_bucket_size ∧
      r * p._maximum_history_per_bucket_size ≤ UINT32_MAX ∧
      r * p._maximum_history_per_bucket_size ≤ p.database_.head_block_time) ∧
    ((∀ y ∈ p'.database_.buckets, y.id ≠ x.id) ↔
      x.open_ < p.database_.head_block_time - p._maximum_history_per_bucket_size * r) ∧
    (p.database_.head_block_time - p._maximum_history_per_bucket_size * r ≤ x.open_ →
      ∃ y ∈ p'.database_.buckets, y.id = x.id ∧ y.seconds = r ∧ y.open_ = x.open_) := by
  obtain ⟨hm, h1, h2, hiff, _, _⟩ := on_block_retention hu hnd hready hr hnew h
  have hi := hiff x hx hxr
  rw [Nat.mul_comm r] at hi
  refine ⟨⟨hm, h1, h2⟩, ?_, hi.mpr⟩
  constructor
  · intro hgone
    by_contra hc
    obtain ⟨y, hy, hyid, _, _⟩ := hi.mpr (by omega)
    exact hgone y hy hyid
  · intro hlt y hy hyid
    obtain ⟨hyr, hyo⟩ := on_block_keeps_identity hu hids h x hx y hy hyid
    have := hi.mp ⟨y, hy, hyid, hyr.trans hxr, hyo⟩
    omega

/-- C6 fails as the spec has it: at time 190 with `r = 60` and `m = 2` the open
time of the new bucket is 180 and `180 - 2 * 60 = 60` is representable; the
bucket opened at 60 is not before 60, and `on_block` removes it all the same
(its cutoff is `190 - 2 * 60 = 70`). -/
theorem on_block_evicts_before_cutoff_counterexample :
    on_block example_plugin_evict example_block_evict = .ok example_plugin_evict_after ∧
    new_bucket 2 60 60 ∈ example_plugin_evict.database_.buckets ∧
    2 * 60 ≤ 190 / 60 * 60 ∧
    ¬ ((new_bucket 2 60 60).open_ < 190 / 60 * 60 - 2 * 60) ∧
    ¬ ∃ y ∈ example_plugin_evict_after.database_.buckets, y.id = 2 :=
  ⟨rfl, by decide, by decide, by decide, by decide⟩

theorem on_block_evicts_before_cutoff_witness :
    unique_ids example_plugin_evict.database_ ∧ ids_below example_plugin_evict.database_ ∧
    example_plugin_evict._tracked_buckets.Nodup ∧
    all_time_ready example_plugin_evict.database_ example_block_evict ∧
    60 ∈ example_plugin_evict._tracked_buckets ∧
    (∀ z ∈ example_plugin_evict.database_.buckets,
      ¬ (z.seconds = 60 ∧
          z.open_ = example_plugin_evict.database_.head_block_time / 60 * 60)) ∧
    new_bucket 2 60 60 ∈ example_plugin_evict.database_.buckets ∧
    on_block example_plugin_evict example_block_evict = .ok example_plugin_evict_after ∧
    ((∀ y ∈ example_plugin_evict_after.database_.buckets, y.id ≠ (new_bucket 2 60 60).id) ↔
      (new_bucket 2 60 60).open_ < example_plugin_evict.database_.head_block_time -
        example_plugin_evict._maximum_history_per_bucket_size * 60) :=
  ⟨by decide, by decide, by decide, by decide, by decide, by decide, by decide, rfl,
    (on_block_evicts_before_cutoff example_plugin_evict example_plugin_evict_after
      example_block_evict 60 (new_bucket 2 60 60)
      (by decide) (by decide) (by decide) (by decide) (by decide) (by decide) (by decide)
      rfl rfl).2.1⟩

/-- C7 fails as the spec has it. With `r = 60` and `m = 2`, the run over blocks
at 0, 60, 120, 180 from a fresh store does not return: the first block skips
the eviction and dereferences `end()`. And the run over blocks at 120, 180,
240, 300 from a fresh store, which does return, leaves three buckets of
resolution 60, opened at 180, 240 and 300, not two. -/
theorem apply_blocks_retains_window_counterexample :
    apply_blocks retention_fresh retention_chain = .error fault.end_dereferenced ∧
    retention_fresh.database_.buckets = [] ∧
    retention_fresh._maximum_history_per_bucket_size = 2 ∧
    apply_blocks retention_fresh window_chain = .ok window_after ∧
    (slice window_after.database_ 60).map (fun x => x.open_) = [180, 240, 300] ∧
    ¬ (slice window_after.database_ 60).length ≤
      retention_fresh._maximum_history_per_bucket_size :=
  ⟨rfl, rfl, rfl, rfl, by decide, by decide⟩

/-- C7, as the code has it. With resolution `r` tracked and retention
`m ≥ 1`, the run from a fresh store over blocks numbered from 1 at the times
`s * r, (s + 1) * r, ..., k * r`, the first of them late enough for the
retention cutoff of every tracked resolution `r'` to be computed
(`r' * m ≤ s * r`, within 32 bits), returns, and the buckets of resolution
`r` it leaves in the store are exactly those opened at
`max s (k - m) * r, ..., k * r`: the last `m + 1` created, or all of them
when fewer blocks were processed. -/
theorem apply_blocks_retains_window (p : plugin_impl) (r s : Nat) (b : signed_block)
    (bs : List signed_block)
    (hempty : p.database_.buckets = []) (hnext : p.database_.next_id = 0)
    (hm : 1 ≤ p._maximum_history_per_bucket_size)
    (hnd : p._tracked_buckets.Nodup) (hr : r ∈ p._tracked_buckets)
    (hfit : ∀ r' ∈ p._tracked_buckets, r' ≠ 0 ∧
      r' * p._maximum_history_per_bucket_size ≤ UINT32_MAX ∧
      r' * p._maximum_history_per_bucket_size ≤ s * r)
    (hnum : numbered_from 1 (b :: bs)) (hsp : spaced_from r s (b :: bs)) :
    ∃ p', apply_blocks p (b :: bs) = .ok p' ∧
      (∀ o, (∃ y ∈ p'.database_.buckets, y.seconds = r ∧ y.open_ = o) ↔
        ∃ j, max s (s + bs.length - p._maximum_history_per_bucket_size) ≤ j ∧
          j ≤ s + bs.length ∧ o = j * r) ∧
      ((slice p'.database_ r).map (fun y => y.open_)).Perm
        ((List.range (min bs.length p._maximum_history_per_bucket_size + 1)).map
          (fun i => (max s (s + bs.length - p._maximum_history_per_bucket_size) + i) * r)) := by
  have hrpos : 0 < r := Nat.pos_of_ne_zero (hfit r hr).1
  have hu : unique_ids p.database_ := by
    unfold unique_ids
    rw [hempty]
    exact List.nodup_nil
  have hids : ids_below p.database_ := by
    intro x hx
    rw [hempty] at hx
    exact absurd hx (List.not_mem_nil _)
  have hup : unique_pairs p.database_ := by
    unfold unique_pairs
    rw [hempty]
    exact List.Pairwise.nil
  have hstore : ∀ o, (∃ x ∈ p.database_.buckets, x.seconds = r ∧ x.open_ = o) ↔
      ∃ j, s ≤ j ∧ j < s ∧ o = j * r := by
    intro o
    constructor
    · rintro ⟨x, hx, _⟩
      rw [hempty] at hx
      exact absurd hx (List.not_mem_nil _)
    · rintro ⟨j, h1, h2, _⟩
      omega
  unfold numbered_from at hnum
  unfold spaced_from at hsp
  obtain ⟨q1, h1, ht1, hmax1, hu1, hids1, hup1, hzero1, hstore1⟩ :=
    @apply_block_window p b r s s hu hids hup hnd hr hm hfit hsp.1 (le_refl s)
      (by rw [if_pos hnum.1]; exact ⟨hempty, hnext⟩) hstore
  generalize p._maximum_history_per_bucket_size = m at *
  have hfit1 : ∀ r' ∈ q1._tracked_buckets,
      r' ≠ 0 ∧ r' * m ≤ UINT32_MAX ∧ r' * m ≤ (s + 1) * r := by
    intro r' hr'
    obtain ⟨h2, h3, h4⟩ := hfit r' (ht1 ▸ hr')
    exact ⟨h2, h3, le_trans h4 (Nat.mul_le_mul_right r (Nat.le_succ s))⟩
  obtain ⟨p', hp', hup', hstore'⟩ := apply_blocks_window hm bs q1 (max s (s - m)) (s + 1) 2
    hmax1 hu1 hids1 hup1 (ht1 ▸ hnd) (ht1 ▸ hr) hfit1 hzero1 (le_refl 2) hnum.2 hsp.2
    (by omega) (by omega) hstore1
  have hset : ∀ o, (∃ y ∈ p'.database_.buckets, y.seconds = r ∧ y.open_ = o) ↔
      ∃ j, max s (s + bs.length - m) ≤ j ∧ j ≤ s + bs.length ∧ o = j * r := by
    intro o
    rw [hstore' o]
    constructor
    · rintro ⟨j, h2, h3, h4⟩
      exact ⟨j, by omega, by omega, h4⟩
    · rintro ⟨j, h2, h3, h4⟩
      exact ⟨j, by omega, by omega, h4⟩
  refine ⟨p', by rw [apply_blocks, h1]; exact hp', hset, ?_⟩
  have hnd1 : ((slice p'.database_ r).map (fun y => y.open_)).Nodup := by
    unfold List.Nodup
    rw [List.pairwise_map]
    have hsub : (slice p'.database_ r).Pairwise (fun a b => ¬ same_pair a b) :=
      List.Pairwise.sublist (List.filter_sublist _) hup'
    refine hsub.imp_of_mem ?_
    intro a c ha hc hac hopen'
    exact hac ⟨(mem_slice.mp ha).2.trans (mem_slice.mp hc).2.symm, hopen'⟩
  have hnd2 : ((List.range (min bs.length m + 1)).map
      (fun i => (max s (s + bs.length - m) + i) * r)).Nodup := by
    apply List.Nodup.map _ (List.nodup_range _)
    intro i j hij
    have := Nat.eq_of_mul_eq_mul_right hrpos hij
    omega
  refine (List.perm_ext_iff_of_nodup hnd1 hnd2).mpr ?_
  intro o
  rw [List.mem_map, List.mem_map]
  constructor
  · rintro ⟨y, hy, hyo⟩
    obtain ⟨j, hj1, hj2, hjo⟩ :=
      (hset o).mp ⟨y, (mem_slice.mp hy).1, (mem_slice.mp hy).2, hyo⟩
    exact ⟨j - max s (s + bs.length - m), List.mem_range.mpr (by omega), by
      rw [hjo]; congr 1; omega⟩
  · rintro ⟨i, hi, hio⟩
    have hi' := List.mem_range.mp hi
    obtain ⟨y, hy, hyr, hyo⟩ := (hset o).mpr
      ⟨max s (s + bs.length - m) + i, by omega, by omega, hio.symm⟩
    exact ⟨y, mem_slice.mpr ⟨hy, hyr⟩, hyo⟩

theorem apply_blocks_retains_window_witness :
    retention_fresh.database_.buckets = [] ∧ retention_fresh.database_.next_id = 0 ∧
    1 ≤ retention_fresh._maximum_history_per_bucket_size ∧
    retention_fresh._tracked_buckets.Nodup ∧ 60 ∈ retention_fresh._tracked_buckets ∧
    (∀ r' ∈ retention_fresh._tracked_buckets, r' ≠ 0 ∧
      r' * retention_fresh._maximum_history_per_bucket_size ≤ UINT32_MAX ∧
      r' * retention_fresh._maximum_history_per_bucket_size ≤ 2 * 60) ∧
    numbered_from 1 window_chain ∧ spaced_from 60 2 window_chain ∧
    (∃ p', apply_blocks retention_fresh window_chain = .ok p' ∧
      (∀ o, (∃ y ∈ p'.database_.buckets, y.seconds = 60 ∧ y.open_ = o) ↔
        ∃ j, max 2 (2 + 3 - retention_fresh._maximum_history_per_bucket_size) ≤ j ∧
          j ≤ 2 + 3 ∧ o = j * 60) ∧
      ((slice p'.database_ 60).map (fun y => y.open_)).Perm
        ((List.range (min 3 retention_fresh._maximum_history_per_bucket_size + 1)).map
          (fun i =>
            (max 2 (2 + 3 - retention_fresh._maximum_history_per_bucket_size) + i) * 60))) ∧
    (List.range (min 3 retention_fresh._maximum_history_per_bucket_size + 1)).map
        (fun i => (max 2 (2 + 3 - retention_fresh._maximum_history_per_bucket_size) + i) * 60) =
      [180, 240, 300] :=
  ⟨rfl, rfl, by decide, by decide, by decide, by decide, by decide, by decide,
    apply_blocks_retains_window retention_fresh 60 2
      { block_num := 1, timestamp := 120, transactions := [] }
      [{ block_num := 2, timestamp := 180, transactions := [] },
       { block_num := 3, timestamp := 240, transactions := [] },
       { block_num := 4, timestamp := 300, transactions := [] }]
      rfl rfl (by decide) (by decide) (by decide) (by decide) (by decide) (by decide),
    by decide⟩

/-- C8, on the code. With the retained history set to 0 the first block of a
chain creates the one-minute bucket, skips the eviction, and then does not
complete: `on_block` dereferences `end()`. -/
theorem on_block_skipped_eviction_faults :
    apply_block no_history_plugin first_block = .error fault.end_dereferenced := rfl

/-- C9. Retention eviction is idempotent: when the eviction step of `on_block`
for resolution `r`, head block time `t` and retention `m` has returned a
store, applying it again to that store, with no bucket created in between,
returns the same store. -/
theorem evict_idempotent (db db1 : database) (r m : Nat) (itr itr1 : Option Nat)
    (hu : unique_ids db) (h : evict db r m itr = .ok (db1, itr1)) :
    ∃ itr2, evict db1 r m itr1 = .ok (db1, itr2) := by
  unfold evict at h ⊢
  by_cases hm : 0 < m
  · rw [if_pos hm] at h ⊢
    cases hcut : cutoff db.head_block_time r m with
    | none =>
      rw [hcut] at h
      simp only [Except.ok.injEq, Prod.mk.injEq] at h
      rw [← h.1, hcut]
      exact ⟨_, rfl⟩
    | some cut =>
      rw [hcut] at h
      simp only at h
      obtain ⟨hdb1, y, hy, _, hyr, hye, _⟩ := evict_while_lower_bound hu h
      have hhead : db1.head_block_time = db.head_block_time := by rw [hdb1]
      rw [hhead, hcut]
      simp only
      have hu1 : unique_ids db1 := by
        unfold unique_ids
        rw [hdb1]
        exact hu.sublist ((List.filter_sublist _).map _)
      have hy1 : y ∈ db1.buckets := by
        rw [hdb1]
        exact List.mem_filter.mpr ⟨hy, by simp [hye]⟩
      obtain ⟨db2, itr2, h2⟩ := @evict_while_returns r cut _ db1
        ⟨y, mem_lower_bound.mpr ⟨hy1, hyr⟩, hye⟩
      obtain ⟨hdb2, _⟩ := evict_while_lower_bound hu1 h2
      have hsame : db2 = db1 := by
        rw [hdb2]
        have : db1.buckets.filter (fun x => !expired r cut x) = db1.buckets := by
          rw [List.filter_eq_self]
          intro a ha
          rw [hdb1] at ha
          exact (List.mem_filter.mp ha).2
        rw [this]
      rw [hsame] at h2
      exact ⟨itr2, h2⟩
  · rw [if_neg hm] at h ⊢
    simp only [Except.ok.injEq, Prod.mk.injEq] at h
    rw [← h.1]
    exact ⟨_, rfl⟩

theorem evict_idempotent_witness :
    unique_ids example_plugin_evict.database_ ∧
    evict example_plugin_evict.database_ 60 2 none =
      .ok ({ example_plugin_evict.database_ with
              buckets := [new_bucket 0 5 0, new_bucket 3 120 60] }, some 3) ∧
    ∃ itr2, evict { example_plugin_evict.database_ with
              buckets := [new_bucket 0 5 0, new_bucket 3 120 60] } 60 2 (some 3) =
      .ok ({ example_plugin_evict.database_ with
              buckets := [new_bucket 0 5 0, new_bucket 3 120 60] }, itr2) :=
  ⟨by decide, rfl,
    evict_idempotent example_plugin_evict.database_ _ 60 2 none (some 3) (by decide) rfl⟩

/-- C10. For a transfer of amount `a`, `post_operation` returns, and in every
bucket of the active set it has increased `transfers` by 1 and
`steem_transferred` by `a` when the asset is STEEM, `sbd_transferred` by `a`
otherwise (and `operations` by 1 unless the operation is virtual); every other
counter, every bucket outside the active set and the rest of the state are as
before. -/
theorem post_operation_transfer (is_virtual_operation : operation → Bool) (p : plugin_impl)
    (amount : asset)
    (hu : unique_ids p.database_) (hnd : p._current_buckets.Nodup)
    (hact : ∀ id ∈ p._current_buckets, ∃ x ∈ p.database_.buckets, x.id = id) :
    post_operation is_virtual_operation p { op := .transfer_operation amount } =
      .ok { p with database_ := { p.database_ with buckets :=
        (p.database_.buckets.map (fun z =>
          if z.id ∈ p._current_buckets then
            { z with
              operations := z.operations +
                (if is_virtual_operation (.transfer_operation amount) then 0 else 1),
              transfers := z.transfers + 1,
              steem_transferred := z.steem_transferred +
                (if amount.symbol = asset_symbol.STEEM_SYMBOL then amount.amount else 0),
              sbd_transferred := z.sbd_transferred +
                (if amount.symbol = asset_symbol.STEEM_SYMBOL then 0 else amount.amount) }
          else z)) } } := by
  unfold post_operation
  have hloop := @post_operation_loop_eq (is_virtual_operation (.transfer_operation amount))
    (.transfer_operation amount) p.database_
    (fun z => { z with
        transfers := z.transfers + 1,
        steem_transferred := z.steem_transferred +
          (if amount.symbol = asset_symbol.STEEM_SYMBOL then amount.amount else 0),
        sbd_transferred := z.sbd_transferred +
          (if amount.symbol = asset_symbol.STEEM_SYMBOL then 0 else amount.amount) })
    (fun _ => rfl)
    (by
      intro bs z
      unfold operation_process
      by_cases hs : amount.symbol = asset_symbol.STEEM_SYMBOL
      · simp [hs]
      · simp [hs])
    p._current_buckets p.database_.buckets hu hnd hact
  simp only
  rw [show ({ p.database_ with buckets := p.database_.buckets } : database) = p.database_
    from rfl] at hloop
  rw [hloop]
  simp only [Except.ok.injEq]
  congr 2
  apply List.map_congr_left
  intro z _
  split
  · unfold count_operation
    split
    · simp
    · simp
  · rfl


theorem post_operation_transfer_witness :
    unique_ids example_plugin_ops.database_ ∧ example_plugin_ops._current_buckets.Nodup ∧
    (∀ id ∈ example_plugin_ops._current_buckets,
      ∃ x ∈ example_plugin_ops.database_.buckets, x.id = id) ∧
    post_operation (fun _ => false) example_plugin_ops
        { op := .transfer_operation { amount := 1000, symbol := asset_symbol.STEEM_SYMBOL } } =
      .ok { example_plugin_ops with database_ := { example_plugin_ops.database_ with
        buckets :=
          [{ new_bucket 0 100 0 with operations := 1, transfers := 1, steem_transferred := 1000 },
           { new_bucket 1 120 60 with operations := 1, transfers := 1, steem_transferred := 1000 },
           new_bucket 2 0 3600] } } :=
  ⟨by decide, by decide, by decide,
    (post_operation_transfer (fun _ => false) example_plugin_ops
      { amount := 1000, symbol := asset_symbol.STEEM_SYMBOL }
      (by decide) (by decide) (by decide)).trans rfl⟩

/-- C11, on the code. The vote rule for a vote whose content, voter and vote
record are found: `post_operation` returns, counts the operation, and in
every active bucket increases exactly one vote counter by 1. For a record
with a change count of zero (a first vote) that counter is
`changed_reply_votes` (content with a parent) or `changed_root_votes`
(content without); for a change count other than zero it is
`new_reply_votes` or `new_root_votes`. The test is the reverse of the claim. -/
theorem post_operation_vote (v : operation → Bool) (p : plugin_impl)
    (voter author permlink : String) (comment : comment_object) (account : account_object)
    (itr : comment_vote_object)
    (hu : unique_ids p.database_) (hnd : p._current_buckets.Nodup)
    (hact : ∀ id ∈ p._current_buckets, ∃ x ∈ p.database_.buckets, x.id = id)
    (hc : p.database_.get_comment author permlink = .ok comment)
    (ha : p.database_.get_account voter = .ok account)
    (hv : find_comment_vote p.database_ comment.id account.id = some itr) :
    post_operation v p { op := .vote_operation voter author permlink } =
      .ok { p with database_ := { p.database_ with buckets :=
        (p.database_.buckets.map (fun z =>
          if z.id ∈ p._current_buckets then
            if itr.num_changes = 0 then
              if comment.parent_author.length ≠ 0 then
                { count_operation (v (.vote_operation voter author permlink)) z with
                  changed_reply_votes := z.changed_reply_votes + 1 }
              else
                { count_operation (v (.vote_operation voter author permlink)) z with
                  changed_root_votes := z.changed_root_votes + 1 }
            else
              if comment.parent_author.length ≠ 0 then
                { count_operation (v (.vote_operation voter author permlink)) z with
                  new_reply_votes := z.new_reply_votes + 1 }
              else
                { count_operation (v (.vote_operation voter author permlink)) z with
                  new_root_votes := z.new_root_votes + 1 }
          else z)) } } := by
  unfold post_operation
  have hloop := @post_operation_loop_eq (v (.vote_operation voter author permlink))
    (.vote_operation voter author permlink) p.database_
    (fun z =>
      if itr.num_changes = 0 then
        if comment.parent_author.length ≠ 0 then
          { z with changed_reply_votes := z.changed_reply_votes + 1 }
        else { z with changed_root_votes := z.changed_root_votes + 1 }
      else
        if comment.parent_author.length ≠ 0 then
          { z with new_reply_votes := z.new_reply_votes + 1 }
        else { z with new_root_votes := z.new_root_votes + 1 })
    (by
      intro z
      simp only
      split <;> split <;> rfl)
    (by
      intro bs z
      rw [operation_process_buckets]
      unfold operation_process
      simp only [hc, ha, hv]
      by_cases h0 : itr.num_changes = 0
      · have hn : ¬ (itr.num_changes ≠ 0) := fun h => h h0
        simp only [if_neg hn, if_pos h0]
        by_cases hp : comment.parent_author.length ≠ 0
        · simp only [if_pos hp]
        · simp only [if_neg hp]
      · have hn : itr.num_changes ≠ 0 := h0
        simp only [if_pos hn, if_neg h0]
        by_cases hp : comment.parent_author.length ≠ 0
        · simp only [if_pos hp]
        · simp only [if_neg hp])
    p._current_buckets p.database_.buckets hu hnd hact
  simp only
  rw [show ({ p.database_ with buckets := p.database_.buckets } : database) = p.database_
    from rfl] at hloop
  rw [hloop]
  simp only [Except.ok.injEq]
  congr 2
  apply List.map_congr_left
  intro z _
  by_cases hz : z.id ∈ p._current_buckets
  · simp only [if_pos hz]
    by_cases h0 : itr.num_changes = 0
    · simp only [if_pos h0]
      by_cases hp : comment.parent_author.length ≠ 0
      · simp only [if_pos hp]
        cases (v (.vote_operation voter author permlink)) <;> rfl
      · simp only [if_neg hp]
        cases (v (.vote_operation voter author permlink)) <;> rfl
    · simp only [if_neg h0]
      by_cases hp : comment.parent_author.length ≠ 0
      · simp only [if_pos hp]
        cases (v (.vote_operation voter author permlink)) <;> rfl
      · simp only [if_neg hp]
        cases (v (.vote_operation voter author permlink)) <;> rfl
  · simp only [if_neg hz]

theorem post_operation_vote_witness :
    unique_ids example_plugin_chain.database_ ∧ example_plugin_chain._current_buckets.Nodup ∧
    (∀ id ∈ example_plugin_chain._current_buckets,
      ∃ x ∈ example_plugin_chain.database_.buckets, x.id = id) ∧
    example_plugin_chain.database_.get_comment "carol" "re-post" =
      .ok { id := 7, author := "carol", permlink := "re-post", created := 130,
            parent_author := "bob" } ∧
    example_plugin_chain.database_.get_account "alice" =
      .ok { id := 1, name := "alice", created := 50, vesting_withdraw_rate := 0 } ∧
    find_comment_vote example_plugin_chain.database_ 7 1 =
      some { comment := 7, voter := 1, num_changes := 0 } ∧
    post_operation (fun _ => false) example_plugin_chain
        { op := .vote_operation "alice" "carol" "re-post" } = .ok example_plugin_vote_after :=
  ⟨by decide, by decide, by decide, rfl, rfl, rfl,
    (post_operation_vote (fun _ => false) example_plugin_chain "alice" "carol" "re-post"
      { id := 7, author := "carol", permlink := "re-post", created := 130,
        parent_author := "bob" }
      { id := 1, name := "alice", created := 50, vesting_withdraw_rate := 0 }
      { comment := 7, voter := 1, num_changes := 0 }
      (by decide) (by decide) (by decide) rfl rfl rfl).trans rfl⟩

/-- C12. For every operation of every kind, `post_operation` returns when the
active buckets are in the store and the lookups of the handler succeed,
and a returning `post_operation` keeps the buckets in place with their
identities and, bucket by bucket, adds exactly 1 to `operations` when the
bucket is in the active set and the operation is not virtual, and nothing
otherwise. Hence the post-pass over a run of operations with the same active
set returns when the lookups of every operation succeed, and `operations` of
an active bucket grows by the number of operations of the run that are not
virtual, and `operations` of any other bucket stays. Nothing else counts
operations: `pre_operation` returns when its lookups succeed and leaves
`operations` of every bucket as it was, and `on_block` returns when its
rounds do, leaves the buckets it keeps with their `operations` and creates
buckets with none. -/
theorem post_operation_counts_operations (v : operation → Bool) (p : plugin_impl)
    (hu : unique_ids p.database_) (hnd : p._current_buckets.Nodup) :
    (∀ o, (∀ id ∈ p._current_buckets, ∃ x ∈ p.database_.buckets, x.id = id) →
      (∀ x ∈ p.database_.buckets, x.id ∈ p._current_buckets →
        post_lookups_found p.database_ o.op x = true) →
      ∃ p', post_operation v p o = .ok p') ∧
    (∀ os, (∀ id ∈ p._current_buckets, ∃ x ∈ p.database_.buckets, x.id = id) →
      (∀ o ∈ os, ∀ x ∈ p.database_.buckets, x.id ∈ p._current_buckets →
        post_lookups_found p.database_ o.op x = true) →
      ∃ p', post_operations v p os = .ok p') ∧
    (∀ N o, (∀ id ∈ p._current_buckets, ∃ x ∈ p.database_.buckets, x.id = id) →
      pre_lookups_found N p.database_ o.op → ∃ p', pre_operation N p o = .ok p') ∧
    (∀ b, ids_below p.database_ → p._tracked_buckets.Nodup →
      all_time_returns p.database_ b →
      (∀ r ∈ p._tracked_buckets,
        round_returns p.database_ p._maximum_history_per_bucket_size r) →
      ∃ p', on_block p b = .ok p') ∧
    (∀ o p', post_operation v p o = .ok p' →
      p'._current_buckets = p._current_buckets ∧
      List.Forall₂ (fun x y => y.id = x.id ∧
          y.operations = x.operations +
            (if x.id ∈ p._current_buckets ∧ v o.op = false then 1 else 0))
        p.database_.buckets p'.database_.buckets) ∧
    (∀ os p', post_operations v p os = .ok p' →
      p'._current_buckets = p._current_buckets ∧
      List.Forall₂ (fun x y => y.id = x.id ∧
          y.operations = x.operations +
            (if x.id ∈ p._current_buckets then
              (os.filter (fun o => !v o.op)).length else 0))
        p.database_.buckets p'.database_.buckets) ∧
    (∀ N o p', pre_operation N p o = .ok p' →
      p'._current_buckets = p._current_buckets ∧
      List.Forall₂ (fun x y => y.id = x.id ∧ y.operations = x.operations)
        p.database_.buckets p'.database_.buckets) ∧
    (∀ b p', on_block p b = .ok p' →
      ∀ y ∈ p'.database_.buckets,
        (∃ x ∈ p.database_.buckets, x.id = y.id ∧ y.operations = x.operations) ∨
        (p.database_.next_id ≤ y.id ∧ y.operations = 0)) := by
  have hstep : ∀ (q : plugin_impl) o q', unique_ids q.database_ → q._current_buckets.Nodup →
      post_operation v q o = .ok q' →
      q'._current_buckets = q._current_buckets ∧
      List.Forall₂ (fun x y => y.id = x.id ∧
          y.operations = x.operations +
            (if x.id ∈ q._current_buckets ∧ v o.op = false then 1 else 0))
        q.database_.buckets q'.database_.buckets := by
    intro q o q' hqu hqnd h
    obtain ⟨g, hq', hg⟩ := post_operation_step hqu hqnd h
    subst hq'
    refine ⟨rfl, forall2_map_of_forall ?_⟩
    intro x hx
    by_cases hxa : x.id ∈ q._current_buckets
    · obtain ⟨hid, hops⟩ := processed_operations ((hg x hx).1 hxa)
      refine ⟨hid, ?_⟩
      rw [hops]
      cases v o.op <;> simp [hxa]
    · rw [(hg x hx).2 hxa]
      simp [hxa]
  refine ⟨fun o hact hfound => ⟨_, post_operation_returns hu hnd hact hfound⟩,
    fun os hact hfound => post_operations_returns os p hu hnd hact hfound,
    ?_, fun b hids hndt h0 hrs => on_block_returns p b hu hids hndt h0 hrs,
    fun o p' h => hstep p o p' hu hnd h, ?_,
    fun N o p' h => pre_operation_keeps_operations hnd h,
    fun b p' h => (on_block_keeps_operations hu h).2⟩
  · intro N o hact hok
    unfold pre_operation
    rw [pre_operation_loop_eq p._current_buckets p.database_ hnd hact hok]
    exact ⟨_, rfl⟩
  intro os
  induction os generalizing p with
  | nil =>
    intro p' h
    simp only [post_operations, Except.ok.injEq] at h
    subst h
    refine ⟨rfl, ?_⟩
    have := @forall2_map_of_forall (fun x y => y.id = x.id ∧
          y.operations = x.operations +
            (if x.id ∈ p._current_buckets then
              (([] : List operation_notification).filter (fun o => !v o.op)).length else 0))
        (fun z => z) p.database_.buckets (by intro x _; simp)
    rw [List.map_id'] at this
    exact this
  | cons o os ih =>
    intro p' h
    rw [post_operations] at h
    split at h
    · exact absurd h (by simp)
    rename_i p1 h1
    obtain ⟨hcur1, hf1⟩ := hstep p o p1 hu hnd h1
    obtain ⟨hu1, _, _⟩ := post_operation_unique_ids hu hnd h1
    obtain ⟨hcur2, hf2⟩ := ih p1 hu1 (hcur1 ▸ hnd) p' h
    refine ⟨hcur2.trans hcur1, ?_⟩
    refine forall2_comp ?_ hf1 hf2
    rintro x y z ⟨hyid, hyops⟩ ⟨hzid, hzops⟩
    refine ⟨hzid.trans hyid, ?_⟩
    rw [hzops, hyops, hyid, hcur1]
    by_cases hxa : x.id ∈ p._current_buckets
    · simp only [hxa, true_and, if_true, List.filter_cons]
      cases v o.op <;> simp
      omega
    · simp [hxa]

theorem post_operation_counts_operations_witness :
    unique_ids example_plugin_chain.database_ ∧ example_plugin_chain._current_buckets.Nodup ∧
    (∀ id ∈ example_plugin_chain._current_buckets,
      ∃ x ∈ example_plugin_chain.database_.buckets, x.id = id) ∧
    (∀ o ∈ example_run, ∀ x ∈ example_plugin_chain.database_.buckets,
      x.id ∈ example_plugin_chain._current_buckets →
        post_lookups_found example_plugin_chain.database_ o.op x = true) ∧
    (∃ p', post_operations example_is_virtual example_plugin_chain example_run = .ok p') ∧
    post_operations example_is_virtual example_plugin_chain example_run =
      .ok example_plugin_run_after ∧
    List.Forall₂ (fun x y => y.id = x.id ∧
        y.operations = x.operations +
          (if x.id ∈ example_plugin_chain._current_buckets then
            (example_run.filter (fun o => !example_is_virtual o.op)).length else 0))
      example_plugin_chain.database_.buckets example_plugin_run_after.database_.buckets :=
  ⟨by decide, by decide, by decide, by decide,
    (post_operation_counts_operations example_is_virtual example_plugin_chain
      (by decide) (by decide)).2.1 example_run (by decide) (by decide),
    rfl,
    ((post_operation_counts_operations example_is_virtual example_plugin_chain
      (by decide) (by decide)).2.2.2.2.2.1 example_run example_plugin_run_after rfl).2⟩

/-- C13. A returning `post_operation` leaves the tracked resolutions, the
active set and everything of the store but the buckets as they were, keeps
the buckets in place, leaves every bucket outside the active set as it was,
and changes an active bucket in no field other than `operations` and the
counters of the row of the operation's kind in the post-pass table: for the
kinds without a row (content deletion, vesting-withdrawal setup and the kinds
the plugin does not name) in no field other than `operations`. -/
theorem post_operation_row_frame (v : operation → Bool) (p p' : plugin_impl)
    (o : operation_notification) (hu : unique_ids p.database_)
    (hnd : p._current_buckets.Nodup) (h : post_operation v p o = .ok p') :
    p' = { p with database_ := { p.database_ with buckets := p'.database_.buckets } } ∧
    List.Forall₂ (fun x y => if x.id ∈ p._current_buckets then row_frame o.op x y else y = x)
      p.database_.buckets p'.database_.buckets := by
  obtain ⟨g, hp', hg⟩ := post_operation_step hu hnd h
  subst hp'
  refine ⟨rfl, forall2_map_of_forall ?_⟩
  intro x hx
  by_cases hxa : x.id ∈ p._current_buckets
  · rw [if_pos hxa]
    exact row_frame_count (operation_process_row ((hg x hx).1 hxa))
  · rw [if_neg hxa]
    exact (hg x hx).2 hxa

theorem post_operation_row_frame_witness :
    unique_ids example_plugin_chain.database_ ∧ example_plugin_chain._current_buckets.Nodup ∧
    post_operation example_is_virtual example_plugin_chain
      { op := .vote_operation "alice" "carol" "re-post" } = .ok example_plugin_vote_after ∧
    example_plugin_vote_after = { example_plugin_chain with database_ :=
      { example_plugin_chain.database_ with
        buckets := example_plugin_vote_after.database_.buckets } } ∧
    List.Forall₂ (fun x y => if x.id ∈ example_plugin_chain._current_buckets then
        row_frame (.vote_operation "alice" "carol" "re-post") x y else y = x)
      example_plugin_chain.database_.buckets example_plugin_vote_after.database_.buckets :=
  ⟨by decide, by decide, rfl,
    post_operation_row_frame example_is_virtual example_plugin_chain example_plugin_vote_after
      { op := .vote_operation "alice" "carol" "re-post" } (by decide) (by decide) rfl⟩

/-- C15, on the code. No step lowers a counter other than the signed
`vesting_withdraw_rate_delta` of a bucket that is in the store before and
after it: a returning `on_block`, whatever the block; a returning
`pre_operation`, whatever the operation; and a returning `post_operation` for
an operation whose amounts are not negative, when no hash-power estimate of
the store is so large that its 128-bit update could wrap and the shift of
the proof-of-work handler has fewer than 31 bits. At a shift of exactly 31
bits (108 to 111 proof-of-work witnesses) the claim fails: the post-pass for
a proof of work returns, and every active bucket whose estimate times its
time span is `2 ^ 31` or more has a lower `estimated_hashpower` than
before. -/
theorem counters_never_decrease (p p' : plugin_impl)
    (hu : unique_ids p.database_) (hids : ids_below p.database_)
    (hnd : p._current_buckets.Nodup) :
    (∀ b, on_block p b = .ok p' →
      ∀ x ∈ p.database_.buckets, ∀ y ∈ p'.database_.buckets, y.id = x.id →
        counters_le x y) ∧
    (∀ N o, pre_operation N p o = .ok p' →
      ∀ x ∈ p.database_.buckets, ∀ y ∈ p'.database_.buckets, y.id = x.id →
        counters_le x y) ∧
    (∀ v o, amounts_nonneg o.op → (∀ x ∈ p.database_.buckets, hashpower_fits x) →
      (∀ w, o.op = .pow_operation w → p.database_.num_pow_witnesses / 4 + 4 < 31) →
      post_operation v p o = .ok p' →
      ∀ x ∈ p.database_.buckets, ∀ y ∈ p'.database_.buckets, y.id = x.id →
        counters_le x y) ∧
    (∀ v w worker, p.database_.get_account w = .ok worker →
      (∀ id ∈ p._current_buckets, ∃ x ∈ p.database_.buckets, x.id = id) →
      p.database_.num_pow_witnesses / 4 + 4 = 31 →
      (∀ x ∈ p.database_.buckets, x.id ∈ p._current_buckets → delta_t p.database_ x ≠ 0) →
      ∃ q, post_operation v p { op := .pow_operation w } = .ok q ∧
        ∀ x ∈ p.database_.buckets, x.id ∈ p._current_buckets → hashpower_fits x →
          2 ^ 31 ≤ x.estimated_hashpower * delta_t p.database_ x →
          ∃ y ∈ q.database_.buckets, y.id = x.id ∧
            y.estimated_hashpower < x.estimated_hashpower ∧ ¬ counters_le x y) := by
  refine ⟨fun _ h => on_block_counters hu hids h, fun _ _ h => pre_operation_counters hu hnd h,
    fun _ _ ha hf hb h => post_operation_counters hu hnd ha hf hb h, ?_⟩
  intro v w worker hw hact hbits hdt
  refine ⟨_, post_operation_pow_returns hu hnd hact hw (by omega) hdt, ?_⟩
  intro x hx hxa hf hbig
  obtain ⟨h1, h2⟩ := pow_estimate_wraps hf hbits (hdt x hx hxa) hbig
  have hlt : ((x.estimated_hashpower * delta_t p.database_ x +
      estimated_hashes p.database_) % 2 ^ 128) / delta_t p.database_ x <
        x.estimated_hashpower := by
    rw [h1]; exact h2
  refine ⟨_, List.mem_map.mpr ⟨x, hx, if_pos hxa⟩, rfl, hlt, ?_⟩
  intro hle
  exact absurd hle.2.2.2.2.2.2.2.2.2.2.2.2.2.2.2.2.2.2.2.2.2.2.2.2.2.2.2.2.2.2.2.2.2.2.2.2.2.2.2.2.2
    (Nat.not_le.mpr hlt)

theorem counters_never_decrease_witness :
    unique_ids mining_queue.database_ ∧ ids_below mining_queue.database_ ∧
    mining_queue._current_buckets.Nodup ∧
    mining_queue.database_.num_pow_witnesses = 108 ∧
    apply_blocks mining_plugin mining_chain = .ok mining_opened ∧
    post_operations example_is_virtual mining_opened mining_operations = .ok mining_mined ∧
    post_operation example_is_virtual mining_queue { op := .pow_operation "miner" } =
      .ok mining_queue_after ∧
    mining_queue.database_.buckets.map (fun x => x.estimated_hashpower) =
      [1073741823, 53687091] ∧
    mining_queue_after.database_.buckets.map (fun x => x.estimated_hashpower) =
      [357913940, 17895696] ∧
    (∃ q, post_operation example_is_virtual mining_queue { op := .pow_operation "miner" } =
        .ok q ∧
      ∀ x ∈ mining_queue.database_.buckets, x.id ∈ mining_queue._current_buckets →
        hashpower_fits x →
        2 ^ 31 ≤ x.estimated_hashpower * delta_t mining_queue.database_ x →
        ∃ y ∈ q.database_.buckets, y.id = x.id ∧
          y.estimated_hashpower < x.estimated_hashpower ∧ ¬ counters_le x y) :=
  ⟨by decide, by decide, by decide, rfl, rfl, rfl, rfl, rfl, rfl,
    (counters_never_decrease mining_queue mining_queue_after
      (by decide) (by decide) (by decide)).2.2.2 example_is_virtual "miner"
      { id := 2, name := "miner", created := 130, vesting_withdraw_rate := 0 }
      rfl (by decide) (by decide) (by decide)⟩

/-- C17. The withdrawal rate of the pre-pass for a requested amount `a ≥ 0`
and a positive number `N` of withdrawal intervals: with hardfork 0.1 active
it is `floor(a / N)`, except that it is 1 when `0 < a < N`, and it is 0 only
when `a = 0`; in general it is that value, times 10000 exactly when the
hardfork is not yet active. -/
theorem new_vesting_withdrawal_rate_spec (N a : Int) (hN : 0 < N) (ha : 0 ≤ a) :
    new_vesting_withdrawal_rate N true a = (if 0 < a ∧ a < N then 1 else Int.fdiv a N) ∧
    (new_vesting_withdrawal_rate N true a = 0 ↔ a = 0) ∧
    (∀ hf : Bool, new_vesting_withdrawal_rate N hf a =
      new_vesting_withdrawal_rate N true a * (if hf then 1 else 10000)) := by
  have htdiv : Int.tdiv a N = a / N := Int.tdiv_eq_ediv ha (le_of_lt hN)
  have hfdiv : Int.fdiv a N = a / N := Int.fdiv_eq_ediv a (le_of_lt hN)
  have hzero : a / N = 0 ↔ a < N := by
    constructor
    · intro h
      by_contra hlt
      have : 1 ≤ a / N := by
        rw [Int.le_ediv_iff_mul_le hN]
        omega
      omega
    · intro h
      exact Int.ediv_eq_zero_of_lt ha h
  have hbase : new_vesting_withdrawal_rate N true a =
      (if 0 < a ∧ a < N then 1 else a / N) := by
    unfold new_vesting_withdrawal_rate
    simp only [htdiv, if_true, hzero]
  refine ⟨by rw [hbase, hfdiv], ?_, ?_⟩
  · rw [hbase]
    constructor
    · intro h
      by_cases hc : 0 < a ∧ a < N
      · rw [if_pos hc] at h
        omega
      · rw [if_neg hc] at h
        have := hzero.mp h
        have hna : ¬ 0 < a := fun h0 => hc ⟨h0, this⟩
        omega
    · intro h
      subst h
      have : ¬ ((0 : Int) < 0 ∧ (0 : Int) < N) := fun h => absurd h.1 (lt_irrefl 0)
      rw [if_neg this]
      exact Int.zero_ediv N
  · intro hf
    cases hf
    · unfold new_vesting_withdrawal_rate
      simp
    · simp

theorem new_vesting_withdrawal_rate_spec_witness :
    (0 : Int) < 13 ∧ (0 : Int) ≤ 5 ∧
    (new_vesting_withdrawal_rate 13 true 5 = (if (0 : Int) < 5 ∧ (5 : Int) < 13 then 1
      else Int.fdiv 5 13) ∧
    (new_vesting_withdrawal_rate 13 true 5 = 0 ↔ (5 : Int) = 0) ∧
    (∀ hf : Bool, new_vesting_withdrawal_rate 13 hf 5 =
      new_vesting_withdrawal_rate 13 true 5 * (if hf then 1 else 10000))) ∧
    new_vesting_withdrawal_rate 13 true 5 = 1 ∧
    new_vesting_withdrawal_rate 13 false 5 = 10000 ∧
    new_vesting_withdrawal_rate 13 true 130 = 10 ∧
    new_vesting_withdrawal_rate 13 true 0 = 0 :=
  ⟨by decide, by decide, new_vesting_withdrawal_rate_spec 13 5 (by decide) (by decide),
    by decide, by decide, by decide, by decide⟩

/-- C18. In the pre-pass for a vesting-withdrawal setup whose account is
found and has a current withdrawal rate that is not negative (a rate on the
chain never is), with the active buckets in the store and a non-zero number
of withdrawal intervals, `pre_operation` returns and changes every active
bucket, and no other, as follows: exactly one of the two request counters
grows by 1, `modified_vesting_withdrawal_requests` if the current withdrawal
rate of the account is non-zero and `new_vesting_withdrawal_requests`
otherwise; `vesting_withdraw_rate_delta` changes by the new rate minus the
current rate of the account, which may be negative; every other field
stays. -/
theorem pre_operation_withdraw_vesting (N : Int) (p : plugin_impl) (account_name : String)
    (vesting_shares : asset) (account : account_object)
    (hnd : p._current_buckets.Nodup)
    (hact : ∀ id ∈ p._current_buckets, ∃ x ∈ p.database_.buckets, x.id = id)
    (ha : p.database_.get_account account_name = .ok account) (hN : N ≠ 0)
    (hrate : 0 ≤ account.vesting_withdraw_rate) :
    pre_operation N p { op := .withdraw_vesting_operation account_name vesting_shares } =
      .ok { p with database_ := { p.database_ with buckets :=
        (p.database_.buckets.map (fun z =>
          if z.id ∈ p._current_buckets then
            { z with
              modified_vesting_withdrawal_requests :=
                z.modified_vesting_withdrawal_requests +
                  (if account.vesting_withdraw_rate ≠ 0 then 1 else 0),
              new_vesting_withdrawal_requests :=
                z.new_vesting_withdrawal_requests +
                  (if account.vesting_withdraw_rate ≠ 0 then 0 else 1),
              vesting_withdraw_rate_delta :=
                z.vesting_withdraw_rate_delta +
                  (new_vesting_withdrawal_rate N p.database_.hardfork_0_1 vesting_shares.amount -
                    account.vesting_withdraw_rate) }
          else z)) } } := by
  have hok : pre_lookups_found N p.database_
      (.withdraw_vesting_operation account_name vesting_shares) := ⟨⟨account, ha⟩, hN⟩
  unfold pre_operation
  simp only
  rw [pre_operation_loop_eq p._current_buckets p.database_ hnd hact hok]
  simp only [Except.ok.injEq]
  congr 2
  apply List.map_congr_left
  intro z _
  by_cases hz : z.id ∈ p._current_buckets
  · simp only [if_pos hz]
    unfold pre_processed
    simp only [ha]
    by_cases hr : 0 < account.vesting_withdraw_rate
    · have hne : account.vesting_withdraw_rate ≠ 0 := by omega
      simp only [if_pos hr, if_pos hne, Nat.add_zero]
    · have hne : ¬ account.vesting_withdraw_rate ≠ 0 := by omega
      simp only [if_neg hr, if_neg hne, Nat.add_zero]
  · simp only [if_neg hz]

theorem pre_operation_withdraw_vesting_witness :
    example_plugin_chain._current_buckets.Nodup ∧
    (∀ id ∈ example_plugin_chain._current_buckets,
      ∃ x ∈ example_plugin_chain.database_.buckets, x.id = id) ∧
    example_plugin_chain.database_.get_account "carol" =
      .ok { id := 3, name := "carol", created := 60, vesting_withdraw_rate := 70 } ∧
    (13 : Int) ≠ 0 ∧ (0 : Int) ≤ 70 ∧
    pre_operation 13 example_plugin_chain
      { op := .withdraw_vesting_operation "carol"
          { amount := 130, symbol := asset_symbol.VESTS_SYMBOL } } =
      .ok example_plugin_carol_after ∧
    pre_operation 13 example_plugin_chain
      { op := .withdraw_vesting_operation "alice"
          { amount := 130, symbol := asset_symbol.VESTS_SYMBOL } } =
      .ok example_plugin_alice_after :=
  ⟨by decide, by decide, rfl, by decide, by decide,
    (pre_operation_withdraw_vesting 13 example_plugin_chain "carol"
      { amount := 130, symbol := asset_symbol.VESTS_SYMBOL }
      { id := 3, name := "carol", created := 60, vesting_withdraw_rate := 70 }
      (by decide) (by decide) rfl (by decide) (by decide)).trans rfl,
    (pre_operation_withdraw_vesting 13 example_plugin_chain "alice"
      { amount := 130, symbol := asset_symbol.VESTS_SYMBOL }
      { id := 1, name := "alice", created := 50, vesting_withdraw_rate := 0 }
      (by decide) (by decide) rfl (by decide) (by decide)).trans rfl⟩

/-- C19, on the code. The proof-of-work rule, for a worker account that is
found and active buckets that are in the store. With `bits = floor(w / 4) + 4`
below 32 and no active bucket with a time span `delta_t` (the resolution, or
for resolution 0 the head block time minus the open time) of zero,
`post_operation` returns and leaves, in the place of every active bucket,
the bucket with the operation counted, `total_pow` one larger,
`mined_accounts_created` one larger exactly when the worker account was
created at the head block time, and `estimated_hashpower` set to
`floor(((old * delta_t + estimated_hashes) mod 2^128) / delta_t)`. Below 31
bits `estimated_hashes` is `2^bits`, and in a bucket whose estimate cannot
wrap the new estimate is `floor((old * delta_t + 2^bits) / delta_t)`, which
is `old + floor(2^bits / delta_t)` and not below `old`: the claim. At 31 bits
(108 to 111 witnesses) `estimated_hashes` is `2^128 - 2^31`, not `2^31`, and
an estimate with `old * delta_t` of `2^31` or more falls. At 32 bits or more
(112 witnesses or more) and a non-empty active set the call does not return:
the shift `1 << bits` of the 32-bit constant is out of range. -/
theorem post_operation_pow (v : operation → Bool) (p : plugin_impl) (w : String)
    (worker : account_object)
    (hu : unique_ids p.database_) (hnd : p._current_buckets.Nodup)
    (hact : ∀ id ∈ p._current_buckets, ∃ x ∈ p.database_.buckets, x.id = id)
    (hw : p.database_.get_account w = .ok worker) :
    (p.database_.num_pow_witnesses / 4 + 4 < 32 →
      (∀ x ∈ p.database_.buckets, x.id ∈ p._current_buckets → delta_t p.database_ x ≠ 0) →
      post_operation v p { op := .pow_operation w } =
        .ok { p with database_ := { p.database_ with buckets :=
          (p.database_.buckets.map (fun z =>
            if z.id ∈ p._current_buckets then
              { z with
                operations := z.operations + (if v (.pow_operation w) then 0 else 1),
                mined_accounts_created := z.mined_accounts_created +
                  (if worker.created = p.database_.head_block_time then 1 else 0),
                total_pow := z.total_pow + 1,
                estimated_hashpower :=
                  ((z.estimated_hashpower * delta_t p.database_ z +
                    estimated_hashes p.database_) % 2 ^ 128) / delta_t p.database_ z }
            else z)) } }) ∧
    (p.database_.num_pow_witnesses / 4 + 4 < 31 →
      estimated_hashes p.database_ = 2 ^ (p.database_.num_pow_witnesses / 4 + 4) ∧
      ∀ x ∈ p.database_.buckets, hashpower_fits x → delta_t p.database_ x ≠ 0 →
        ((x.estimated_hashpower * delta_t p.database_ x +
            estimated_hashes p.database_) % 2 ^ 128) / delta_t p.database_ x =
          (x.estimated_hashpower * delta_t p.database_ x +
            2 ^ (p.database_.num_pow_witnesses / 4 + 4)) / delta_t p.database_ x ∧
        (x.estimated_hashpower * delta_t p.database_ x +
            2 ^ (p.database_.num_pow_witnesses / 4 + 4)) / delta_t p.database_ x =
          x.estimated_hashpower +
            2 ^ (p.database_.num_pow_witnesses / 4 + 4) / delta_t p.database_ x) ∧
    (p.database_.num_pow_witnesses / 4 + 4 = 31 →
      estimated_hashes p.database_ = 2 ^ 128 - 2 ^ 31 ∧
      ∀ x ∈ p.database_.buckets, hashpower_fits x → delta_t p.database_ x ≠ 0 →
        2 ^ 31 ≤ x.estimated_hashpower * delta_t p.database_ x →
        ((x.estimated_hashpower * delta_t p.database_ x +
            estimated_hashes p.database_) % 2 ^ 128) / delta_t p.database_ x =
          (x.estimated_hashpower * delta_t p.database_ x - 2 ^ 31) / delta_t p.database_ x ∧
        (x.estimated_hashpower * delta_t p.database_ x - 2 ^ 31) / delta_t p.database_ x <
          x.estimated_hashpower) ∧
    (32 ≤ p.database_.num_pow_witnesses / 4 + 4 → p._current_buckets ≠ [] →
      post_operation v p { op := .pow_operation w } = .error .shift_out_of_range) := by
  refine ⟨?_, ?_, ?_, ?_⟩
  · intro hbits hdt
    exact post_operation_pow_returns hu hnd hact hw hbits hdt
  · intro hbits
    refine ⟨estimated_hashes_of_lt hbits, ?_⟩
    intro x _ hf hd
    have h1 := pow_estimate_eq hf hbits hd
    have h2 : (x.estimated_hashpower * delta_t p.database_ x +
            2 ^ (p.database_.num_pow_witnesses / 4 + 4)) / delta_t p.database_ x =
          x.estimated_hashpower +
            2 ^ (p.database_.num_pow_witnesses / 4 + 4) / delta_t p.database_ x := by
      rw [Nat.mul_comm, Nat.mul_add_div (Nat.pos_of_ne_zero hd)]
    exact ⟨h1.trans h2.symm, h2⟩
  · intro hbits
    refine ⟨estimated_hashes_of_eq hbits, ?_⟩
    intro x _ hf hd hbig
    exact pow_estimate_wraps hf hbits hd hbig
  · intro hbits hne
    obtain ⟨id, ids, hids⟩ := List.exists_cons_of_ne_nil hne
    obtain ⟨x, hx, hxid⟩ := hact id (by rw [hids]; exact List.mem_cons_self _ _)
    unfold post_operation
    rw [hids]
    simp only
    rw [post_operation_loop_fault hu hx hxid (operation_process_pow_shift _ hw hbits)]

theorem post_operation_pow_witness :
    unique_ids mining_full.database_ ∧ mining_full._current_buckets.Nodup ∧
    (∀ id ∈ mining_full._current_buckets, ∃ x ∈ mining_full.database_.buckets, x.id = id) ∧
    mining_full.database_.get_account "miner" =
      .ok { id := 2, name := "miner", created := 130, vesting_withdraw_rate := 0 } ∧
    mining_full.database_.num_pow_witnesses = 112 ∧
    apply_blocks mining_plugin mining_chain = .ok mining_opened ∧
    post_operations example_is_virtual mining_opened mining_operations = .ok mining_mined ∧
    post_operation example_is_virtual example_plugin_chain { op := .pow_operation "miner" } =
      .ok example_plugin_pow_after ∧
    post_operation example_is_virtual mining_queue { op := .pow_operation "miner" } =
      .ok mining_queue_after ∧
    post_operation example_is_virtual mining_full { op := .pow_operation "miner" } =
      .error .shift_out_of_range :=
  ⟨by decide, by decide, by decide, rfl, rfl, rfl, rfl, rfl,
    ((post_operation_pow example_is_virtual mining_queue "miner"
      { id := 2, name := "miner", created := 130, vesting_withdraw_rate := 0 }
      (by decide) (by decide) (by decide) rfl).1 (by decide) (by decide)).trans rfl,
    (post_operation_pow example_is_virtual mining_full "miner"
      { id := 2, name := "miner", created := 130, vesting_withdraw_rate := 0 }
      (by decide) (by decide) (by decide) rfl).2.2.2 (by decide) (by decide)⟩

/-- C20. For an operation of any kind other than content deletion and
vesting-withdrawal setup, `pre_operation` returns the state it was given:
every bucket of the store and the active set are unchanged. For a content
deletion whose content is found, with the active buckets in the store, it
returns and increases, in every active bucket, `replies_deleted` by 1 if the
deleted content has a parent and `root_comments_deleted` by 1 otherwise, and
changes nothing else. -/
theorem pre_operation_other_kinds (N : Int) (p : plugin_impl) :
    (∀ op : operation, (∀ author permlink, op ≠ .delete_comment_operation author permlink) →
      (∀ account vesting_shares, op ≠ .withdraw_vesting_operation account vesting_shares) →
      pre_operation N p { op := op } = .ok p) ∧
    (∀ (author permlink : String) (comment : comment_object),
      p._current_buckets.Nodup →
      (∀ id ∈ p._current_buckets, ∃ x ∈ p.database_.buckets, x.id = id) →
      p.database_.get_comment author permlink = .ok comment →
      pre_operation N p { op := .delete_comment_operation author permlink } =
        .ok { p with database_ := { p.database_ with buckets :=
          (p.database_.buckets.map (fun z =>
            if z.id ∈ p._current_buckets then
              if comment.parent_author.length ≠ 0 then
                { z with replies_deleted := z.replies_deleted + 1 }
              else
                { z with root_comments_deleted := z.root_comments_deleted + 1 }
            else z)) } }) := by
  constructor
  · intro op hdel hwd
    have hloop : ∀ (ids : List Nat) (db : database),
        pre_operation_loop N op ids db = .ok db := by
      intro ids
      induction ids with
      | nil => intro db; rfl
      | cons id ids ih =>
        intro db
        have hb : pre_operation_bucket N op db id = .ok db := by
          unfold pre_operation_bucket
          cases op
          case delete_comment_operation a pl => exact absurd rfl (hdel a pl)
          case withdraw_vesting_operation a s => exact absurd rfl (hwd a s)
          all_goals rfl
        rw [pre_operation_loop, hb]
        exact ih db
    unfold pre_operation
    simp only
    rw [hloop]
  · intro author permlink comment hnd hact hc
    have hok : pre_lookups_found N p.database_
        (.delete_comment_operation author permlink) := ⟨comment, hc⟩
    unfold pre_operation
    simp only
    rw [pre_operation_loop_eq p._current_buckets p.database_ hnd hact hok]
    simp only [Except.ok.injEq]
    congr 2
    apply List.map_congr_left
    intro z _
    by_cases hz : z.id ∈ p._current_buckets
    · simp only [if_pos hz]
      unfold pre_processed
      simp only [hc]
    · simp only [if_neg hz]

theorem pre_operation_other_kinds_witness :
    pre_operation 13 example_plugin_chain
      { op := .transfer_operation { amount := 1000, symbol := asset_symbol.STEEM_SYMBOL } } =
      .ok example_plugin_chain ∧
    example_plugin_chain._current_buckets.Nodup ∧
    (∀ id ∈ example_plugin_chain._current_buckets,
      ∃ x ∈ example_plugin_chain.database_.buckets, x.id = id) ∧
    example_plugin_chain.database_.get_comment "carol" "re-post" =
      .ok { id := 7, author := "carol", permlink := "re-post", created := 130,
            parent_author := "bob" } ∧
    pre_operation 13 example_plugin_chain
      { op := .delete_comment_operation "carol" "re-post" } =
      .ok example_plugin_delete_after :=
  ⟨(pre_operation_other_kinds 13 example_plugin_chain).1
      (.transfer_operation { amount := 1000, symbol := asset_symbol.STEEM_SYMBOL })
      (by simp) (by simp),
    by decide, by decide, rfl,
    ((pre_operation_other_kinds 13 example_plugin_chain).2 "carol" "re-post"
      { id := 7, author := "carol", permlink := "re-post", created := 130,
        parent_author := "bob" }
      (by decide) (by decide) rfl).trans rfl⟩

/-- C21, on the code. The divisor `delta_t` of the proof-of-work rule on the
active set a returning `on_block` has built. For an active bucket of a tracked
resolution it is the resolution, which is positive, and for the all-time
bucket it is the time elapsed since the bucket opened when the head block
time is later than that. In the block that creates the all-time bucket
(block 1 on a fresh store, whose timestamp is the head block time) the
all-time bucket is active, has the head block time as open time, and its
`delta_t` is zero: `post_operation` for a proof-of-work operation does not
return. -/
theorem on_block_first_block_delta_t (p p' : plugin_impl) (b : signed_block)
    (hu : unique_ids p.database_) (hnd : p._tracked_buckets.Nodup)
    (h : on_block p b = .ok p') :
    (∀ x ∈ p'.database_.buckets, x.id ∈ p'._current_buckets → x.seconds ≠ 0 →
      delta_t p'.database_ x = x.seconds ∧ 0 < delta_t p'.database_ x) ∧
    (∀ x ∈ p'.database_.buckets, x.id ∈ p'._current_buckets → x.seconds = 0 →
      x.open_ < p'.database_.head_block_time → p'.database_.head_block_time ≤ UINT32_MAX →
      delta_t p'.database_ x = p'.database_.head_block_time - x.open_ ∧
        0 < delta_t p'.database_ x) ∧
    (b.block_num = 1 → p.database_.next_id = 0 →
      b.timestamp = p.database_.head_block_time →
      ∃ x ∈ p'.database_.buckets, x.id ∈ p'._current_buckets ∧ x.seconds = 0 ∧
        x.open_ = p'.database_.head_block_time ∧ delta_t p'.database_ x = 0 ∧
        ∀ v w p'', post_operation v p' { op := .pow_operation w } ≠ .ok p'') := by
  refine ⟨?_, ?_, ?_⟩
  · intro x _ _ hs
    rw [delta_t_tracked hs]
    exact ⟨rfl, Nat.pos_of_ne_zero hs⟩
  · intro x _ _ hs ho ht
    rw [delta_t_elapsed hs ho ht]
    exact ⟨rfl, Nat.sub_pos_of_lt ho⟩
  · intro hb hnext hts
    obtain ⟨db0, st', h0, h1, hp'⟩ := on_block_inv h
    obtain ⟨hu0, ht0, _⟩ := on_block_all_time_frame hu h0
    obtain ⟨hrs, hu1, ht1, hs1⟩ := @on_block_loop_frame _ _ _ _ (db0, [0]) _ hu0 h1
    have hdb0 : db0 = { p.database_ with
        buckets := p.database_.buckets ++ [new_bucket p.database_.next_id b.timestamp 0],
        next_id := p.database_.next_id + 1 } := by
      rcases on_block_all_time_inv h0 with ⟨_, _, _, hdb0⟩ | ⟨hne, _, _⟩
      · exact hdb0
      · exact absurd hb hne
    have hx0 : new_bucket 0 b.timestamp 0 ∈ db0.buckets := by
      rw [hdb0, hnext]
      simp
    have h0rs : (0 : Nat) ∉ p._tracked_buckets := fun hc => hrs 0 hc rfl
    have hx1 : new_bucket 0 b.timestamp 0 ∈ st'.1.buckets := by
      have hsl := hs1 0 h0rs
      have : new_bucket 0 b.timestamp 0 ∈ slice db0 0 := by
        unfold slice
        rw [List.mem_filter]
        exact ⟨hx0, by simp [new_bucket]⟩
      rw [← hsl] at this
      unfold slice at this
      exact (List.mem_filter.mp this).1
    have hinv : ∀ id ∈ ([0] : List Nat), ∃ x ∈ db0.buckets, x.id = id ∧
        x.seconds ∉ p._tracked_buckets := by
      intro id hid
      rw [List.mem_singleton] at hid
      subst hid
      exact ⟨_, hx0, rfl, h0rs⟩
    obtain ⟨_, hcur, _, _, _, hndc⟩ :=
      @on_block_loop_active _ _ _ _ (db0, [0]) _ hu0 hnd hinv h1
    have hc0 : (0 : Nat) ∈ st'.2 := hcur 0 (List.mem_singleton.mpr rfl)
    have hndc' : st'.2.Nodup := hndc (List.nodup_singleton 0)
    have hhead : st'.1.head_block_time = p.database_.head_block_time := by
      rw [ht1]; exact ht0
    subst hp'
    have hdt : delta_t st'.1 (new_bucket 0 b.timestamp 0) = 0 :=
      delta_t_opened_now rfl (by rw [hhead, ← hts]; rfl)
    refine ⟨new_bucket 0 b.timestamp 0, hx1, hc0, rfl, by rw [hhead, ← hts]; rfl, hdt, ?_⟩
    intro v w p'' hpost
    unfold post_operation at hpost
    split at hpost
    · exact absurd hpost (by simp)
    rename_i db' hl
    obtain ⟨_, hact⟩ := post_operation_loop_inv _ _ _ hu1 hndc' hl
    obtain ⟨x, hx, hxid, y, hy⟩ := hact 0 hc0
    have hxe : x = new_bucket 0 b.timestamp 0 := eq_of_id_eq hu1 hx hx1 hxid
    have := operation_process_pow_delta_t hy
    rw [delta_t_count_operation, hxe] at this
    exact this hdt

theorem on_block_first_block_delta_t_witness :
    unique_ids genesis_plugin.database_ ∧ genesis_plugin._tracked_buckets.Nodup ∧
    on_block genesis_plugin genesis_block = .ok genesis_plugin_after ∧
    genesis_block.block_num = 1 ∧ genesis_plugin.database_.next_id = 0 ∧
    genesis_block.timestamp = genesis_plugin.database_.head_block_time ∧
    (∃ x ∈ genesis_plugin_after.database_.buckets,
      x.id ∈ genesis_plugin_after._current_buckets ∧ x.seconds = 0 ∧
      x.open_ = genesis_plugin_after.database_.head_block_time ∧
      delta_t genesis_plugin_after.database_ x = 0 ∧
      ∀ v w p'', post_operation v genesis_plugin_after { op := .pow_operation w } ≠ .ok p'') ∧
    post_operation example_is_virtual genesis_plugin_after { op := .pow_operation "miner" } =
      .error .division_by_zero :=
  ⟨by decide, by decide, rfl, rfl, rfl, rfl,
    (on_block_first_block_delta_t genesis_plugin genesis_plugin_after genesis_block
      (by decide) (by decide) rfl).2.2 rfl rfl rfl, rfl⟩

/-- C22. The retention scan of `on_block` is safe and bounded. On every store
(identities unique and below the next one to hand out), for every resolution
`r > 0`, retention `m ≥ 1` and head block time for which the cutoff `cut` is
representable, when the bucket of the block is absent: the creation returns
the new bucket, whose open time is at or after the cutoff; the scan returns,
so it never reads past the last bucket of the index, and stops at a bucket of
resolution `r` opened at or before the new bucket; the new bucket is still in
the store; the buckets removed are exactly those of resolution `r` opened
before the cutoff, so no bucket of another resolution is removed; and the
whole round of `on_block` returns. -/
theorem evict_scan_safe (db : database) (r m cut : Nat)
    (hu : unique_ids db) (hids : ids_below db) (hr : 0 < r) (hm : 1 ≤ m)
    (hcut : cutoff db.head_block_time r m = some cut)
    (hnew : db.find r (db.head_block_time / r * r) = none) :
    cut ≤ db.head_block_time / r * r ∧
    (∃ db1 db2 y,
      db.create (fun bo =>
          { bo with open_ := db.head_block_time / r * r, seconds := r, blocks := 1 }) =
        .ok (db1, new_bucket db.next_id (db.head_block_time / r * r) r) ∧
      evict db1 r m none = .ok (db2, some y.id) ∧
      y ∈ db2.buckets ∧ y.seconds = r ∧ y.open_ ≤ db.head_block_time / r * r ∧
      new_bucket db.next_id (db.head_block_time / r * r) r ∈ db2.buckets ∧
      (∀ x, x ∈ db2.buckets ↔ x ∈ db1.buckets ∧ ¬ (x.seconds = r ∧ x.open_ < cut)) ∧
      (∀ x ∈ db.buckets, x.seconds ≠ r → x ∈ db2.buckets)) ∧
    (∀ n s cur, ∃ st', on_block_bucket m n s (db, cur) r = .ok st') := by
  have hnone := find_eq_none.mp hnew
  have hm0 : 0 < m := hm
  obtain ⟨h1, h2, hcuteq⟩ := cutoff_eq_some.mp hcut
  have hopen : cut ≤ db.head_block_time / r * r := by
    have h3 : r ≤ r * m := Nat.le_mul_of_pos_right r hm
    have h4 := Nat.div_add_mod db.head_block_time r
    have h5 := Nat.mod_lt db.head_block_time hr
    rw [Nat.mul_comm] at h4
    omega
  refine ⟨hopen, ?_, ?_⟩
  · have hcreate : db.create
        (fun bo => { bo with open_ := db.head_block_time / r * r, seconds := r, blocks := 1 }) =
        .ok ({ db with
          buckets := db.buckets ++ [new_bucket db.next_id (db.head_block_time / r * r) r],
          next_id := db.next_id + 1 },
          new_bucket db.next_id (db.head_block_time / r * r) r) :=
      create_returns (fun x hx => ⟨Nat.ne_of_lt (hids x hx), hnone x hx⟩)
    have hu1 : unique_ids { db with
          buckets := db.buckets ++ [new_bucket db.next_id (db.head_block_time / r * r) r],
          next_id := db.next_id + 1 } :=
      unique_ids_append_new hu (fun x hx => Nat.ne_of_lt (hids x hx))
    have hexp : expired r cut (new_bucket db.next_id (db.head_block_time / r * r) r) = false := by
      simp only [expired, new_bucket, decide_True, Bool.true_and, decide_eq_false_iff_not,
        not_lt]
      exact hopen
    have hnbmem : new_bucket db.next_id (db.head_block_time / r * r) r ∈
        ({ db with
          buckets := db.buckets ++ [new_bucket db.next_id (db.head_block_time / r * r) r],
          next_id := db.next_id + 1 } : database).buckets := by simp
    obtain ⟨db2, itr, hev⟩ := @evict_while_returns r cut
      (database.lower_bound { db with
          buckets := db.buckets ++ [new_bucket db.next_id (db.head_block_time / r * r) r],
          next_id := db.next_id + 1 } r 0)
      { db with
          buckets := db.buckets ++ [new_bucket db.next_id (db.head_block_time / r * r) r],
          next_id := db.next_id + 1 }
      ⟨new_bucket db.next_id (db.head_block_time / r * r) r,
        mem_lower_bound.mpr ⟨hnbmem, le_refl _⟩, hexp⟩
    obtain ⟨hdb2, y, hy, hitr, hyr, hye, hymin⟩ := evict_while_lower_bound hu1 hev
    have hevict : evict { db with
          buckets := db.buckets ++ [new_bucket db.next_id (db.head_block_time / r * r) r],
          next_id := db.next_id + 1 } r m none = .ok (db2, some y.id) := by
      unfold evict
      rw [if_pos hm0]
      simp only [hcut]
      rw [← hitr]
      exact hev
    have hmem2 : ∀ x, x ∈ db2.buckets ↔
        x ∈ ({ db with
          buckets := db.buckets ++ [new_bucket db.next_id (db.head_block_time / r * r) r],
          next_id := db.next_id + 1 } : database).buckets ∧
          ¬ (x.seconds = r ∧ x.open_ < cut) := by
      intro x
      rw [hdb2]
      simp only [List.mem_filter, Bool.not_eq_true', ← Bool.not_eq_true, expired_iff]
    have hle := hymin _ hnbmem (le_refl _) hexp
    have hyr' : y.seconds = r ∧ y.open_ ≤ db.head_block_time / r * r := by
      unfold by_bucket_le at hle
      simp only [new_bucket] at hle
      rcases hle with hlt | ⟨heq, hle⟩
      · omega
      · exact ⟨heq, hle⟩
    refine ⟨_, db2, y, hcreate, hevict, ?_, hyr'.1, hyr'.2, ?_, hmem2, ?_⟩
    · rw [hmem2]
      exact ⟨hy, by rw [← expired_iff, hye]; simp⟩
    · rw [hmem2]
      exact ⟨hnbmem, by rw [← expired_iff, hexp]; simp⟩
    · intro x hx hxr
      rw [hmem2]
      exact ⟨List.mem_append_left _ hx, fun hc => hxr hc.1⟩
  · intro n s cur
    exact @on_block_bucket_returns m n s r (db, cur) hids
      ⟨Nat.ne_of_gt hr, Or.inr ⟨hm0, h1, h2⟩⟩

theorem evict_scan_safe_witness :
    unique_ids example_plugin_evict.database_ ∧ ids_below example_plugin_evict.database_ ∧
    0 < 60 ∧ 1 ≤ 2 ∧
    cutoff example_plugin_evict.database_.head_block_time 60 2 = some 70 ∧
    example_plugin_evict.database_.find 60
      (example_plugin_evict.database_.head_block_time / 60 * 60) = none ∧
    (70 ≤ example_plugin_evict.database_.head_block_time / 60 * 60 ∧
    (∃ db1 db2 y,
      example_plugin_evict.database_.create (fun bo =>
          { bo with open_ := example_plugin_evict.database_.head_block_time / 60 * 60,
                    seconds := 60, blocks := 1 }) =
        .ok (db1, new_bucket example_plugin_evict.database_.next_id
          (example_plugin_evict.database_.head_block_time / 60 * 60) 60) ∧
      evict db1 60 2 none = .ok (db2, some y.id) ∧
      y ∈ db2.buckets ∧ y.seconds = 60 ∧
      y.open_ ≤ example_plugin_evict.database_.head_block_time / 60 * 60 ∧
      new_bucket example_plugin_evict.database_.next_id
        (example_plugin_evict.database_.head_block_time / 60 * 60) 60 ∈ db2.buckets ∧
      (∀ x, x ∈ db2.buckets ↔ x ∈ db1.buckets ∧ ¬ (x.seconds = 60 ∧ x.open_ < 70)) ∧
      (∀ x ∈ example_plugin_evict.database_.buckets, x.seconds ≠ 60 → x ∈ db2.buckets)) ∧
    (∀ n s cur, ∃ st',
      on_block_bucket 2 n s (example_plugin_evict.database_, cur) 60 = .ok st')) ∧
    evict
      { example_plugin_evict.database_ with
        buckets := example_plugin_evict.database_.buckets ++ [new_bucket 4 180 60],
        next_id := 5 } 60 2 none =
      .ok ({ example_plugin_evict.database_ with
        buckets := [new_bucket 0 5 0, new_bucket 3 120 60, new_bucket 4 180 60],
        next_id := 5 }, some 3) :=
  ⟨by decide, by decide, by decide, by decide, by decide, by decide,
    evict_scan_safe example_plugin_evict.database_ 60 2 70
      (by decide) (by decide) (by decide) (by decide) (by decide) (by decide),
    rfl⟩

end blockchain_statistics
